import Mathlib

/-!
Verification of the `ralgo` repository: a shallow embedding of its graph,
disjoint-set-union (DSU), offline-LCA and mergesort code, with theorems
checking the natural-language specification against that code.

Arrays (`Vec<usize>`, `Vec<bool>`) are embedded as Lean lists.  In-bounds
reads are embedded with `getE` / `List.getD` (the claims only exercise them
at in-range indices, where the Rust code cannot fail).  Writes whose index
can go out of range on inputs the claims quantify over are embedded with
the checked `set?`, so that a Rust index-out-of-bounds abort is modelled
as `none`.
-/

namespace Ralgo

/-- In-bounds read of a `Vec<usize>`: `l[i]`. -/
def getE (l : List Nat) (i : Nat) : Nat := l.getD i 0

/-- Checked write `l[i] = x`: `none` models the Rust out-of-bounds abort. -/
def setq (l : List Nat) (i x : Nat) : Option (List Nat) :=
  if i < l.length then some (l.set i x) else none

/-- Checked write to a `Vec<bool>`. -/
def setqB (l : List Bool) (i : Nat) (x : Bool) : Option (List Bool) :=
  if i < l.length then some (l.set i x) else none

/-! ## `src/djsu/index.rs` — `DjsuIndex`

`src/graph/union_find.rs` defines `UnionFind` with a textually identical
struct and identical `new` / `n_components` / `find` / `connected` / `union`
bodies, so one embedding serves both (see `UnionFind` below). -/

/-- The DSU state: `root` (parent pointers), `height`, `count`. -/
structure DjsuIndex where
  root : List Nat
  height : List Nat
  count : Nat
deriving Repr, DecidableEq

namespace DjsuIndex

/-- `DjsuIndex::new`. -/
def new (count : Nat) : DjsuIndex :=
  { root := List.range count, height := List.replicate count 0, count := count }

/-- `DjsuIndex::n_components`. -/
def n_components (s : DjsuIndex) : Nat := s.count

/-- First loop of `DjsuIndex::find`: walk `root` pointers to the first
fixpoint.  The loop is embedded with explicit fuel; fuel `root.length`
is enough on every well-formed state (proved below). -/
def findRootLoop (root : List Nat) (r : Nat) : Nat → Nat
  | 0 => r
  | fuel + 1 => if getE root r = r then r else findRootLoop root (getE root r) fuel

/-- Second loop of `DjsuIndex::find`: re-walk from `ind`, rewriting every
visited pointer directly to `target` (two-pass path compression). -/
def compressLoop (root : List Nat) (ind target : Nat) : Nat → List Nat
  | 0 => root
  | fuel + 1 =>
    if getE root ind = ind then root
    else compressLoop (root.set ind target) (getE root ind) target fuel

/-- `DjsuIndex::find` (`&mut self`): returns the updated state and the
representative. -/
def find (s : DjsuIndex) (ind : Nat) : DjsuIndex × Nat :=
  let r := findRootLoop s.root ind s.root.length
  ({ s with root := compressLoop s.root ind r s.root.length }, r)

/-- `DjsuIndex::connected` (`&mut self`). -/
def connected (s : DjsuIndex) (left right : Nat) : DjsuIndex × Bool :=
  let p := find s left
  let q := find p.1 right
  (q.1, p.2 == q.2)

/-- `DjsuIndex::union` (`&mut self`): returns the updated state and the
representative of the merged component. -/
def union (s : DjsuIndex) (left₀ right₀ : Nat) : DjsuIndex × Nat :=
  let p := find s left₀
  let left := p.2
  let q := find p.1 right₀
  let right := q.2
  let s2 := q.1
  if left = right then (s2, left)
  else
    let s3 : DjsuIndex := { s2 with count := s2.count - 1 }
    if getE s3.height left < getE s3.height right then
      ({ s3 with root := s3.root.set left right }, right)
    else if getE s3.height right < getE s3.height left then
      ({ s3 with root := s3.root.set right left }, left)
    else
      ({ s3 with root := s3.root.set right left,
                 height := s3.height.set right (getE s3.height right + 1) }, left)

end DjsuIndex

/-- `src/graph/union_find.rs` — `UnionFind` is textually identical to
`DjsuIndex` (same fields, same method bodies), so it shares the embedding. -/
abbrev UnionFind := DjsuIndex

/-! ## `src/djsu/rooted.rs` — `DjsuRooted` -/

/-- The rooted DSU: an inner `DjsuIndex` plus the designated-root array. -/
structure DjsuRooted where
  djsu : DjsuIndex
  root : List Nat
deriving Repr, DecidableEq

namespace DjsuRooted

/-- `DjsuRooted::new`. -/
def new (count : Nat) : DjsuRooted :=
  { djsu := DjsuIndex.new count, root := List.range count }

/-- `DjsuRooted::n_components`. -/
def n_components (s : DjsuRooted) : Nat := s.djsu.n_components

/-- `DjsuRooted::find` (`&mut self`): the designated root of `ind`'s
component. -/
def find (s : DjsuRooted) (ind : Nat) : DjsuRooted × Nat :=
  let p := s.djsu.find ind
  ({ s with djsu := p.1 }, getE s.root p.2)

/-- `DjsuRooted::connected` (`&mut self`). -/
def connected (s : DjsuRooted) (left right : Nat) : DjsuRooted × Bool :=
  let p := s.djsu.connected left right
  ({ s with djsu := p.1 }, p.2)

/-- `DjsuRooted::union` (`&mut self`): `self.root[repr] = self.root[major]`,
then returns `self.root[repr]`. -/
def union (s : DjsuRooted) (major minor : Nat) : DjsuRooted × Nat :=
  let p := s.djsu.union major minor
  let root' := s.root.set p.2 (getE s.root major)
  ({ djsu := p.1, root := root' }, getE root' p.2)

end DjsuRooted

/-! ## `src/sort/merge.rs` — bottom-up mergesort -/

section Mergesort

variable {T : Type _} [LinearOrder T]

/-- The element-by-element loop of `merge`, embedded with explicit fuel
so that it is structural recursion (each step consumes one input element,
so fuel `first.length + second.length` is exact). -/
def mergeRsF : Nat → List T → List T → List T
  | 0, _, _ => []
  | _ + 1, [], ys => ys
  | _ + 1, x :: xs, [] => x :: xs
  | fuel + 1, x :: xs, y :: ys =>
    if x < y then x :: mergeRsF fuel xs (y :: ys) else y :: mergeRsF fuel (x :: xs) ys

/-- `merge`: the merged content written into the output chunk.  The Rust
loop fills `output` (whose length is `first.len() + second.len()` at every
call site) left to right, taking the left element only when it is strictly
less than the right one. -/
def mergeRs (first second : List T) : List T :=
  mergeRsF (first.length + second.length) first second

/-- The chunk-pair loop of `merge_intervals`, embedded with explicit fuel
(each iteration consumes `2 * step ≥ 2` input elements, so fuel
`input.length` always suffices; on exhaustion the remaining output is
kept, which never happens at the call sites below). -/
def mergeIntervalsF : Nat → List T → List T → Nat → List T
  | 0, _, output, _ => output
  | fuel + 1, input, output, step =>
    if step = 0 ∨ input.length ≤ step then output
    else
      mergeRs (input.take step) ((input.drop step).take step) ++
        mergeIntervalsF fuel (input.drop (2 * step)) (output.drop (2 * step)) step

/-- `merge_intervals(input, output, step)`: pairs of consecutive
`step`-chunks of `input` are merged into `output`; when fewer than two
chunks remain the loop breaks and the rest of `output` keeps its old
content. -/
def merge_intervals (input output : List T) (step : Nat) : List T :=
  mergeIntervalsF input.length input output step

/-- The `while step < primary.len()` loop of `mergesort`, with the
`primary` / `secondary` buffer swap.  Fuel bounds the number of
iterations; `primary.length` iterations always suffice since `step`
doubles. -/
def mergesortLoop (primary secondary : List T) (step : Nat) (swapped : Bool) :
    Nat → List T × List T × Bool
  | 0 => (primary, secondary, swapped)
  | fuel + 1 =>
    if step < primary.length then
      mergesortLoop (merge_intervals primary secondary step) primary (2 * step) (!swapped) fuel
    else (primary, secondary, swapped)

/-- `mergesort(array)`: the final content of `array`.  After the loop the
sorted data lives in `primary`; when `swapped` it is copied back into the
caller's buffer, so the resulting array content is `primary` either way. -/
def mergesort (array : List T) : List T :=
  if array.length < 2 then array
  else (mergesortLoop array array 1 false array.length).1

end Mergesort

/-! ## `src/graph/indexed.rs` — `GraphIndexed` (CSR graph)

`src/graph/static_graph.rs` defines `StaticGraph` with the same fields and
an identical `new` / `neighbors` / `n_vert` (plus `n_edges`), so one
embedding serves both (see `StaticGraph` below). -/

/-- `l[i] += 1`. -/
def bump (l : List Nat) (i : Nat) : List Nat := l.set i (getE l i + 1)

/-- `for i in 2 .. n { offset[i] += offset[i-1] }` (shared by
`GraphIndexed::new` and `TreeIndexed::new`). -/
def prefixSums (off : List Nat) : List Nat :=
  (List.range' 2 (off.length - 2)).foldl
    (fun o i => o.set i (getE o i + getE o (i - 1))) off

/-- The CSR graph: prefix-sum `offset` and flat neighbor array `neigh`. -/
structure GraphIndexed where
  offset : List Nat
  neigh : List Nat
deriving Repr, DecidableEq

namespace GraphIndexed

/-- The degree-count loop of `new`: `offset[u+1] += 1` for each edge half,
guarded by `u < n_vert - 1`. -/
def countDeg (n_vert : Nat) (edges : List (Nat × Nat)) : List Nat :=
  edges.foldl (fun off e =>
    let off := if e.1 < n_vert - 1 then bump off (e.1 + 1) else off
    if e.2 < n_vert - 1 then bump off (e.2 + 1) else off)
    (List.replicate n_vert 0)

/-- One edge of the scatter loop: `neigh[pos[u]] = v; pos[u] += 1;` and the
symmetric half.  The reads `pos[u]`, `pos[v]` and the writes into `neigh`
are checked: `none` models the Rust out-of-bounds abort. -/
def scatterStep (pn : List Nat × List Nat) (e : Nat × Nat) :
    Option (List Nat × List Nat) := do
  let pu ← pn.1[e.1]?
  let neigh ← setq pn.2 pu e.2
  let pos := pn.1.set e.1 (pu + 1)
  let pv ← pos[e.2]?
  let neigh ← setq neigh pv e.1
  pure (pos.set e.2 (pv + 1), neigh)

/-- `GraphIndexed::new` (also `StaticGraph::new`). -/
def new (n_vert : Nat) (edges : List (Nat × Nat)) : Option GraphIndexed :=
  let offset := prefixSums (countDeg n_vert edges)
  (edges.foldlM scatterStep (offset, List.replicate (2 * edges.length) 0)).map
    fun pn => { offset := offset, neigh := pn.2 }

/-- `GraphIndexed::n_vert`. -/
def n_vert (g : GraphIndexed) : Nat := g.offset.length

/-- `GraphIndexed::neighbors`: the CSR slice
`neigh[offset[vert] .. offset[vert+1]]`, or to the end of the array for
the last vertex. -/
def neighbors (g : GraphIndexed) (vert : Nat) : List Nat :=
  if vert < g.offset.length - 1 then
    (g.neigh.drop (getE g.offset vert)).take (getE g.offset (vert + 1) - getE g.offset vert)
  else
    g.neigh.drop (getE g.offset vert)

/-- Modelled from the spec: `GraphIndexed::n_edges` is missing from src
(`TreeIndexed::new` calls it); spec section 4.1 specifies the StaticGraph
form, half the neighbor-array length, which `StaticGraph::n_edges` in
src also implements. -/
def n_edges (g : GraphIndexed) : Nat := g.neigh.length / 2

end GraphIndexed

/-- `src/graph/static_graph.rs` — `StaticGraph` is field-for-field and
body-for-body the same CSR construction as `GraphIndexed`, so it shares
the embedding. -/
abbrev StaticGraph := GraphIndexed

/-! ## `src/graph/dfs.rs` — depth-first search -/

/-- The DFS result: `source`, `parent` (self-loop sentinel), the cycle
flag and the reached-vertex counter. -/
structure DFS where
  source : Nat
  parent : List Nat
  cycle_found : Bool
  n_vert_reached : Nat
deriving Repr, DecidableEq

namespace DFS

/-- `DFS::run`, embedded with explicit fuel (the Rust recursion
terminates because every nested call starts at a freshly unvisited
vertex, so fuel `n_vert` suffices; fuel exhaustion yields `none`).
The write `visited[source] = true` is checked, so a Rust out-of-range
`source` abort is modelled as `none`. -/
def runF (g : GraphIndexed) : Nat → Nat → DFS × List Bool → Option (DFS × List Bool)
  | 0, _, _ => none
  | fuel + 1, source, st => do
    let visited ← setqB st.2 source true
    (g.neighbors source).foldlM (fun st neigh =>
        if st.2.getD neigh false = false then
          runF g fuel neigh ({ st.1 with parent := st.1.parent.set neigh source }, st.2)
        else if neigh ≠ getE st.1.parent source then
          some ({ st.1 with cycle_found := true }, st.2)
        else
          some st)
      ({ st.1 with n_vert_reached := st.1.n_vert_reached + 1 }, visited)

/-- The body of the neighbor loop of `DFS::run`, named so the embedding
can be reasoned about one scanned neighbor at a time (definitionally the
lambda inside `runF`). -/
def scanStep (g : GraphIndexed) (fuel source : Nat) (st : DFS × List Bool) (neigh : Nat) :
    Option (DFS × List Bool) :=
  if st.2.getD neigh false = false then
    runF g fuel neigh ({ st.1 with parent := st.1.parent.set neigh source }, st.2)
  else if neigh ≠ getE st.1.parent source then
    some ({ st.1 with cycle_found := true }, st.2)
  else
    some st

/-- `DFS::new`. -/
def new (g : GraphIndexed) (source : Nat) : Option DFS :=
  let dfs : DFS := { source := source, parent := List.range g.n_vert,
                     cycle_found := false, n_vert_reached := 0 }
  (runF g g.n_vert source (dfs, List.replicate g.n_vert false)).map Prod.fst

/-- `DFS::parent` (the accessor; named `parentOf` because `parent` is the
field): `None` for the source or an unreached vertex. -/
def parentOf (d : DFS) (node : Nat) : Option Nat :=
  if getE d.parent node = node then none else some (getE d.parent node)

/-- `DFS::is_reached`. -/
def is_reached (d : DFS) (node : Nat) : Bool :=
  node == d.source || getE d.parent node != node

end DFS

/-! ## `src/graph/data/tree_indexed.rs` — `TreeIndexed` -/

/-- The rooted tree: `root`, CSR `offset`/`children`, and the DFS parent
array. -/
structure TreeIndexed where
  root : Nat
  offset : List Nat
  children : List Nat
  parent : List Nat
deriving Repr, DecidableEq

namespace TreeIndexed

/-- `TreeIndexed::new`.  `Err(())` (not-a-tree) is `Except.error`; `none`
models a Rust abort (the children scatter writes are checked).
`dfs.extract_parent()` is missing from src; modelled from the spec as
the DFS parent array, which is what `TreeIndexed.parent` stores. -/
def new (g : GraphIndexed) (root : Nat) : Option (Except Unit TreeIndexed) := do
  let dfs ← DFS.new g root
  if dfs.cycle_found = true ∨ dfs.n_vert_reached < g.n_vert then
    pure (Except.error ())
  else
    let offset := prefixSums ((List.range (g.n_vert - 1)).foldl (fun off vert =>
      (g.neighbors vert).foldl (fun off neigh =>
          if dfs.parentOf vert ≠ some neigh then bump off (vert + 1) else off) off)
      (List.replicate g.n_vert 0))
    let cp ← (List.range g.n_vert).foldlM (fun (cp : List Nat × List Nat) vert =>
        (g.neighbors vert).foldlM (fun cp neigh =>
            if dfs.parentOf vert ≠ some neigh then do
              let children ← setq cp.1 (getE cp.2 vert) neigh
              pure (children, bump cp.2 vert)
            else pure cp) cp)
      (List.replicate g.n_edges 0, offset)
    pure (Except.ok { root := root, offset := offset, children := cp.1, parent := dfs.parent })

/-- `TreeIndexed::n_vert`. -/
def n_vert (t : TreeIndexed) : Nat := t.offset.length

/-- `TreeIndexed::n_edges`. -/
def n_edges (t : TreeIndexed) : Nat := t.children.length

/-- `TreeIndexed::children` (the accessor; named `childrenOf` because
`children` is the field): the CSR slice of child vertices. -/
def childrenOf (t : TreeIndexed) (node : Nat) : List Nat :=
  if node < t.offset.length - 1 then
    (t.children.drop (getE t.offset node)).take (getE t.offset (node + 1) - getE t.offset node)
  else
    t.children.drop (getE t.offset node)

/-- `TreeIndexed::parent` (the accessor; named `parentOf` because `parent`
is the field): `None` exactly for the root. -/
def parentOf (t : TreeIndexed) (node : Nat) : Option Nat :=
  if node = t.root then none else some (getE t.parent node)

end TreeIndexed

namespace TreeIndexed

/-- Modelled from the spec: `TreeIndexed::postorder` is missing from src
(`LcaOffline::new` iterates over it); spec section 4.6 specifies a
postorder traversal of the tree, children fully processed before the
vertex itself.  Fuel-based recursion over the CSR children lists; fuel
`n_vert` suffices on every genuine tree (proved where used). -/
def postorderF (t : TreeIndexed) : Nat → Nat → List Nat
  | 0, _ => []
  | fuel + 1, v => (t.childrenOf v).flatMap (postorderF t fuel) ++ [v]

/-- Modelled from the spec: the traversal starts at the tree root. -/
def postorder (t : TreeIndexed) : List Nat := postorderF t t.n_vert t.root

end TreeIndexed

/-! ## `src/graph/lca_offline.rs` — offline LCA (Tarjan)

`HashMap<(usize, usize), usize>` is modelled as an association list where
`insert` conses a binding and lookup takes the first match, which is
extensionally the insert-overwrites / lookup-latest behavior of the Rust
map. -/

/-- The LCA answer table. -/
structure LcaOffline where
  result : List ((Nat × Nat) × Nat)
deriving Repr, DecidableEq

namespace LcaOffline

/-- `LcaOffline::order`: canonical (min, max) form of a pair. -/
def order (x y : Nat) : Nat × Nat := if x < y then (x, y) else (y, x)

/-- `LcaOffline::new`: group queries by both endpoints, then run the
postorder pass, answering the pending pairs whose partner is already
visited and merging each non-root vertex into its parent. -/
def new (t : TreeIndexed) (queries : List (Nat × Nat)) : LcaOffline :=
  let pairs := queries.foldl
    (fun (pairs : List (List Nat)) q =>
      let pairs := pairs.set q.1 (pairs.getD q.1 [] ++ [q.2])
      pairs.set q.2 (pairs.getD q.2 [] ++ [q.1]))
    (List.replicate t.n_vert [])
  let st := t.postorder.foldl
    (fun (st : List Bool × DjsuRooted × List ((Nat × Nat) × Nat)) vert =>
      let visited := st.1.set vert true
      let inner := (pairs.getD vert []).foldl
        (fun (st2 : DjsuRooted × List ((Nat × Nat) × Nat)) other =>
          if visited.getD other false then
            let f := st2.1.find other
            (f.1, (order vert other, f.2) :: st2.2)
          else st2)
        (st.2.1, st.2.2)
      if vert ≠ t.root then
        let u := inner.1.union ((t.parentOf vert).getD 0) vert
        (visited, u.1, inner.2)
      else (visited, inner.1, inner.2))
    (List.replicate t.n_vert false, DjsuRooted.new t.n_vert, [])
  { result := st.2.2 }

/-- `LcaOffline::ancestor`: look up the canonical pair; `Err(())` when the
pair was never queried. -/
def ancestor (l : LcaOffline) (v u : Nat) : Except Unit Nat :=
  match l.result.lookup (order v u) with
  | some x => Except.ok x
  | none => Except.error ()

end LcaOffline

/-! ## Proof-layer definitions for the DSU

`parv` is the parent-pointer map of a DSU `root` array; a state is
well-formed when pointers stay in range and every chain reaches a
fixpoint.  Every state reachable from `DjsuIndex::new` by in-range
operations is well-formed (proved below). -/

/-- The parent-pointer map of a `root` array. -/
def parv (root : List Nat) (i : Nat) : Nat := getE root i

/-- `i` is its own parent (a true representative). -/
def IsFix (root : List Nat) (i : Nat) : Prop := parv root i = i

/-- The chain of parent pointers from `i` reaches `t`. -/
def Reach (root : List Nat) (i t : Nat) : Prop := ∃ k, (parv root)^[k] i = t

/-- `t` is the representative at the end of `i`'s chain. -/
def RootedAt (root : List Nat) (i t : Nat) : Prop := Reach root i t ∧ IsFix root t

namespace DjsuIndex

/-- Well-formedness: heights parallel to roots, pointers in range, and
every chain terminates at a representative. -/
def WF (s : DjsuIndex) : Prop :=
  s.height.length = s.root.length ∧
  (∀ i < s.root.length, parv s.root i < s.root.length) ∧
  (∀ i < s.root.length, ∃ t, RootedAt s.root i t)

/-- The representative of `i`'s component, as the code's own first loop
computes it (well-formedness makes fuel `root.length` sufficient). -/
def rootOf (s : DjsuIndex) (i : Nat) : Nat := findRootLoop s.root i s.root.length

/-- The number of indices that are their own parent. -/
def countFix (s : DjsuIndex) : Nat :=
  (List.range s.root.length).countP (fun j => getE s.root j == j)

/-- The states reachable from `DjsuIndex::new` by in-range operations. -/
inductive Reachable : Nat → DjsuIndex → Prop
  | base (n : Nat) : Reachable n (new n)
  | find_step {n : Nat} (s : DjsuIndex) (i : Nat) :
      i < n → Reachable n s → Reachable n (s.find i).1
  | connected_step {n : Nat} (s : DjsuIndex) (a b : Nat) :
      a < n → b < n → Reachable n s → Reachable n (s.connected a b).1
  | union_step {n : Nat} (s : DjsuIndex) (a b : Nat) :
      a < n → b < n → Reachable n s → Reachable n (s.union a b).1

end DjsuIndex

/-- One DSU operation of a call sequence. -/
inductive DsuOp
  | find (i : Nat)
  | connected (a b : Nat)
  | union (a b : Nat)
deriving Repr, DecidableEq

namespace DsuOp

/-- The operation's arguments are in range. -/
def InRange (n : Nat) : DsuOp → Prop
  | .find i => i < n
  | .connected a b => a < n ∧ b < n
  | .union a b => a < n ∧ b < n

end DsuOp

namespace DjsuIndex

/-- Apply one operation (dropping returned values). -/
def applyOp (s : DjsuIndex) : DsuOp → DjsuIndex
  | .find i => (s.find i).1
  | .connected a b => (s.connected a b).1
  | .union a b => (s.union a b).1

/-- Run a call sequence from a fresh structure. -/
def runOps (n : Nat) (ops : List DsuOp) : DjsuIndex :=
  ops.foldl applyOp (new n)

/-- Does the operation merge two previously-distinct components in state
`s`?  (Exactly the unions whose arguments are not yet connected.) -/
def isMerge (s : DjsuIndex) : DsuOp → Bool
  | .union a b => !(s.connected a b).2
  | _ => false

/-- The number of merging unions along a call sequence from a fresh
structure. -/
def countMerges (n : Nat) (ops : List DsuOp) : Nat :=
  (ops.foldl (fun (p : DjsuIndex × Nat) op =>
    (applyOp p.1 op, p.2 + if isMerge p.1 op then 1 else 0)) (new n, 0)).2

end DjsuIndex

namespace DjsuRooted

/-- Well-formedness of the rooted DSU: the inner DSU is well-formed, the
designated-root array is parallel to it, and every raw entry of the
designated-root array lies in the component of its own index. -/
def WF (s : DjsuRooted) : Prop :=
  s.djsu.WF ∧ s.root.length = s.djsu.root.length ∧
  ∀ i < s.djsu.root.length,
    getE s.root i < s.djsu.root.length ∧
      s.djsu.rootOf (getE s.root i) = s.djsu.rootOf i

/-- The states reachable from `DjsuRooted::new` by in-range operations. -/
inductive Reachable : Nat → DjsuRooted → Prop
  | base (n : Nat) : Reachable n (new n)
  | find_step {n : Nat} (s : DjsuRooted) (i : Nat) :
      i < n → Reachable n s → Reachable n (s.find i).1
  | connected_step {n : Nat} (s : DjsuRooted) (a b : Nat) :
      a < n → b < n → Reachable n s → Reachable n (s.connected a b).1
  | union_step {n : Nat} (s : DjsuRooted) (a b : Nat) :
      a < n → b < n → Reachable n s → Reachable n (s.union a b).1

end DjsuRooted

/-! ### Proof-layer definitions for the CSR graph -/

/-- The number of half-edges at `v`: occurrences of `v` as either
endpoint, a self-loop counting twice. -/
def cntHalf (edges : List (Nat × Nat)) (v : Nat) : Nat :=
  edges.countP (fun e => e.1 == v) + edges.countP (fun e => e.2 == v)

/-- The reference neighbor list of `v`: for each edge `(a,b)` in order,
`b` if `a = v`, then `a` if `b = v` (matching the scatter order of
`GraphIndexed::new`). -/
def partners (edges : List (Nat × Nat)) (v : Nat) : List Nat :=
  edges.flatMap fun e =>
    (if e.1 = v then [e.2] else []) ++ (if e.2 = v then [e.1] else [])

/-! ### Proof-layer definitions for the offline LCA -/

/-- The number of true entries of a visited array. -/
def countTrue (l : List Bool) : Nat := l.countP id

/-- The unordered pair `{v, u}` occurs in the query batch. -/
def pairInBatch (qs : List (Nat × Nat)) (v u : Nat) : Prop :=
  (v, u) ∈ qs ∨ (u, v) ∈ qs

namespace TreeIndexed

/-- `a` is an ancestor of `x` (following the parent array; `x` is its own
ancestor). -/
def Anc (t : TreeIndexed) (a x : Nat) : Prop :=
  ∃ k, (parv t.parent)^[k] x = a

/-- `w` is the lowest common ancestor of `v` and `u`: a common ancestor
of which every common ancestor is an ancestor. -/
def IsLca (t : TreeIndexed) (v u w : Nat) : Prop :=
  t.Anc w v ∧ t.Anc w u ∧ ∀ b, t.Anc b v → t.Anc b u → t.Anc b w

end TreeIndexed

/-- `c` is a tree child of `v`: in range, not the root, and `v` is its
parent. -/
def IsChild (t : TreeIndexed) (c v : Nat) : Prop :=
  c < t.n_vert ∧ c ≠ t.root ∧ parv t.parent c = v

/-- The shape invariant of a genuine rooted tree, as `TreeIndexed::new`
guarantees it on success: the root is its own parent and the only
self-parented vertex, every chain reaches the root, and each vertex's
children list holds exactly the vertices it is the parent of. -/
structure TreeGood (t : TreeIndexed) : Prop where
  nv_pos : 0 < t.n_vert
  root_lt : t.root < t.n_vert
  plen : t.parent.length = t.n_vert
  proot : parv t.parent t.root = t.root
  pbound : ∀ v < t.n_vert, parv t.parent v < t.n_vert
  pne : ∀ v < t.n_vert, v ≠ t.root → parv t.parent v ≠ v
  preach : ∀ v < t.n_vert, ∃ k, (parv t.parent)^[k] v = t.root
  childCount : ∀ v < t.n_vert, ∀ u, (t.childrenOf v).count u =
    if u < t.n_vert ∧ u ≠ t.root ∧ parv t.parent u = v then 1 else 0

/-! ### Proof-layer definitions for the DFS run -/

/-- What one (possibly nested) DFS step never undoes: array sizes, the
visited set, parent entries of visited vertices, and a raised cycle
flag. -/
def DMono (st st' : DFS × List Bool) : Prop :=
  st'.1.parent.length = st.1.parent.length ∧
  st'.2.length = st.2.length ∧
  (∀ x, st.2.getD x false = true → st'.2.getD x false = true) ∧
  (∀ x, st.2.getD x false = true → getE st'.1.parent x = getE st.1.parent x) ∧
  (st.1.cycle_found = true → st'.1.cycle_found = true)

/-- The flag-free facts one finished scan of `p`'s neighbor list leaves
behind: every neighbor other than `p`'s own parent has been adopted by
`p`, is visited, and occurs exactly once. -/
def GoodVert (g : GraphIndexed) (st : DFS × List Bool) (p : Nat) : Prop :=
  st.1.cycle_found = false → ∀ u ∈ g.neighbors p, u ≠ getE st.1.parent p →
    getE st.1.parent u = p ∧ st.2.getD u false = true ∧ (g.neighbors p).count u = 1

/-- A vertex freshly discovered below `source`: a genuine parent entry,
the discovery edge, and a fully visited parent chain down to `source`. -/
def Discovered (g : GraphIndexed) (source : Nat) (st : DFS × List Bool) (x : Nat) : Prop :=
  getE st.1.parent x ≠ x ∧ x ∈ g.neighbors (getE st.1.parent x) ∧
  ∃ k, (parv st.1.parent)^[k] x = source ∧
    ∀ j ≤ k, st.2.getD ((parv st.1.parent)^[j] x) false = true

/-- Precondition of a nested `DFS::run` call. -/
def RunPre (n source : Nat) (st : DFS × List Bool) : Prop :=
  st.2.length = n ∧ st.1.parent.length = n ∧ source < n ∧
  st.2.getD source false = false ∧
  (st.2.getD (getE st.1.parent source) false = true ∨ getE st.1.parent source = source) ∧
  (∀ x < n, getE st.1.parent x < n)

/-- Postcondition of a nested `DFS::run` call. -/
def RunPost (g : GraphIndexed) (n source : Nat) (st out : DFS × List Bool) : Prop :=
  DMono st out ∧
  out.2.getD source false = true ∧
  getE out.1.parent source = getE st.1.parent source ∧
  (∀ x < n, getE out.1.parent x < n) ∧
  out.1.n_vert_reached + countTrue st.2 = st.1.n_vert_reached + countTrue out.2 ∧
  (∀ x, st.2.getD x false = false → out.2.getD x false = true →
    (x ≠ source → Discovered g source out x) ∧ GoodVert g out x)

/-! ### Proof-layer definitions for the children CSR of `TreeIndexed` -/

/-- The filtered degree of `v`: its neighbors that are not its DFS
parent (what the children-offset loop counts). -/
def fdeg (g : GraphIndexed) (d : DFS) (v : Nat) : Nat :=
  (g.neighbors v).countP (fun u => decide (d.parentOf v ≠ some u))

/-- The filtered neighbor list of `v` (what the children scatter writes
into `v`'s slice, in order). -/
def fList (g : GraphIndexed) (d : DFS) (v : Nat) : List Nat :=
  (g.neighbors v).filter (fun u => decide (d.parentOf v ≠ some u))

/-! ### Proof-layer definitions for the Tarjan pass -/

/-- `a` is the pending ancestor of `x` for visited set `vis`: the first
unvisited vertex on `x`'s parent chain. -/
def AnchorAt (t : TreeIndexed) (vis : List Bool) (x a : Nat) : Prop :=
  ∃ m, (parv t.parent)^[m] x = a ∧ vis.getD a false = false ∧
    ∀ j < m, vis.getD ((parv t.parent)^[j] x) false = true

namespace LcaOffline

/-- The query-grouping loop of `LcaOffline::new`, named for reuse in
proofs (definitionally the first fold of `new`). -/
def pairsOf (t : TreeIndexed) (queries : List (Nat × Nat)) : List (List Nat) :=
  queries.foldl
    (fun (pairs : List (List Nat)) q =>
      let pairs := pairs.set q.1 (pairs.getD q.1 [] ++ [q.2])
      pairs.set q.2 (pairs.getD q.2 [] ++ [q.1]))
    (List.replicate t.n_vert [])

/-- The per-vertex body of the postorder pass of `LcaOffline::new`,
named for reuse in proofs (definitionally the lambda of the main fold
of `new`). -/
def tarStep (t : TreeIndexed) (pairs : List (List Nat))
    (st : List Bool × DjsuRooted × List ((Nat × Nat) × Nat)) (vert : Nat) :
    List Bool × DjsuRooted × List ((Nat × Nat) × Nat) :=
  let visited := st.1.set vert true
  let inner := (pairs.getD vert []).foldl
    (fun (st2 : DjsuRooted × List ((Nat × Nat) × Nat)) other =>
      if visited.getD other false then
        let f := st2.1.find other
        (f.1, (order vert other, f.2) :: st2.2)
      else st2)
    (st.2.1, st.2.2)
  if vert ≠ t.root then
    let u := inner.1.union ((t.parentOf vert).getD 0) vert
    (visited, u.1, inner.2)
  else (visited, inner.1, inner.2)

/-- The partner scan inside `tarStep`, named for reuse in proofs
(definitionally the inner fold of `tarStep` once `visited` is in
hand). -/
def tarInnerFold (vis : List Bool) (v : Nat) (todo : List Nat)
    (st2 : DjsuRooted × List ((Nat × Nat) × Nat)) : DjsuRooted × List ((Nat × Nat) × Nat) :=
  todo.foldl (fun (st2 : DjsuRooted × List ((Nat × Nat) × Nat)) other =>
    if vis.getD other false then
      ((st2.1.find other).1, (order v other, (st2.1.find other).2) :: st2.2)
    else st2) st2

end LcaOffline

/-- The running invariant of the Tarjan pass, between vertices: sizes,
inner-DSU well-formedness, the visited set closed under children, every
visited non-root vertex merged with its parent, the designated root of
every class equal to its members' pending ancestor, raw designated
entries of unvisited vertices untouched, and the answer table holding
exactly the queried pairs with both endpoints visited, each mapped to a
true lowest common ancestor. -/
def TarBase (t : TreeIndexed) (qs : List (Nat × Nat))
    (st : List Bool × DjsuRooted × List ((Nat × Nat) × Nat)) : Prop :=
  st.1.length = t.n_vert ∧
  st.2.1.djsu.WF ∧
  st.2.1.djsu.root.length = t.n_vert ∧
  st.2.1.root.length = t.n_vert ∧
  (∀ u, st.1.getD u false = true → u < t.n_vert ∧
    ∀ c, IsChild t c u → st.1.getD c false = true) ∧
  (∀ y, st.1.getD y false = true → y ≠ t.root →
    st.2.1.djsu.rootOf y = st.2.1.djsu.rootOf (parv t.parent y)) ∧
  (∀ x < t.n_vert, ∀ a, AnchorAt t st.1 x a →
    getE st.2.1.root (st.2.1.djsu.rootOf x) = a) ∧
  (∀ w < t.n_vert, st.1.getD w false = false → getE st.2.1.root w = w) ∧
  (∀ x < t.n_vert, ∀ y < t.n_vert,
    ((pairInBatch qs x y ∧ st.1.getD x false = true ∧ st.1.getD y false = true) →
      ∃ w, st.2.2.lookup (LcaOffline.order x y) = some w ∧ t.IsLca x y w) ∧
    (¬ (pairInBatch qs x y ∧ st.1.getD x false = true ∧ st.1.getD y false = true) →
      st.2.2.lookup (LcaOffline.order x y) = none))

/-- The graph of the `LcaOffline` doctest:
`GraphIndexed::new(4, &[(0, 1), (2, 1), (1, 3)])`. -/
def gW : GraphIndexed := { offset := [0, 1, 4, 5], neigh := [1, 0, 2, 3, 1, 1] }

/-- The tree of the `LcaOffline` doctest: `TreeIndexed::new(&graph, 3)`. -/
def tW : TreeIndexed :=
  { root := 3, offset := [0, 0, 2, 2], children := [0, 2, 1], parent := [1, 3, 1, 3] }

end Ralgo

/-! ## Theorems -/

namespace Ralgo

/-! ### Parent-chain basics -/

theorem getE_set_ne (l : List Nat) (i x j : Nat) (h : j ≠ i) :
    getE (l.set i x) j = getE l j := by
  simp [getE, List.getD, List.getElem?_set_ne (Ne.symm h)]

theorem getE_set_self (l : List Nat) (i x : Nat) (h : i < l.length) :
    getE (l.set i x) i = x := by
  simp [getE, List.getD, List.getElem?_set_self, h]

theorem parv_set_ne (root : List Nat) (i x j : Nat) (h : j ≠ i) :
    parv (root.set i x) j = parv root j := getE_set_ne root i x j h

theorem parv_set_self (root : List Nat) (i x : Nat) (h : i < root.length) :
    parv (root.set i x) i = x := getE_set_self root i x h

theorem isFix_iterate {root : List Nat} {t : Nat} (h : IsFix root t) (m : Nat) :
    (parv root)^[m] t = t := Function.iterate_fixed h m

/-- The representative at the end of a chain is unique. -/
theorem rootedAt_unique {root : List Nat} {i t t' : Nat}
    (h : RootedAt root i t) (h' : RootedAt root i t') : t = t' := by
  obtain ⟨⟨k, hk⟩, hfix⟩ := h
  obtain ⟨⟨k', hk'⟩, hfix'⟩ := h'
  rcases le_total k k' with hle | hle
  · have : (parv root)^[k'] i = t := by
      have := Function.iterate_add_apply (parv root) (k' - k) k i
      rw [Nat.sub_add_cancel hle] at this
      rw [this, hk, isFix_iterate hfix]
    rw [← this, hk']
  · have : (parv root)^[k] i = t' := by
      have := Function.iterate_add_apply (parv root) (k - k') k' i
      rw [Nat.sub_add_cancel hle] at this
      rw [this, hk', isFix_iterate hfix']
    rw [← hk, this]

theorem rootedAt_step {root : List Nat} {i t : Nat} (hnf : ¬ IsFix root i)
    (h : RootedAt root i t) : RootedAt root (parv root i) t := by
  obtain ⟨⟨k, hk⟩, hfix⟩ := h
  cases k with
  | zero =>
    simp only [Function.iterate_zero, id] at hk
    subst hk
    exact absurd hfix hnf
  | succ k =>
    exact ⟨⟨k, by rw [← Function.iterate_succ_apply]; exact hk⟩, hfix⟩

/-- The first loop of `find` computes the chain's endpoint: with enough
fuel, it equals the `fuel`-fold iterate. -/
theorem findRootLoop_eq_iterate (root : List Nat) :
    ∀ (fuel i : Nat), (∃ k ≤ fuel, IsFix root ((parv root)^[k] i)) →
      DjsuIndex.findRootLoop root i fuel = (parv root)^[fuel] i
  | 0, i, ⟨k, hk, hfix⟩ => by
    obtain rfl : k = 0 := Nat.le_zero.mp hk
    simp [DjsuIndex.findRootLoop]
  | fuel + 1, i, ⟨k, hk, hfix⟩ => by
    rw [DjsuIndex.findRootLoop]
    by_cases hf : getE root i = i
    · rw [if_pos hf, Function.iterate_fixed (show parv root i = i from hf)]
    · rw [if_neg hf]
      have hk0 : k ≠ 0 := by
        rintro rfl
        exact hf hfix
      obtain ⟨k', rfl⟩ := Nat.exists_eq_succ_of_ne_zero hk0
      have hfix' : IsFix root ((parv root)^[k'] (parv root i)) := by
        rwa [← Function.iterate_succ_apply]
      show DjsuIndex.findRootLoop root (parv root i) fuel = (parv root)^[fuel + 1] i
      rw [findRootLoop_eq_iterate root fuel (parv root i)
        ⟨k', Nat.lt_succ_iff.mp hk, hfix'⟩, ← Function.iterate_succ_apply]

theorem iterate_absorb {root : List Nat} {i k m : Nat}
    (hfix : IsFix root ((parv root)^[k] i)) (hkm : k ≤ m) :
    (parv root)^[m] i = (parv root)^[k] i := by
  have h := Function.iterate_add_apply (parv root) (m - k) k i
  rw [Nat.sub_add_cancel hkm] at h
  rw [h, isFix_iterate hfix]

theorem iterate_lt {root : List Nat} (hb : ∀ j < root.length, parv root j < root.length)
    {i : Nat} (hi : i < root.length) (m : Nat) : (parv root)^[m] i < root.length := by
  induction m with
  | zero => simpa using hi
  | succ m ih => rw [Function.iterate_succ_apply']; exact hb _ ih

/-- The endpoint of the chain from any in-range start is hit within
`root.length` steps (pigeonhole on the distinct pre-hit chain nodes). -/
theorem first_fix_lt_length {root : List Nat} {i : Nat}
    (hb : ∀ j < root.length, parv root j < root.length) (hi : i < root.length)
    (h : ∃ t, RootedAt root i t) :
    ∃ k < root.length, IsFix root ((parv root)^[k] i) := by
  obtain ⟨t, ⟨kt, hkt⟩, hfix⟩ := h
  have hex : ∃ k, IsFix root ((parv root)^[k] i) := ⟨kt, by rw [hkt]; exact hfix⟩
  classical
  set K := Nat.find hex with hK
  have hKfix : IsFix root ((parv root)^[K] i) := Nat.find_spec hex
  have hKmin : ∀ m < K, ¬ IsFix root ((parv root)^[m] i) := fun m hm => Nat.find_min hex hm
  refine ⟨K, ?_, hKfix⟩
  by_contra hKge
  push_neg at hKge
  have hiter_lt : ∀ m, (parv root)^[m] i < root.length := by
    intro m
    induction m with
    | zero => simpa using hi
    | succ m ih => rw [Function.iterate_succ_apply']; exact hb _ ih
  have habsorb : ∀ m, K ≤ m → (parv root)^[m] i = (parv root)^[K] i := by
    intro m hm
    have := Function.iterate_add_apply (parv root) (m - K) K i
    rw [Nat.sub_add_cancel hm] at this
    rw [this, isFix_iterate hKfix]
  have key : ∀ a b : Nat, a < b → b ≤ K →
      (parv root)^[a] i = (parv root)^[b] i → False := by
    intro a b hlt hbK hab
    have hperiod : ∀ m, (parv root)^[a + m * (b - a)] i = (parv root)^[a] i := by
      intro m
      induction m with
      | zero => simp
      | succ m ih =>
        have harith : a + (m + 1) * (b - a) = (b - a) + (a + m * (b - a)) := by ring
        rw [harith, Function.iterate_add_apply, ih, ← Function.iterate_add_apply]
        have hba : b - a + a = b := by omega
        rw [hba]
        exact hab.symm
    have hKle : K ≤ a + K * (b - a) := by nlinarith [Nat.sub_pos_of_lt hlt]
    have hafix : IsFix root ((parv root)^[a] i) := by
      rw [← hperiod K, habsorb _ hKle]
      exact hKfix
    exact hKmin a (by omega) hafix
  have hinj : Set.InjOn (fun m => (parv root)^[m] i) (Finset.range (K + 1)) := by
    intro a ha b hb' hab
    simp only [Finset.coe_range, Set.mem_Iio] at ha hb'
    rcases lt_trichotomy a b with hlt | heq | hlt
    · exact absurd hab (fun hab => key a b hlt (by omega) hab)
    · exact heq
    · exact absurd hab.symm (fun hab => key b a hlt (by omega) hab)
  have hcard : (Finset.range (K + 1)).card ≤ (Finset.range root.length).card := by
    refine Finset.card_le_card_of_injOn (fun m => (parv root)^[m] i) ?_ hinj
    intro m _
    simpa using hiter_lt m
  simp only [Finset.card_range] at hcard
  omega

/-! ### `rootOf` and path compression -/

namespace DjsuIndex

theorem rootOf_rootedAt {s : DjsuIndex} (hwf : s.WF) {i : Nat}
    (hi : i < s.root.length) : RootedAt s.root i (s.rootOf i) := by
  obtain ⟨hh, hb, hr⟩ := hwf
  obtain ⟨k, hk, hfix⟩ := first_fix_lt_length hb hi (hr i hi)
  have heq := findRootLoop_eq_iterate s.root s.root.length i ⟨k, le_of_lt hk, hfix⟩
  rw [rootOf, heq]
  refine ⟨⟨s.root.length, rfl⟩, ?_⟩
  rw [iterate_absorb hfix (le_of_lt hk)]
  exact hfix

theorem rootOf_eq_of_rootedAt {s : DjsuIndex} (hwf : s.WF) {i t : Nat}
    (hi : i < s.root.length) (h : RootedAt s.root i t) : s.rootOf i = t :=
  rootedAt_unique (rootOf_rootedAt hwf hi) h

theorem rootOf_isFix {s : DjsuIndex} (hwf : s.WF) {i : Nat}
    (hi : i < s.root.length) : IsFix s.root (s.rootOf i) :=
  (rootOf_rootedAt hwf hi).2

theorem rootOf_lt {s : DjsuIndex} (hwf : s.WF) {i : Nat}
    (hi : i < s.root.length) : s.rootOf i < s.root.length := by
  obtain ⟨⟨k, hk⟩, _⟩ := rootOf_rootedAt hwf hi
  rw [← hk]
  exact iterate_lt hwf.2.1 hi k

theorem rootOf_of_isFix {s : DjsuIndex} (hwf : s.WF) {i : Nat}
    (hi : i < s.root.length) (hfix : IsFix s.root i) : s.rootOf i = i :=
  rootOf_eq_of_rootedAt hwf hi ⟨⟨0, rfl⟩, hfix⟩

theorem rootOf_rootOf {s : DjsuIndex} (hwf : s.WF) {i : Nat}
    (hi : i < s.root.length) : s.rootOf (s.rootOf i) = s.rootOf i :=
  rootOf_of_isFix hwf (rootOf_lt hwf hi) (rootOf_isFix hwf hi)

/-- RootedAt is invariant between states with the same parent map. -/
theorem rootOf_congr {s s' : DjsuIndex} (h : s.root = s'.root) (i : Nat) :
    s.rootOf i = s'.rootOf i := by rw [rootOf, rootOf, h]

end DjsuIndex

/-- Redirecting a non-representative `ind` straight to its own
representative `target` preserves the fixpoint set (pointwise). -/
theorem set_redirect_isFix {root : List Nat} {ind target : Nat}
    (hind : ind < root.length) (hnf : ¬ IsFix root ind)
    (htfix : IsFix root target) (j : Nat) :
    IsFix (root.set ind target) j ↔ IsFix root j := by
  by_cases hji : j = ind
  · subst hji
    unfold IsFix
    rw [parv_set_self root j target hind]
    constructor
    · rintro rfl
      exact absurd htfix hnf
    · intro h
      exact absurd h hnf
  · unfold IsFix
    rw [parv_set_ne root ind target j hji]

/-- Redirecting a non-representative `ind` straight to its own
representative `target` preserves every chain's endpoint, without
lengthening any chain. -/
theorem set_redirect_reach {root : List Nat} {ind target : Nat}
    (hind : ind < root.length) (_hnf : ¬ IsFix root ind)
    (hreach : RootedAt root ind target) :
    ∀ (k j t : Nat), (parv root)^[k] j = t → IsFix root t →
      ∃ m ≤ k, (parv (root.set ind target))^[m] j = t := by
  intro k
  induction k with
  | zero =>
    intro j t hk htfix
    exact ⟨0, le_refl 0, hk⟩
  | succ k ih =>
    intro j t hk htfix
    by_cases hji : j = ind
    · have ht : t = target := rootedAt_unique ⟨⟨k + 1, hji ▸ hk⟩, htfix⟩ hreach
      refine ⟨1, by omega, ?_⟩
      rw [Function.iterate_one, hji, parv_set_self root ind target hind, ht]
    · rw [Function.iterate_succ_apply] at hk
      obtain ⟨m, hm, hm'⟩ := ih (parv root j) t hk htfix
      refine ⟨m + 1, by omega, ?_⟩
      rw [Function.iterate_succ_apply, parv_set_ne root ind target j hji]
      exact hm'

/-- `compressLoop` preserves length, the fixpoint set, every chain's
endpoint, and in-range parent pointers. -/
theorem compressLoop_spec :
    ∀ (fuel : Nat) (root : List Nat) (ind target : Nat),
      ind < root.length → IsFix root target →
      (∃ k ≤ fuel, (parv root)^[k] ind = target) →
      (∀ j < root.length, parv root j < root.length) → target < root.length →
      (DjsuIndex.compressLoop root ind target fuel).length = root.length ∧
      (∀ j, IsFix (DjsuIndex.compressLoop root ind target fuel) j ↔ IsFix root j) ∧
      (∀ j t, RootedAt root j t → RootedAt (DjsuIndex.compressLoop root ind target fuel) j t) ∧
      (∀ j < root.length, parv (DjsuIndex.compressLoop root ind target fuel) j < root.length)
  | 0, root, ind, target, hind, htfix, hreach, hb, htl => by
    rw [DjsuIndex.compressLoop]
    exact ⟨rfl, fun j => Iff.rfl, fun j t h => h, hb⟩
  | fuel + 1, root, ind, target, hind, htfix, hreach, hb, htl => by
    rw [DjsuIndex.compressLoop]
    by_cases hf : getE root ind = ind
    · rw [if_pos hf]
      exact ⟨rfl, fun j => Iff.rfl, fun j t h => h, hb⟩
    · rw [if_neg hf]
      obtain ⟨k, hk, hk'⟩ := hreach
      have hk0 : k ≠ 0 := by
        rintro rfl
        simp only [Function.iterate_zero, id] at hk'
        rw [← hk'] at htfix
        exact hf htfix
      obtain ⟨k', rfl⟩ := Nat.exists_eq_succ_of_ne_zero hk0
      have hroot_at : RootedAt root ind target := ⟨⟨k' + 1, hk'⟩, htfix⟩
      have hreach1 : (parv root)^[k'] (parv root ind) = target := by
        rwa [← Function.iterate_succ_apply]
      -- facts about the once-set array
      have hlen1 : (root.set ind target).length = root.length := by simp
      have hfix1 : ∀ j, IsFix (root.set ind target) j ↔ IsFix root j :=
        set_redirect_isFix hind hf htfix
      have htfix1 : IsFix (root.set ind target) target := (hfix1 target).mpr htfix
      have hind1 : parv root ind < root.length := hb ind hind
      have hb1 : ∀ j < (root.set ind target).length,
          parv (root.set ind target) j < (root.set ind target).length := by
        intro j hj
        rw [hlen1] at hj ⊢
        by_cases hji : j = ind
        · subst hji
          rw [parv_set_self root j target hind]
          exact htl
        · rw [parv_set_ne root ind target j hji]
          exact hb j hj
      have hreach1' : ∃ m ≤ fuel, (parv (root.set ind target))^[m] (parv root ind) = target := by
        obtain ⟨m, hm, hm'⟩ :=
          set_redirect_reach hind hf hroot_at k' (parv root ind) target hreach1 htfix
        exact ⟨m, le_trans hm (Nat.lt_succ_iff.mp hk), hm'⟩
      have hind1' : parv root ind < (root.set ind target).length := by
        rw [hlen1]; exact hind1
      have htl1 : target < (root.set ind target).length := by rw [hlen1]; exact htl
      obtain ⟨ihlen, ihfix, ihreach, ihb⟩ :=
        compressLoop_spec fuel (root.set ind target) (getE root ind) target
          hind1' htfix1 hreach1' hb1 htl1
      rw [hlen1] at ihlen ihb
      refine ⟨ihlen, ?_, ?_, ?_⟩
      · intro j
        rw [ihfix j, hfix1 j]
      · intro j t h
        refine ihreach j t ?_
        obtain ⟨⟨m, hm⟩, htf⟩ := h
        obtain ⟨m', _, hm'⟩ := set_redirect_reach hind hf hroot_at m j t hm htf
        exact ⟨⟨m', hm'⟩, (hfix1 t).mpr htf⟩
      · intro j hj
        exact ihb j hj

namespace DjsuIndex

/-- `find` returns the representative, performs only path compression
(heights and count untouched), and preserves well-formedness, all
representatives and the fixpoint set. -/
theorem find_spec {s : DjsuIndex} (hwf : s.WF) {i : Nat} (hi : i < s.root.length) :
    (s.find i).2 = s.rootOf i ∧
    (s.find i).1.root.length = s.root.length ∧
    (s.find i).1.height = s.height ∧
    (s.find i).1.count = s.count ∧
    (s.find i).1.WF ∧
    (∀ j < s.root.length, (s.find i).1.rootOf j = s.rootOf j) ∧
    (∀ j, IsFix (s.find i).1.root j ↔ IsFix s.root j) := by
  have hfixr : IsFix s.root (s.rootOf i) := rootOf_isFix hwf hi
  have hlt : s.rootOf i < s.root.length := rootOf_lt hwf hi
  have hreach : ∃ k ≤ s.root.length, (parv s.root)^[k] i = s.rootOf i := by
    obtain ⟨k, hk, hkfix⟩ := first_fix_lt_length hwf.2.1 hi (hwf.2.2 i hi)
    refine ⟨k, le_of_lt hk, ?_⟩
    have := findRootLoop_eq_iterate s.root s.root.length i ⟨k, le_of_lt hk, hkfix⟩
    rw [rootOf, this, iterate_absorb hkfix (le_of_lt hk)]
  obtain ⟨clen, cfix, creach, cb⟩ :=
    compressLoop_spec s.root.length s.root i (s.rootOf i) hi hfixr hreach hwf.2.1 hlt
  have hwf' : (s.find i).1.WF := by
    refine ⟨?_, ?_, ?_⟩
    · show s.height.length = _
      rw [show ((s.find i).1).root = DjsuIndex.compressLoop s.root i (s.rootOf i) s.root.length
          from rfl, clen]
      exact hwf.1
    · intro j hj
      rw [show ((s.find i).1).root = DjsuIndex.compressLoop s.root i (s.rootOf i) s.root.length
          from rfl, clen] at hj ⊢
      exact cb j hj
    · intro j hj
      rw [show ((s.find i).1).root = DjsuIndex.compressLoop s.root i (s.rootOf i) s.root.length
          from rfl, clen] at hj
      obtain ⟨t, ht⟩ := hwf.2.2 j hj
      exact ⟨t, creach j t ht⟩
  refine ⟨rfl, clen, rfl, rfl, hwf', ?_, cfix⟩
  intro j hj
  refine rootOf_eq_of_rootedAt hwf' ?_ ?_
  · show j < (DjsuIndex.compressLoop s.root i (s.rootOf i) s.root.length).length
    rw [clen]
    exact hj
  · exact creach j (s.rootOf j) (rootOf_rootedAt hwf hj)

/-- `connected` computes equality of the two representatives, mutating
only by path compression. -/
theorem connected_spec {s : DjsuIndex} (hwf : s.WF) {a b : Nat}
    (ha : a < s.root.length) (hb : b < s.root.length) :
    (s.connected a b).2 = (s.rootOf a == s.rootOf b) ∧
    (s.connected a b).1.root.length = s.root.length ∧
    (s.connected a b).1.height = s.height ∧
    (s.connected a b).1.count = s.count ∧
    (s.connected a b).1.WF ∧
    (∀ j < s.root.length, (s.connected a b).1.rootOf j = s.rootOf j) ∧
    (∀ j, IsFix (s.connected a b).1.root j ↔ IsFix s.root j) := by
  obtain ⟨h2a, hlena, hha, hca, hwfa, hroa, hfa⟩ := find_spec hwf ha
  have hb' : b < (s.find a).1.root.length := by rw [hlena]; exact hb
  obtain ⟨h2b, hlenb, hhb, hcb, hwfb, hrob, hfb⟩ := find_spec hwfa hb'
  refine ⟨?_, ?_, ?_, ?_, hwfb, ?_, ?_⟩
  · show ((s.find a).2 == ((s.find a).1.find b).2) = _
    rw [h2a, h2b, hroa b hb]
  · show ((s.find a).1.find b).1.root.length = _
    rw [hlenb, hlena]
  · show ((s.find a).1.find b).1.height = _
    rw [hhb, hha]
  · show ((s.find a).1.find b).1.count = _
    rw [hcb, hca]
  · intro j hj
    show ((s.find a).1.find b).1.rootOf j = _
    rw [hrob j (by rw [hlena]; exact hj), hroa j hj]
  · intro j
    show IsFix ((s.find a).1.find b).1.root j ↔ _
    rw [hfb j, hfa j]

end DjsuIndex

/-- Linking representative `loser` under representative `winner` removes
exactly `loser` from the fixpoint set. -/
theorem set_link_isFix {root : List Nat} {loser winner : Nat}
    (hl : loser < root.length) (hlw : loser ≠ winner) (j : Nat) :
    IsFix (root.set loser winner) j ↔ (IsFix root j ∧ j ≠ loser) := by
  by_cases hji : j = loser
  · subst hji
    unfold IsFix
    rw [parv_set_self root j winner hl]
    simp [Ne.symm hlw]
  · unfold IsFix
    rw [parv_set_ne root loser winner j hji]
    simp [hji]

/-- Linking representative `loser` under representative `winner` sends
every chain that ended at `loser` to `winner` and leaves all other
endpoints unchanged. -/
theorem set_link_reach {root : List Nat} {loser winner : Nat}
    (hl : loser < root.length) (hfl : IsFix root loser) (hfw : IsFix root winner)
    (hlw : loser ≠ winner) :
    ∀ (k j t : Nat), (parv root)^[k] j = t → IsFix root t →
      RootedAt (root.set loser winner) j (if t = loser then winner else t) := by
  have hfw' : IsFix (root.set loser winner) winner := by
    unfold IsFix
    rw [parv_set_ne root loser winner winner (Ne.symm hlw)]
    exact hfw
  have hbase : RootedAt (root.set loser winner) loser winner :=
    ⟨⟨1, by rw [Function.iterate_one, parv_set_self root loser winner hl]⟩, hfw'⟩
  intro k
  induction k with
  | zero =>
    intro j t hk htfix
    simp only [Function.iterate_zero, id] at hk
    subst hk
    by_cases hjl : j = loser
    · rw [if_pos hjl, hjl]
      exact hbase
    · rw [if_neg hjl]
      refine ⟨⟨0, rfl⟩, ?_⟩
      unfold IsFix
      rw [parv_set_ne root loser winner j hjl]
      exact htfix
  | succ k ih =>
    intro j t hk htfix
    by_cases hjl : j = loser
    · have ht : t = loser := by
        rw [hjl] at hk
        rw [← hk, isFix_iterate hfl]
      rw [if_pos ht, hjl]
      exact hbase
    · rw [Function.iterate_succ_apply] at hk
      obtain ⟨⟨m, hm⟩, hfix'⟩ := ih (parv root j) t hk htfix
      refine ⟨⟨m + 1, ?_⟩, hfix'⟩
      rw [Function.iterate_succ_apply, parv_set_ne root loser winner j hjl]
      exact hm

/-- The post-state of linking one representative under another: new
well-formedness, representative map, and fixpoint set. -/
theorem link_state_spec {s2 : DjsuIndex} (hwf2 : s2.WF) {loser winner : Nat}
    (hl : loser < s2.root.length) (hw : winner < s2.root.length)
    (hfl : IsFix s2.root loser) (hfw : IsFix s2.root winner) (hlw : loser ≠ winner)
    (hgt : List Nat) (hhlen : hgt.length = s2.height.length) (cnt : Nat) :
    DjsuIndex.WF { root := s2.root.set loser winner, height := hgt, count := cnt } ∧
    (∀ j < s2.root.length,
      DjsuIndex.rootOf { root := s2.root.set loser winner, height := hgt, count := cnt } j =
        if s2.rootOf j = loser then winner else s2.rootOf j) ∧
    (∀ j, IsFix (s2.root.set loser winner) j ↔ (IsFix s2.root j ∧ j ≠ loser)) := by
  have hlen : (s2.root.set loser winner).length = s2.root.length := by simp
  have hbnd : ∀ j < (s2.root.set loser winner).length,
      parv (s2.root.set loser winner) j < (s2.root.set loser winner).length := by
    intro j hj
    rw [hlen] at hj ⊢
    by_cases hjl : j = loser
    · rw [hjl, parv_set_self s2.root loser winner hl]
      exact hw
    · rw [parv_set_ne s2.root loser winner j hjl]
      exact hwf2.2.1 j hj
  have hreach : ∀ j < s2.root.length,
      RootedAt (s2.root.set loser winner) j
        (if s2.rootOf j = loser then winner else s2.rootOf j) := by
    intro j hj
    obtain ⟨⟨k, hk⟩, hfix⟩ := DjsuIndex.rootOf_rootedAt hwf2 hj
    exact set_link_reach hl hfl hfw hlw k j (s2.rootOf j) hk hfix
  have hwf' : DjsuIndex.WF { root := s2.root.set loser winner, height := hgt, count := cnt } := by
    refine ⟨?_, hbnd, ?_⟩
    · show hgt.length = _
      rw [hhlen, hlen]
      exact hwf2.1
    · intro j hj
      rw [show ({ root := s2.root.set loser winner, height := hgt, count := cnt } :
          DjsuIndex).root = s2.root.set loser winner from rfl, hlen] at hj
      exact ⟨_, hreach j hj⟩
  refine ⟨hwf', ?_, set_link_isFix hl hlw⟩
  intro j hj
  refine DjsuIndex.rootOf_eq_of_rootedAt hwf' ?_ (hreach j hj)
  show j < (s2.root.set loser winner).length
  rw [hlen]
  exact hj

namespace DjsuIndex

/-- `union` on two already-connected elements: returns the shared
representative, mutates only by the two finds' path compression, and
leaves heights, count, representatives and the fixpoint set unchanged. -/
theorem union_spec_same {s : DjsuIndex} (hwf : s.WF) {a b : Nat}
    (ha : a < s.root.length) (hb : b < s.root.length)
    (heq : s.rootOf a = s.rootOf b) :
    (s.union a b).2 = s.rootOf a ∧
    (s.union a b).1 = ((s.find a).1.find b).1 ∧
    (s.union a b).1.root.length = s.root.length ∧
    (s.union a b).1.height = s.height ∧
    (s.union a b).1.count = s.count ∧
    (s.union a b).1.WF ∧
    (∀ j < s.root.length, (s.union a b).1.rootOf j = s.rootOf j) ∧
    (∀ j, IsFix (s.union a b).1.root j ↔ IsFix s.root j) := by
  obtain ⟨h2a, hlena, hha, hca, hwfa, hroa, hfa⟩ := find_spec hwf ha
  have hb' : b < (s.find a).1.root.length := by rw [hlena]; exact hb
  obtain ⟨h2b, hlenb, hhb, hcb, hwfb, hrob, hfb⟩ := find_spec hwfa hb'
  have hcond : (s.find a).2 = ((s.find a).1.find b).2 := by
    rw [h2a, h2b, hroa b hb, heq]
  have hu : s.union a b = (((s.find a).1.find b).1, (s.find a).2) := by
    simp only [DjsuIndex.union, hcond, if_pos]
  rw [hu]
  refine ⟨h2a, rfl, by rw [hlenb, hlena], by rw [hhb, hha], by rw [hcb, hca], hwfb, ?_, ?_⟩
  · intro j hj
    rw [hrob j (by rw [hlena]; exact hj), hroa j hj]
  · intro j
    rw [hfb j, hfa j]

/-- `union` on two distinct components: attaches by the height rule,
decrements the count, and redirects exactly the loser's component to the
winner. -/
theorem union_spec_merge {s : DjsuIndex} (hwf : s.WF) {a b : Nat}
    (ha : a < s.root.length) (hb : b < s.root.length)
    (hne : s.rootOf a ≠ s.rootOf b) {winner loser : Nat}
    (hwinner : winner = if getE s.height (s.rootOf a) < getE s.height (s.rootOf b)
      then s.rootOf b else s.rootOf a)
    (hloser : loser = if getE s.height (s.rootOf a) < getE s.height (s.rootOf b)
      then s.rootOf a else s.rootOf b) :
    (s.union a b).2 = winner ∧
    (s.union a b).1.root.length = s.root.length ∧
    (s.union a b).1.height.length = s.height.length ∧
    (s.union a b).1.count = s.count - 1 ∧
    (s.union a b).1.WF ∧
    (∀ j < s.root.length, (s.union a b).1.rootOf j =
      if s.rootOf j = loser then winner else s.rootOf j) ∧
    (∀ j, IsFix (s.union a b).1.root j ↔ (IsFix s.root j ∧ j ≠ loser)) ∧
    loser < s.root.length ∧ IsFix s.root loser ∧ loser ≠ winner := by
  obtain ⟨h2a, hlena, hha, hca, hwfa, hroa, hfa⟩ := find_spec hwf ha
  have hb' : b < (s.find a).1.root.length := by rw [hlena]; exact hb
  obtain ⟨h2b, hlenb, hhb, hcb, hwfb, hrob, hfb⟩ := find_spec hwfa hb'
  have hrb : ((s.find a).1.find b).2 = s.rootOf b := by rw [h2b, hroa b hb]
  have hcond : (s.find a).2 ≠ ((s.find a).1.find b).2 := by
    rw [h2a, hrb]
    exact hne
  have hs2len : ((s.find a).1.find b).1.root.length = s.root.length := by
    rw [hlenb, hlena]
  have hs2h : ((s.find a).1.find b).1.height = s.height := by rw [hhb, hha]
  have hs2c : ((s.find a).1.find b).1.count = s.count := by rw [hcb, hca]
  have hra_lt : s.rootOf a < s.root.length := rootOf_lt hwf ha
  have hrb_lt : s.rootOf b < s.root.length := rootOf_lt hwf hb
  have hra_fix2 : IsFix ((s.find a).1.find b).1.root (s.rootOf a) := by
    rw [hfb, hfa]
    exact rootOf_isFix hwf ha
  have hrb_fix2 : IsFix ((s.find a).1.find b).1.root (s.rootOf b) := by
    rw [hfb, hfa]
    exact rootOf_isFix hwf hb
  have hro2 : ∀ j < s.root.length, ((s.find a).1.find b).1.rootOf j = s.rootOf j := by
    intro j hj
    rw [hrob j (by rw [hlena]; exact hj), hroa j hj]
  have hfix2 : ∀ j, IsFix ((s.find a).1.find b).1.root j ↔ IsFix s.root j := by
    intro j
    rw [hfb j, hfa j]
  by_cases hcmp : getE s.height (s.rootOf a) < getE s.height (s.rootOf b)
  · -- shallower a-root attached under b-root
    subst hwinner hloser
    rw [if_pos hcmp, if_pos hcmp]
    have hu : s.union a b =
        ({ root := ((s.find a).1.find b).1.root.set (s.rootOf a) (s.rootOf b),
           height := ((s.find a).1.find b).1.height,
           count := ((s.find a).1.find b).1.count - 1 }, s.rootOf b) := by
      simp only [DjsuIndex.union, if_neg hcond]
      rw [if_pos (show getE ((s.find a).1.find b).1.height (s.find a).2 <
          getE ((s.find a).1.find b).1.height ((s.find a).1.find b).2 by
        rw [h2a, hrb, hs2h]; exact hcmp)]
      rw [h2a, hrb]
    obtain ⟨lwf, lro, lfix⟩ :=
      link_state_spec hwfb (by rw [hs2len]; exact hra_lt) (by rw [hs2len]; exact hrb_lt)
        hra_fix2 hrb_fix2 hne ((s.find a).1.find b).1.height rfl
        (((s.find a).1.find b).1.count - 1)
    rw [hu]
    refine ⟨rfl, by simp [hs2len], by rw [hs2h], by rw [hs2c], lwf, ?_, ?_, hra_lt,
      rootOf_isFix hwf ha, hne⟩
    · intro j hj
      have := lro j (by rw [hs2len]; exact hj)
      rwa [hro2 j hj] at this
    · intro j
      have := lfix j
      rwa [hfix2 j] at this
  · -- b-root attached under a-root (deeper or tie)
    subst hwinner hloser
    rw [if_neg hcmp, if_neg hcmp]
    have hne' : s.rootOf b ≠ s.rootOf a := Ne.symm hne
    obtain ⟨lwf, lro, lfix⟩ :=
      link_state_spec hwfb (by rw [hs2len]; exact hrb_lt) (by rw [hs2len]; exact hra_lt)
        hrb_fix2 hra_fix2 hne'
        (if getE s.height (s.rootOf b) < getE s.height (s.rootOf a)
          then ((s.find a).1.find b).1.height
          else ((s.find a).1.find b).1.height.set (s.rootOf b)
            (getE ((s.find a).1.find b).1.height (s.rootOf b) + 1))
        (by split <;> simp) (((s.find a).1.find b).1.count - 1)
    have hu : s.union a b =
        ({ root := ((s.find a).1.find b).1.root.set (s.rootOf b) (s.rootOf a),
           height := (if getE s.height (s.rootOf b) < getE s.height (s.rootOf a)
             then ((s.find a).1.find b).1.height
             else ((s.find a).1.find b).1.height.set (s.rootOf b)
               (getE ((s.find a).1.find b).1.height (s.rootOf b) + 1)),
           count := ((s.find a).1.find b).1.count - 1 }, s.rootOf a) := by
      simp only [DjsuIndex.union, if_neg hcond]
      rw [if_neg (show ¬ (getE ((s.find a).1.find b).1.height (s.find a).2 <
          getE ((s.find a).1.find b).1.height ((s.find a).1.find b).2) by
        rw [h2a, hrb, hs2h]; exact hcmp)]
      by_cases hgt : getE s.height (s.rootOf b) < getE s.height (s.rootOf a)
      · rw [if_pos (show getE ((s.find a).1.find b).1.height ((s.find a).1.find b).2 <
            getE ((s.find a).1.find b).1.height (s.find a).2 by
          rw [h2a, hrb, hs2h]; exact hgt), if_pos hgt]
        rw [h2a, hrb]
      · rw [if_neg (show ¬ (getE ((s.find a).1.find b).1.height ((s.find a).1.find b).2 <
            getE ((s.find a).1.find b).1.height (s.find a).2) by
          rw [h2a, hrb, hs2h]; exact hgt), if_neg hgt]
        rw [h2a, hrb, hs2h]
    rw [hu]
    refine ⟨rfl, by simp [hs2len], ?_, by rw [hs2c], lwf, ?_, ?_, hrb_lt,
      rootOf_isFix hwf hb, hne'⟩
    · show (if getE s.height (s.rootOf b) < getE s.height (s.rootOf a)
          then ((s.find a).1.find b).1.height
          else ((s.find a).1.find b).1.height.set (s.rootOf b)
            (getE ((s.find a).1.find b).1.height (s.rootOf b) + 1)).length = s.height.length
      split <;> simp [hs2h]
    · intro j hj
      have := lro j (by rw [hs2len]; exact hj)
      rwa [hro2 j hj] at this
    · intro j
      have := lfix j
      rwa [hfix2 j] at this

end DjsuIndex

/-! ### Counting representatives, and the reachable-state invariant -/

theorem countP_range_eq_card (n : Nat) (p : Nat → Bool) :
    (List.range n).countP p = ((Finset.range n).filter (fun j => p j = true)).card := by
  induction n with
  | zero => simp
  | succ n ih =>
    rw [List.range_succ, List.countP_append, Finset.range_succ,
      Finset.filter_insert]
    by_cases hp : p n = true
    · rw [if_pos hp, Finset.card_insert_of_not_mem (by simp)]
      simp [hp, ih]
    · rw [if_neg hp]
      simp [List.countP_cons, hp, ih]

namespace DjsuIndex

theorem countFix_congr {s s' : DjsuIndex} (hlen : s'.root.length = s.root.length)
    (h : ∀ j, IsFix s'.root j ↔ IsFix s.root j) : s'.countFix = s.countFix := by
  unfold countFix
  rw [hlen]
  refine List.countP_congr ?_
  intro j _
  have hj := h j
  unfold IsFix parv at hj
  rw [Bool.eq_iff_iff]
  simpa using hj

theorem countFix_remove {s s' : DjsuIndex} {loser : Nat}
    (hlen : s'.root.length = s.root.length)
    (hchar : ∀ j, IsFix s'.root j ↔ (IsFix s.root j ∧ j ≠ loser))
    (hl : loser < s.root.length) (hfixl : IsFix s.root loser) :
    s'.countFix = s.countFix - 1 ∧ 1 ≤ s.countFix := by
  unfold countFix
  rw [hlen, countP_range_eq_card, countP_range_eq_card]
  have hmem : loser ∈ (Finset.range s.root.length).filter
      (fun j => (getE s.root j == j) = true) := by
    simp only [Finset.mem_filter, Finset.mem_range, beq_iff_eq]
    exact ⟨hl, hfixl⟩
  have hsub : (Finset.range s.root.length).filter (fun j => (getE s'.root j == j) = true) =
      ((Finset.range s.root.length).filter (fun j => (getE s.root j == j) = true)).erase loser := by
    ext j
    simp only [Finset.mem_filter, Finset.mem_range, Finset.mem_erase, beq_iff_eq]
    have hj := hchar j
    unfold IsFix parv at hj
    constructor
    · rintro ⟨hjr, hfix⟩
      obtain ⟨h1, h2⟩ := hj.mp hfix
      exact ⟨h2, hjr, h1⟩
    · rintro ⟨h2, hjr, h1⟩
      exact ⟨hjr, hj.mpr ⟨h1, h2⟩⟩
  rw [hsub, Finset.card_erase_of_mem hmem]
  exact ⟨rfl, Finset.card_pos.mpr ⟨loser, hmem⟩⟩

theorem getE_range {n i : Nat} (hi : i < n) : getE (List.range n) i = i := by
  simp [getE, List.getD, List.getElem?_range hi]

theorem new_wf (n : Nat) : (new n).WF ∧ (new n).root.length = n ∧
    (new n).count = (new n).countFix := by
  have hroot : (new n).root = List.range n := rfl
  have hlen : (new n).root.length = n := by rw [hroot, List.length_range]
  have hfix : ∀ i < n, IsFix (new n).root i := by
    intro i hi
    unfold IsFix parv
    rw [hroot, getE_range hi]
  refine ⟨⟨?_, ?_, ?_⟩, hlen, ?_⟩
  · show (List.replicate n 0).length = _
    rw [hlen]
    simp
  · intro i hi
    rw [hlen] at hi
    unfold parv
    rw [hroot, getE_range hi, List.length_range]
    exact hi
  · intro i hi
    rw [hlen] at hi
    exact ⟨i, ⟨0, rfl⟩, hfix i hi⟩
  · show n = (new n).countFix
    unfold countFix
    rw [hlen]
    have hall : ∀ j ∈ List.range n, (getE (new n).root j == j) = true := by
      intro j hj
      rw [beq_iff_eq, hroot, getE_range (List.mem_range.mp hj)]
    rw [List.countP_eq_length.mpr hall, List.length_range]

/-- The master invariant: every reachable DSU state is well-formed, keeps
its size, and its component count equals its number of representatives. -/
theorem reachable_good {n : Nat} {s : DjsuIndex} (hs : Reachable n s) :
    s.WF ∧ s.root.length = n ∧ s.count = s.countFix := by
  induction hs with
  | base => exact new_wf _
  | find_step s i hi hs ih =>
    obtain ⟨hwf, hlen, hcnt⟩ := ih
    obtain ⟨_, hlen', hh, hc, hwf', _, hfixp⟩ := find_spec hwf (by rw [hlen]; exact hi)
    exact ⟨hwf', by rw [hlen', hlen], by
      rw [hc, hcnt, countFix_congr hlen' hfixp]⟩
  | connected_step s a b ha hb hs ih =>
    obtain ⟨hwf, hlen, hcnt⟩ := ih
    obtain ⟨_, hlen', hh, hc, hwf', _, hfixp⟩ :=
      connected_spec hwf (by rw [hlen]; exact ha) (by rw [hlen]; exact hb)
    exact ⟨hwf', by rw [hlen', hlen], by
      rw [hc, hcnt, countFix_congr hlen' hfixp]⟩
  | union_step s a b ha hb hs ih =>
    obtain ⟨hwf, hlen, hcnt⟩ := ih
    have ha' : a < s.root.length := by rw [hlen]; exact ha
    have hb' : b < s.root.length := by rw [hlen]; exact hb
    by_cases heq : s.rootOf a = s.rootOf b
    · obtain ⟨_, _, hlen', hh, hc, hwf', _, hfixp⟩ := union_spec_same hwf ha' hb' heq
      exact ⟨hwf', by rw [hlen', hlen], by
        rw [hc, hcnt, countFix_congr hlen' hfixp]⟩
    · obtain ⟨_, hlen', _, hc, hwf', _, hfixp, hll, hlf, _⟩ :=
        union_spec_merge hwf ha' hb' heq rfl rfl
      obtain ⟨hminus, hpos⟩ := countFix_remove hlen' hfixp hll hlf
      refine ⟨hwf', by rw [hlen', hlen], ?_⟩
      rw [hc, hcnt, hminus]

end DjsuIndex

/-- The component count plus the number of merging unions is invariant
along any in-range call sequence, and the running state stays
reachable. -/
theorem runFold_invariant :
    ∀ (ops : List DsuOp) (n : Nat) (s : DjsuIndex) (acc : Nat),
      DjsuIndex.Reachable n s → (∀ op ∈ ops, op.InRange n) →
      (ops.foldl DjsuIndex.applyOp s).count +
        (ops.foldl (fun (p : DjsuIndex × Nat) op =>
          (DjsuIndex.applyOp p.1 op, p.2 + if DjsuIndex.isMerge p.1 op then 1 else 0))
          (s, acc)).2 = s.count + acc ∧
      DjsuIndex.Reachable n (ops.foldl DjsuIndex.applyOp s) ∧
      (ops.foldl (fun (p : DjsuIndex × Nat) op =>
          (DjsuIndex.applyOp p.1 op, p.2 + if DjsuIndex.isMerge p.1 op then 1 else 0))
          (s, acc)).1 = ops.foldl DjsuIndex.applyOp s
  | [], n, s, acc, hs, _ => ⟨rfl, hs, rfl⟩
  | op :: ops, n, s, acc, hs, hops => by
    obtain ⟨hwf, hlen, hcnt⟩ := DjsuIndex.reachable_good hs
    have hop := hops op (List.mem_cons_self op ops)
    have hops' : ∀ o ∈ ops, o.InRange n := fun o ho => hops o (List.mem_cons_of_mem op ho)
    have hstep : DjsuIndex.Reachable n (DjsuIndex.applyOp s op) ∧
        (DjsuIndex.applyOp s op).count + (if DjsuIndex.isMerge s op then 1 else 0) = s.count := by
      match op, hop with
      | .find i, hop =>
        have hi : i < s.root.length := by rw [hlen]; exact hop
        obtain ⟨_, _, _, hc, _, _, _⟩ := DjsuIndex.find_spec hwf hi
        exact ⟨DjsuIndex.Reachable.find_step s i hop hs, by
          simp [DjsuIndex.isMerge, DjsuIndex.applyOp, hc]⟩
      | .connected a b, hop =>
        have ha : a < s.root.length := by rw [hlen]; exact hop.1
        have hb : b < s.root.length := by rw [hlen]; exact hop.2
        obtain ⟨_, _, _, hc, _, _, _⟩ := DjsuIndex.connected_spec hwf ha hb
        exact ⟨DjsuIndex.Reachable.connected_step s a b hop.1 hop.2 hs, by
          simp [DjsuIndex.isMerge, DjsuIndex.applyOp, hc]⟩
      | .union a b, hop =>
        have ha : a < s.root.length := by rw [hlen]; exact hop.1
        have hb : b < s.root.length := by rw [hlen]; exact hop.2
        refine ⟨DjsuIndex.Reachable.union_step s a b hop.1 hop.2 hs, ?_⟩
        have hcb : (s.connected a b).2 = (s.rootOf a == s.rootOf b) :=
          (DjsuIndex.connected_spec hwf ha hb).1
        by_cases heq : s.rootOf a = s.rootOf b
        · obtain ⟨_, _, _, _, hc, _, _, _⟩ := DjsuIndex.union_spec_same hwf ha hb heq
          simp [DjsuIndex.isMerge, DjsuIndex.applyOp, hc, hcb, heq]
        · obtain ⟨_, hlen', _, hc, _, _, hfixp, hll, hlf, _⟩ :=
            DjsuIndex.union_spec_merge hwf ha hb heq rfl rfl
          obtain ⟨_, hpos⟩ := DjsuIndex.countFix_remove hlen' hfixp hll hlf
          have hge : 1 ≤ s.count := by rw [hcnt]; exact hpos
          have hbeq : (s.rootOf a == s.rootOf b) = false := by
            simp [heq]
          simp only [DjsuIndex.isMerge, DjsuIndex.applyOp, hc, hcb, hbeq,
            Bool.not_false, if_pos]
          omega
    obtain ⟨hreach1, hcount1⟩ := hstep
    obtain ⟨ih1, ih2, ih3⟩ :=
      runFold_invariant ops n (DjsuIndex.applyOp s op)
        (acc + if DjsuIndex.isMerge s op then 1 else 0) hreach1 hops'
    refine ⟨?_, by simpa using ih2, by simpa using ih3⟩
    simp only [List.foldl_cons]
    omega

/-- C6 holds only up to path compression: here is a reachable state
(built by `new(3); union(1,2); union(0,1)`) with parent array `[0,0,1]`
where the already-connected pair `(2,0)` makes `union(2,0)` return the
shared representative 0 but rewrite the parent array to `[0,0,0]` — the
two `find` calls inside `union` compress paths, so the structure state
is not left unchanged. -/
theorem C6_counterexample_union_mutates :
    ((DjsuIndex.union (DjsuIndex.union (DjsuIndex.new 3) 1 2).1 0 1).1.connected 2 0).2 = true ∧
    ((DjsuIndex.union (DjsuIndex.union (DjsuIndex.new 3) 1 2).1 0 1).1.root = [0, 0, 1]) ∧
    ((DjsuIndex.union (DjsuIndex.union (DjsuIndex.new 3) 1 2).1 0 1).1.union 2 0).2 = 0 ∧
    (((DjsuIndex.union (DjsuIndex.union (DjsuIndex.new 3) 1 2).1 0 1).1.union 2 0).1.root
      = [0, 0, 0]) := by decide

/-- C6 (amended): on every reachable state, a union of two
already-connected elements returns the shared representative and mutates
nothing beyond the path compression performed by its two `find` calls:
the final state is exactly the state after `find(a); find(b)`, the height
array, the component count and every element's representative are
unchanged. -/
theorem C6_union_connected_only_compresses {n : Nat} {s : DjsuIndex}
    (hs : DjsuIndex.Reachable n s) {a b : Nat} (ha : a < n) (hb : b < n)
    (hconn : (s.connected a b).2 = true) :
    (s.union a b).2 = s.rootOf a ∧
    (s.union a b).1 = ((s.find a).1.find b).1 ∧
    (s.union a b).1.height = s.height ∧
    (s.union a b).1.count = s.count ∧
    (∀ j < n, (s.union a b).1.rootOf j = s.rootOf j) := by
  obtain ⟨hwf, hlen, _⟩ := DjsuIndex.reachable_good hs
  have ha' : a < s.root.length := by rw [hlen]; exact ha
  have hb' : b < s.root.length := by rw [hlen]; exact hb
  have heq : s.rootOf a = s.rootOf b := by
    have hcb := (DjsuIndex.connected_spec hwf ha' hb').1
    rw [hconn] at hcb
    exact beq_iff_eq.mp hcb.symm
  obtain ⟨h1, h2, _, h4, h5, _, h7, _⟩ := DjsuIndex.union_spec_same hwf ha' hb' heq
  exact ⟨h1, h2, h4, h5, fun j hj => h7 j (by rw [hlen]; exact hj)⟩

/-- Witness for C6 (amended): concrete instantiation at `new(2)` after
`union(0,1)`, with the hypotheses discharged. -/
theorem C6_witness :
    (0 < 2 ∧ 1 < 2 ∧ (((DjsuIndex.new 2).union 0 1).1.connected 0 1).2 = true) ∧
    (((DjsuIndex.new 2).union 0 1).1.union 0 1).2 = ((DjsuIndex.new 2).union 0 1).1.rootOf 0 ∧
    (((DjsuIndex.new 2).union 0 1).1.union 0 1).1.count = ((DjsuIndex.new 2).union 0 1).1.count :=
  have h := C6_union_connected_only_compresses
    (DjsuIndex.Reachable.union_step (DjsuIndex.new 2) 0 1 (by decide) (by decide)
      (DjsuIndex.Reachable.base 2))
    (a := 0) (b := 1) (by decide) (by decide) (by decide)
  ⟨⟨by decide, by decide, by decide⟩, h.1, h.2.2.2.1⟩

/-- C7: after any in-range call sequence from a fresh structure of size
`n`, the component count equals `n` minus the number of unions that
merged two previously-distinct components, and equivalently every
reachable state's count equals its number of self-rooted indices. -/
theorem C7_components_eq_n_minus_merges :
    (∀ (n : Nat) (ops : List DsuOp), (∀ op ∈ ops, op.InRange n) →
      (DjsuIndex.runOps n ops).n_components = n - DjsuIndex.countMerges n ops ∧
      DjsuIndex.countMerges n ops ≤ n) ∧
    (∀ (n : Nat) (s : DjsuIndex), DjsuIndex.Reachable n s → s.count = s.countFix) := by
  constructor
  · intro n ops hops
    obtain ⟨hsum, _, _⟩ :=
      runFold_invariant ops n (DjsuIndex.new n) 0 (DjsuIndex.Reachable.base n) hops
    have hc : (DjsuIndex.new n).count = n := rfl
    rw [hc] at hsum
    unfold DjsuIndex.runOps DjsuIndex.n_components DjsuIndex.countMerges
    omega
  · intro n s hs
    exact (DjsuIndex.reachable_good hs).2.2

/-- Witness for C7: the sequence `union(0,1); union(1,0); find(2)` on
size 3 performs exactly one merging union and ends with 2 components. -/
theorem C7_witness :
    (∀ op ∈ [DsuOp.union 0 1, DsuOp.union 1 0, DsuOp.find 2], op.InRange 3) ∧
    (DjsuIndex.runOps 3 [DsuOp.union 0 1, DsuOp.union 1 0, DsuOp.find 2]).n_components
      = 3 - DjsuIndex.countMerges 3 [DsuOp.union 0 1, DsuOp.union 1 0, DsuOp.find 2] ∧
    DjsuIndex.countMerges 3 [DsuOp.union 0 1, DsuOp.union 1 0, DsuOp.find 2] = 1 ∧
    (DjsuIndex.runOps 3 [DsuOp.union 0 1, DsuOp.union 1 0, DsuOp.find 2]).n_components = 2 :=
  have hin : ∀ op ∈ [DsuOp.union 0 1, DsuOp.union 1 0, DsuOp.find 2], op.InRange 3 := by
    intro op hop
    fin_cases hop
    · exact ⟨by decide, by decide⟩
    · exact ⟨by decide, by decide⟩
    · exact (by decide : (2 : Nat) < 3)
  ⟨hin, (C7_components_eq_n_minus_merges.1 3 _ hin).1, by decide, by decide⟩

/-- C8: on every reachable DSU state, `connected` is reflexive, symmetric
and transitive over in-range indices, even though each call mutates the
structure by path compression. -/
theorem C8_connected_equivalence {n : Nat} {s : DjsuIndex}
    (hs : DjsuIndex.Reachable n s) {x y z : Nat}
    (hx : x < n) (hy : y < n) (hz : z < n) :
    (s.connected x x).2 = true ∧
    (s.connected x y).2 = (s.connected y x).2 ∧
    ((s.connected x y).2 = true → (s.connected y z).2 = true →
      (s.connected x z).2 = true) := by
  obtain ⟨hwf, hlen, _⟩ := DjsuIndex.reachable_good hs
  have hx' : x < s.root.length := by rw [hlen]; exact hx
  have hy' : y < s.root.length := by rw [hlen]; exact hy
  have hz' : z < s.root.length := by rw [hlen]; exact hz
  have hxx := (DjsuIndex.connected_spec hwf hx' hx').1
  have hxy := (DjsuIndex.connected_spec hwf hx' hy').1
  have hyx := (DjsuIndex.connected_spec hwf hy' hx').1
  have hyz := (DjsuIndex.connected_spec hwf hy' hz').1
  have hxz := (DjsuIndex.connected_spec hwf hx' hz').1
  refine ⟨by rw [hxx]; simp, ?_, ?_⟩
  · rw [hxy, hyx, Bool.eq_iff_iff]
    simp only [beq_iff_eq]
    exact eq_comm
  · rw [hxy, hyz, hxz]
    simp only [beq_iff_eq]
    intro h1 h2
    rw [h1, h2]

/-- Witness for C8: concrete instantiation on a fresh structure of
size 2. -/
theorem C8_witness :
    (0 < 2 ∧ 1 < 2) ∧
    ((DjsuIndex.new 2).connected 0 0).2 = true ∧
    ((DjsuIndex.new 2).connected 0 1).2 = ((DjsuIndex.new 2).connected 1 0).2 :=
  have h := C8_connected_equivalence (DjsuIndex.Reachable.base 2)
    (x := 0) (y := 1) (z := 1) (by decide) (by decide) (by decide)
  ⟨⟨by decide, by decide⟩, h.1, h.2.1⟩

/-- The master invariant of the rooted DSU: the inner DSU is reachable
and well-formed, arrays keep size `n`, and every raw designated-root
entry lies in the component of its own index. -/
theorem rooted_reachable_good {n : Nat} {s : DjsuRooted} (hs : DjsuRooted.Reachable n s) :
    DjsuIndex.Reachable n s.djsu ∧ s.djsu.WF ∧ s.djsu.root.length = n ∧
    s.root.length = n ∧
    (∀ i < n, getE s.root i < n ∧ s.djsu.rootOf (getE s.root i) = s.djsu.rootOf i) := by
  induction hs with
  | base =>
    obtain ⟨hwf, hlen, _⟩ := DjsuIndex.new_wf n
    refine ⟨DjsuIndex.Reachable.base n, hwf, hlen, by simp [DjsuRooted.new], ?_⟩
    intro i hi
    have : getE (DjsuRooted.new n).root i = i := DjsuIndex.getE_range hi
    rw [this]
    exact ⟨hi, rfl⟩
  | find_step s i hi hs ih =>
    obtain ⟨hreach, hwf, hlen, hrlen, hinv⟩ := ih
    have hi' : i < s.djsu.root.length := by rw [hlen]; exact hi
    obtain ⟨_, hlen', _, _, hwf', hro, _⟩ := DjsuIndex.find_spec hwf hi'
    refine ⟨DjsuIndex.Reachable.find_step s.djsu i hi hreach, hwf',
      by show (s.djsu.find i).1.root.length = n; rw [hlen', hlen], hrlen, ?_⟩
    intro j hj
    obtain ⟨h1, h2⟩ := hinv j hj
    refine ⟨h1, ?_⟩
    show (s.djsu.find i).1.rootOf _ = (s.djsu.find i).1.rootOf j
    rw [hro _ (by rw [hlen]; exact h1), hro j (by rw [hlen]; exact hj)]
    exact h2
  | connected_step s a b ha hb hs ih =>
    obtain ⟨hreach, hwf, hlen, hrlen, hinv⟩ := ih
    have ha' : a < s.djsu.root.length := by rw [hlen]; exact ha
    have hb' : b < s.djsu.root.length := by rw [hlen]; exact hb
    obtain ⟨_, hlen', _, _, hwf', hro, _⟩ := DjsuIndex.connected_spec hwf ha' hb'
    refine ⟨DjsuIndex.Reachable.connected_step s.djsu a b ha hb hreach, hwf',
      by show (s.djsu.connected a b).1.root.length = n; rw [hlen', hlen], hrlen, ?_⟩
    intro j hj
    obtain ⟨h1, h2⟩ := hinv j hj
    refine ⟨h1, ?_⟩
    show (s.djsu.connected a b).1.rootOf _ = (s.djsu.connected a b).1.rootOf j
    rw [hro _ (by rw [hlen]; exact h1), hro j (by rw [hlen]; exact hj)]
    exact h2
  | union_step s a b ha hb hs ih =>
    obtain ⟨hreach, hwf, hlen, hrlen, hinv⟩ := ih
    have ha' : a < s.djsu.root.length := by rw [hlen]; exact ha
    have hb' : b < s.djsu.root.length := by rw [hlen]; exact hb
    have hreach' : DjsuIndex.Reachable n (s.djsu.union a b).1 :=
      DjsuIndex.Reachable.union_step s.djsu a b ha hb hreach
    have hrlen' : (s.union a b).1.root.length = n := by
      show (s.root.set _ _).length = n
      rw [List.length_set]
      exact hrlen
    have hentry_a := hinv a ha
    by_cases heq : s.djsu.rootOf a = s.djsu.rootOf b
    · obtain ⟨h1, _, hlen', _, _, hwf', hro, _⟩ := DjsuIndex.union_spec_same hwf ha' hb' heq
      have hrepr : (s.djsu.union a b).2 = s.djsu.rootOf a := h1
      have hrepr_lt : (s.djsu.union a b).2 < n := by
        rw [hrepr, ← hlen]
        exact DjsuIndex.rootOf_lt hwf ha'
      refine ⟨hreach', hwf',
        by show (s.djsu.union a b).1.root.length = n; rw [hlen', hlen], hrlen', ?_⟩
      intro j hj
      by_cases hjr : j = (s.djsu.union a b).2
      · show getE (s.root.set (s.djsu.union a b).2 (getE s.root a)) j < n ∧
          (s.djsu.union a b).1.rootOf (getE (s.root.set (s.djsu.union a b).2 (getE s.root a)) j)
            = (s.djsu.union a b).1.rootOf j
        rw [hjr, getE_set_self s.root (s.djsu.union a b).2 (getE s.root a)
          (by rw [hrlen]; exact hrepr_lt)]
        refine ⟨hentry_a.1, ?_⟩
        rw [hro _ (by rw [hlen]; exact hentry_a.1), hro _ (by rw [hlen]; exact hrepr_lt),
          hentry_a.2, hrepr, DjsuIndex.rootOf_rootOf hwf ha']
      · show getE (s.root.set (s.djsu.union a b).2 (getE s.root a)) j < n ∧
          (s.djsu.union a b).1.rootOf (getE (s.root.set (s.djsu.union a b).2 (getE s.root a)) j)
            = (s.djsu.union a b).1.rootOf j
        rw [getE_set_ne s.root (s.djsu.union a b).2 (getE s.root a) j hjr]
        obtain ⟨h1', h2'⟩ := hinv j hj
        refine ⟨h1', ?_⟩
        rw [hro _ (by rw [hlen]; exact h1'), hro j (by rw [hlen]; exact hj)]
        exact h2'
    · obtain ⟨h1, hlen', _, _, hwf', hro, _, hll, _, hlw⟩ :=
        DjsuIndex.union_spec_merge hwf ha' hb' heq rfl rfl
      set winner := if getE s.djsu.height (s.djsu.rootOf a) < getE s.djsu.height (s.djsu.rootOf b)
        then s.djsu.rootOf b else s.djsu.rootOf a with hwdef
      set loser := if getE s.djsu.height (s.djsu.rootOf a) < getE s.djsu.height (s.djsu.rootOf b)
        then s.djsu.rootOf a else s.djsu.rootOf b with hldef
      have hw_lt : winner < s.djsu.root.length := by
        rw [hwdef]
        split
        · exact DjsuIndex.rootOf_lt hwf hb'
        · exact DjsuIndex.rootOf_lt hwf ha'
      have hra_cases : s.djsu.rootOf a = winner ∨ s.djsu.rootOf a = loser := by
        rw [hwdef, hldef]
        split
        · exact Or.inr rfl
        · exact Or.inl rfl
      have hrepr : (s.djsu.union a b).2 = winner := h1
      have hwin_map : ∀ x < n, s.djsu.rootOf x = s.djsu.rootOf a →
          (s.djsu.union a b).1.rootOf x = winner := by
        intro x hx hxa
        rw [hro x (by rw [hlen]; exact hx), hxa]
        rcases hra_cases with hc | hc
        · rw [hc, if_neg]
          rw [← hc]
          intro hcon
          rw [hc] at hcon
          exact hlw (hcon ▸ rfl)
        · rw [hc, if_pos rfl]
      refine ⟨hreach', hwf',
        by show (s.djsu.union a b).1.root.length = n; rw [hlen', hlen], hrlen', ?_⟩
      intro j hj
      by_cases hjr : j = (s.djsu.union a b).2
      · show getE (s.root.set (s.djsu.union a b).2 (getE s.root a)) j < n ∧
          (s.djsu.union a b).1.rootOf (getE (s.root.set (s.djsu.union a b).2 (getE s.root a)) j)
            = (s.djsu.union a b).1.rootOf j
        rw [hjr, getE_set_self s.root (s.djsu.union a b).2 (getE s.root a)
          (by rw [hrlen, hrepr]; exact hlen ▸ hw_lt)]
        refine ⟨hentry_a.1, ?_⟩
        have hv : (s.djsu.union a b).1.rootOf (getE s.root a) = winner := by
          refine hwin_map _ hentry_a.1 hentry_a.2
        have hwv : (s.djsu.union a b).1.rootOf (s.djsu.union a b).2 = winner := by
          rw [hrepr, hro winner hw_lt]
          have hwfix : s.djsu.rootOf winner = winner := by
            rw [hwdef]
            split
            · exact DjsuIndex.rootOf_rootOf hwf hb'
            · exact DjsuIndex.rootOf_rootOf hwf ha'
          rw [hwfix]
          by_cases hwl : winner = loser
          · exact absurd hwl.symm hlw
          · rw [if_neg hwl]
        rw [hv, hwv]
      · show getE (s.root.set (s.djsu.union a b).2 (getE s.root a)) j < n ∧
          (s.djsu.union a b).1.rootOf (getE (s.root.set (s.djsu.union a b).2 (getE s.root a)) j)
            = (s.djsu.union a b).1.rootOf j
        rw [getE_set_ne s.root (s.djsu.union a b).2 (getE s.root a) j hjr]
        obtain ⟨h1', h2'⟩ := hinv j hj
        refine ⟨h1', ?_⟩
        rw [hro _ (by rw [hlen]; exact h1'), hro j (by rw [hlen]; exact hj), h2']

/-- C10: on every reachable rooted-DSU state, the designated root
returned by `find(x)` is in range and lies in `x`'s component:
`connected(x, find(x))` holds. -/
theorem C10_designated_root_in_component {n : Nat} {s : DjsuRooted}
    (hs : DjsuRooted.Reachable n s) {x : Nat} (hx : x < n) :
    (s.find x).2 < n ∧ ((s.find x).1.connected x (s.find x).2).2 = true := by
  obtain ⟨hreach, hwf, hlen, hrlen, hinv⟩ := rooted_reachable_good hs
  have hx' : x < s.djsu.root.length := by rw [hlen]; exact hx
  obtain ⟨h2, hlen', _, _, hwf', hro, _⟩ := DjsuIndex.find_spec hwf hx'
  have hrx_lt : s.djsu.rootOf x < n := by rw [← hlen]; exact DjsuIndex.rootOf_lt hwf hx'
  have hw : (s.find x).2 = getE s.root (s.djsu.rootOf x) := by
    show getE s.root (s.djsu.find x).2 = _
    rw [h2]
  obtain ⟨hw_lt, hw_root⟩ := hinv (s.djsu.rootOf x) hrx_lt
  refine ⟨by rw [hw]; exact hw_lt, ?_⟩
  show ((s.djsu.find x).1.connected x (s.find x).2).2 = true
  have hx'' : x < (s.djsu.find x).1.root.length := by rw [hlen', hlen]; exact hx
  have hw'' : (s.find x).2 < (s.djsu.find x).1.root.length := by
    rw [hlen', hlen, hw]
    exact hw_lt
  rw [(DjsuIndex.connected_spec hwf' hx'' hw'').1, beq_iff_eq, hw,
    hro x hx', hro _ (by rw [hlen]; exact hw_lt), hw_root,
    DjsuIndex.rootOf_rootOf hwf hx']

/-- Witness for C10: concrete instantiation after `union(1,0)` on a
fresh rooted structure of size 2. -/
theorem C10_witness :
    (0 < 2) ∧
    (((DjsuRooted.new 2).union 1 0).1.find 0).2 < 2 ∧
    (((((DjsuRooted.new 2).union 1 0).1.find 0).1.connected 0
      ((((DjsuRooted.new 2).union 1 0).1.find 0).2)).2 = true) :=
  have h := C10_designated_root_in_component
    (DjsuRooted.Reachable.union_step (DjsuRooted.new 2) 1 0 (by decide) (by decide)
      (DjsuRooted.Reachable.base 2)) (x := 0) (by decide)
  ⟨by decide, h.1, h.2⟩

/-! ### CSR construction: offsets, scatter, neighbor slices -/

theorem getE_eq_getElem {l : List Nat} {i : Nat} (h : i < l.length) :
    getE l i = l[i] := by
  simp [getE, List.getD, List.getElem?_eq_getElem h]

theorem slice_set_out {l : List Nat} {p d k : Nat} {x : Nat}
    (h : p < d ∨ d + k ≤ p) :
    ((l.set p x).drop d).take k = (l.drop d).take k := by
  apply List.ext_getElem?
  intro i
  rw [List.getElem?_take, List.getElem?_take]
  by_cases hik : i < k
  · rw [if_pos hik, if_pos hik, List.getElem?_drop, List.getElem?_drop,
      List.getElem?_set_ne (show p ≠ d + i by omega)]
  · rw [if_neg hik, if_neg hik]

theorem slice_set_append {l : List Nat} {d k : Nat} {x : Nat} (h : d + k < l.length) :
    ((l.set (d + k) x).drop d).take (k + 1) = ((l.drop d).take k) ++ [x] := by
  rw [List.take_succ]
  congr 1
  · exact slice_set_out (Or.inr (le_refl _))
  · rw [List.getElem?_drop, List.getElem?_set_self (by omega)]
    rfl

theorem bump_length (l : List Nat) (i : Nat) : (bump l i).length = l.length := by
  simp [bump]

theorem getE_bump_self {l : List Nat} {i : Nat} (h : i < l.length) :
    getE (bump l i) i = getE l i + 1 := getE_set_self l i _ h

theorem getE_bump_ne (l : List Nat) {i j : Nat} (h : j ≠ i) :
    getE (bump l i) j = getE l j := getE_set_ne l i _ j h

theorem cntHalf_cons (e : Nat × Nat) (rest : List (Nat × Nat)) (v : Nat) :
    cntHalf (e :: rest) v =
      cntHalf rest v + ((if e.1 = v then 1 else 0) + (if e.2 = v then 1 else 0)) := by
  simp only [cntHalf, List.countP_cons]
  by_cases h1 : e.1 = v <;> by_cases h2 : e.2 = v <;>
    simp [h1, h2] <;> omega

theorem partners_cons (e : Nat × Nat) (rest : List (Nat × Nat)) (v : Nat) :
    partners (e :: rest) v =
      ((if e.1 = v then [e.2] else []) ++ (if e.2 = v then [e.1] else [])) ++
        partners rest v := by
  simp [partners]

theorem partners_nil (v : Nat) : partners [] v = [] := rfl

theorem cntHalf_append (p q : List (Nat × Nat)) (v : Nat) :
    cntHalf (p ++ q) v = cntHalf p v + cntHalf q v := by
  simp only [cntHalf, List.countP_append]
  omega

theorem partners_append (p q : List (Nat × Nat)) (v : Nat) :
    partners (p ++ q) v = partners p v ++ partners q v := by
  simp [partners]

/-- The degree-count loop: position `0` is untouched and position
`i ≥ 1` accumulates the half-edge count of vertex `i - 1`. -/
theorem countDeg_fold_spec (n : Nat) :
    ∀ (edges : List (Nat × Nat)) (acc : List Nat), acc.length = n →
      (edges.foldl (fun off e =>
        let off := if e.1 < n - 1 then bump off (e.1 + 1) else off
        if e.2 < n - 1 then bump off (e.2 + 1) else off) acc).length = n ∧
      (∀ i, 0 < i → i < n →
        getE (edges.foldl (fun off e =>
          let off := if e.1 < n - 1 then bump off (e.1 + 1) else off
          if e.2 < n - 1 then bump off (e.2 + 1) else off) acc) i
          = getE acc i + cntHalf edges (i - 1)) ∧
      getE (edges.foldl (fun off e =>
        let off := if e.1 < n - 1 then bump off (e.1 + 1) else off
        if e.2 < n - 1 then bump off (e.2 + 1) else off) acc) 0 = getE acc 0
  | [], acc, hlen => by
    refine ⟨hlen, ?_, rfl⟩
    intro i _ _
    simp [cntHalf]
  | e :: rest, acc, hlen => by
    set step := fun (off : List Nat) (e : Nat × Nat) =>
      let off := if e.1 < n - 1 then bump off (e.1 + 1) else off
      if e.2 < n - 1 then bump off (e.2 + 1) else off with hstep
    have hacc' : (step acc e).length = n := by
      rw [hstep]
      simp only []
      split <;> split <;> simp [bump_length, hlen]
    obtain ⟨ihlen, ihget, ihzero⟩ := countDeg_fold_spec n rest (step acc e) hacc'
    have hmidlen : (if e.1 < n - 1 then bump acc (e.1 + 1) else acc).length = n := by
      split <;> simp [bump_length, hlen]
    have hstep_eq : step acc e =
        if e.2 < n - 1 then bump (if e.1 < n - 1 then bump acc (e.1 + 1) else acc) (e.2 + 1)
        else (if e.1 < n - 1 then bump acc (e.1 + 1) else acc) := rfl
    have hmid : ∀ i, 0 < i → i < n →
        getE (step acc e) i =
          getE acc i + ((if e.1 = i - 1 then 1 else 0) + (if e.2 = i - 1 then 1 else 0)) := by
      intro i hi0 hin
      have hmid1 : getE (if e.1 < n - 1 then bump acc (e.1 + 1) else acc) i =
          getE acc i + (if e.1 = i - 1 then 1 else 0) := by
        by_cases hcase : e.1 = i - 1
        · have he1 : e.1 + 1 = i := by omega
          rw [if_pos (show e.1 < n - 1 by omega), he1,
            getE_bump_self (by rw [hlen]; exact hin), if_pos hcase]
        · have hne : i ≠ e.1 + 1 := by omega
          rw [if_neg hcase]
          split
          · rw [getE_bump_ne _ hne]
            simp
          · simp
      rw [hstep_eq]
      by_cases hcase : e.2 = i - 1
      · have he2 : e.2 + 1 = i := by omega
        rw [if_pos (show e.2 < n - 1 by omega), he2,
          getE_bump_self (by rw [hmidlen]; exact hin), hmid1, if_pos hcase]
        omega
      · have hne : i ≠ e.2 + 1 := by omega
        rw [if_neg hcase]
        split
        · rw [getE_bump_ne _ hne, hmid1]
          simp
        · rw [hmid1]
          simp
    have hmid0 : getE (step acc e) 0 = getE acc 0 := by
      rw [hstep_eq]
      have h1 : getE (if e.1 < n - 1 then bump acc (e.1 + 1) else acc) 0 = getE acc 0 := by
        split
        · exact getE_bump_ne _ (by omega)
        · rfl
      split
      · rw [getE_bump_ne _ (by omega), h1]
      · exact h1
    refine ⟨ihlen, ?_, by rw [List.foldl_cons, ihzero, hmid0]⟩
    intro i hi0 hin
    rw [List.foldl_cons, ihget i hi0 hin, hmid i hi0 hin, cntHalf_cons]
    omega

/-- The prefix-sum loop over indices `[2, 2+k)`: positions below `2+k`
become prefix sums (position 0 untouched), later positions untouched. -/
theorem prefix_fold_spec (l₀ : List Nat) :
    ∀ (k : Nat),
      ((List.range' 2 k).foldl (fun o i => o.set i (getE o i + getE o (i - 1))) l₀).length
        = l₀.length ∧
      (∀ i, i < l₀.length → i < 2 + k →
        getE ((List.range' 2 k).foldl (fun o i => o.set i (getE o i + getE o (i - 1))) l₀) i
          = if i = 0 then getE l₀ 0 else ∑ j ∈ Finset.Icc 1 i, getE l₀ j) ∧
      (∀ i, 2 + k ≤ i →
        getE ((List.range' 2 k).foldl (fun o i => o.set i (getE o i + getE o (i - 1))) l₀) i
          = getE l₀ i)
  | 0 => by
    refine ⟨rfl, ?_, fun i _ => rfl⟩
    intro i hilen hik
    interval_cases i
    · rw [if_pos rfl]
      rfl
    · rw [if_neg one_ne_zero]
      simp
  | k + 1 => by
    obtain ⟨ihlen, ihget, ihgt⟩ := prefix_fold_spec l₀ k
    have hconcat : List.range' 2 (k + 1) = List.range' 2 k ++ [2 + k] :=
      List.range'_1_concat 2 k
    rw [hconcat]
    simp only [List.foldl_append, List.foldl_cons, List.foldl_nil]
    set out := (List.range' 2 k).foldl (fun o i => o.set i (getE o i + getE o (i - 1))) l₀
      with hout
    by_cases hlt : 2 + k < l₀.length
    · have hnew : getE (out.set (2 + k) (getE out (2 + k) + getE out (2 + k - 1))) (2 + k)
          = ∑ j ∈ Finset.Icc 1 (2 + k), getE l₀ j := by
        rw [getE_set_self out (2 + k) _ (by rw [ihlen]; exact hlt)]
        rw [ihgt (2 + k) (le_refl _)]
        rw [ihget (2 + k - 1) (by omega) (by omega)]
        rw [if_neg (by omega)]
        have hsplit : ∑ j ∈ Finset.Icc 1 (2 + k), getE l₀ j
            = (∑ j ∈ Finset.Icc 1 (1 + k), getE l₀ j) + getE l₀ (2 + k) := by
          have h2k : 2 + k = (1 + k) + 1 := by omega
          rw [h2k, Finset.sum_Icc_succ_top (by omega)]
        rw [hsplit]
        have : 2 + k - 1 = 1 + k := by omega
        rw [this]
        omega
      refine ⟨by simp [ihlen], ?_, ?_⟩
      · intro i hilen hik
        by_cases hieq : i = 2 + k
        · rw [hieq, hnew, if_neg (by omega)]
        · rw [getE_set_ne out (2 + k) _ i hieq]
          exact ihget i hilen (by omega)
      · intro i hi
        rw [getE_set_ne out (2 + k) _ i (by omega)]
        exact ihgt i (by omega)
    · have hnoop : out.set (2 + k) (getE out (2 + k) + getE out (2 + k - 1)) = out := by
        apply List.set_eq_of_length_le
        rw [ihlen]
        omega
      rw [hnoop]
      refine ⟨ihlen, ?_, ?_⟩
      · intro i hilen hik
        exact ihget i hilen (by omega)
      · intro i hi
        exact ihgt i (by omega)

/-- The built offset array holds, at each `v < n`, the sum of the
half-edge counts of all vertices below `v`. -/
theorem offset_spec (n : Nat) (edges : List (Nat × Nat)) :
    (prefixSums (GraphIndexed.countDeg n edges)).length = n ∧
    ∀ v < n, getE (prefixSums (GraphIndexed.countDeg n edges)) v
      = ∑ u ∈ Finset.range v, cntHalf edges u := by
  obtain ⟨hcdlen, hcdget, hcdzero⟩ :=
    countDeg_fold_spec n edges (List.replicate n 0) (by simp)
  have hcd_eq : GraphIndexed.countDeg n edges =
      edges.foldl (fun off e =>
        let off := if e.1 < n - 1 then bump off (e.1 + 1) else off
        if e.2 < n - 1 then bump off (e.2 + 1) else off) (List.replicate n 0) := rfl
  rw [← hcd_eq] at hcdlen hcdget hcdzero
  have hrep : ∀ i, getE (List.replicate n (0 : Nat)) i = 0 := by
    intro i
    rw [getE, List.getD_eq_getElem?_getD, List.getElem?_replicate]
    split <;> rfl
  have hcnt0 : getE (GraphIndexed.countDeg n edges) 0 = 0 := by rw [hcdzero, hrep]
  have hcnti : ∀ i, 0 < i → i < n →
      getE (GraphIndexed.countDeg n edges) i = cntHalf edges (i - 1) := by
    intro i h1 h2
    rw [hcdget i h1 h2, hrep, Nat.zero_add]
  obtain ⟨hplen, hpget, _⟩ :=
    prefix_fold_spec (GraphIndexed.countDeg n edges)
      ((GraphIndexed.countDeg n edges).length - 2)
  have hps_eq : prefixSums (GraphIndexed.countDeg n edges) =
      (List.range' 2 ((GraphIndexed.countDeg n edges).length - 2)).foldl
        (fun o i => o.set i (getE o i + getE o (i - 1)))
        (GraphIndexed.countDeg n edges) := rfl
  rw [← hps_eq] at hplen hpget
  refine ⟨by rw [hplen, hcdlen], ?_⟩
  intro v hv
  have hvlen : v < (GraphIndexed.countDeg n edges).length := by rw [hcdlen]; exact hv
  have hvk : v < 2 + ((GraphIndexed.countDeg n edges).length - 2) := by
    rw [hcdlen]
    omega
  rw [hpget v hvlen hvk]
  by_cases hv0 : v = 0
  · rw [if_pos hv0, hv0, hcnt0]
    simp
  · rw [if_neg hv0]
    have hIcc : ∀ j ∈ Finset.Icc 1 v, getE (GraphIndexed.countDeg n edges) j
        = cntHalf edges (j - 1) := by
      intro j hj
      simp only [Finset.mem_Icc] at hj
      exact hcnti j (by omega) (by omega)
    rw [Finset.sum_congr rfl hIcc, ← Nat.Ico_succ_right, Finset.sum_Ico_eq_sum_range]
    have hv1 : v + 1 - 1 = v := by omega
    rw [hv1]
    refine Finset.sum_congr rfl ?_
    intro u _
    congr 1
    omega

/-- The half-edge counts over all vertices sum to twice the edge count
when all endpoints are in range. -/
theorem sum_cntHalf {n : Nat} :
    ∀ {edges : List (Nat × Nat)}, (∀ e ∈ edges, e.1 < n ∧ e.2 < n) →
      ∑ u ∈ Finset.range n, cntHalf edges u = 2 * edges.length
  | [], _ => by simp [cntHalf]
  | e :: rest, h => by
    have he := h e (List.mem_cons_self e rest)
    have hrest : ∀ e' ∈ rest, e'.1 < n ∧ e'.2 < n :=
      fun e' he' => h e' (List.mem_cons_of_mem e he')
    have hsum := sum_cntHalf hrest
    calc ∑ u ∈ Finset.range n, cntHalf (e :: rest) u
        = ∑ u ∈ Finset.range n,
            (cntHalf rest u + ((if e.1 = u then 1 else 0) + (if e.2 = u then 1 else 0))) := by
          refine Finset.sum_congr rfl ?_
          intro u _
          rw [cntHalf_cons]
      _ = (∑ u ∈ Finset.range n, cntHalf rest u)
            + ((∑ u ∈ Finset.range n, if e.1 = u then 1 else 0)
              + (∑ u ∈ Finset.range n, if e.2 = u then 1 else 0)) := by
          rw [← Finset.sum_add_distrib, ← Finset.sum_add_distrib]
      _ = 2 * rest.length + (1 + 1) := by
          rw [hsum, Finset.sum_ite_eq, Finset.sum_ite_eq,
            if_pos (Finset.mem_range.mpr he.1), if_pos (Finset.mem_range.mpr he.2)]
      _ = 2 * (e :: rest).length := by
          simp [List.length_cons]
          ring

theorem partners_length (edges : List (Nat × Nat)) (v : Nat) :
    (partners edges v).length = cntHalf edges v := by
  induction edges with
  | nil => rfl
  | cons e rest ih =>
    rw [partners_cons, cntHalf_cons, List.length_append, ih]
    by_cases h1 : e.1 = v <;> by_cases h2 : e.2 = v <;> simp [h1, h2] <;> omega

/-- The neighbor count of `u` in `v`'s reference list is the number of
occurrences of `(v,u)` plus the number of occurrences of `(u,v)` in the
edge list. -/
theorem partners_count (edges : List (Nat × Nat)) (v u : Nat) :
    (partners edges v).count u =
      edges.countP (fun e => e == (v, u)) + edges.countP (fun e => e == (u, v)) := by
  induction edges with
  | nil => rfl
  | cons e rest ih =>
    rw [partners_cons, List.count_append, ih, List.countP_cons, List.countP_cons]
    have lcount : ∀ (c : Nat) (cond : Prop) (hd : Decidable cond) (x : Nat),
        List.count c (if cond then [x] else []) = if cond ∧ x = c then 1 else 0 := by
      intro c cond hd x
      split
      · rename_i hc
        rw [List.count_singleton]
        by_cases hx : x = c <;> simp [hx, hc]
      · rename_i hc
        simp [hc]
    have hsplit : (((if e.1 = v then [e.2] else []) ++ (if e.2 = v then [e.1] else [])).count u)
        = ((if e = (v, u) then 1 else 0) + (if e = (u, v) then 1 else 0)) := by
      obtain ⟨a, b⟩ := e
      rw [List.count_append, lcount, lcount]
      simp only [Prod.mk.injEq]
      rw [if_congr (show (b = v ∧ a = u) ↔ (a = u ∧ b = v) from and_comm) rfl rfl]
    rw [hsplit]
    simp only [beq_iff_eq]
    omega

/-- A scatter write at the end of `w`'s partially-filled region stays in
bounds. -/
theorem write_lt (full : List (Nat × Nat)) (n : Nat) {w c : Nat} (hw : w < n)
    (hc : c < cntHalf full w) :
    (∑ u ∈ Finset.range w, cntHalf full u) + c < ∑ u ∈ Finset.range n, cntHalf full u := by
  have h1 : (∑ u ∈ Finset.range w, cntHalf full u) + c
      < ∑ u ∈ Finset.range (w + 1), cntHalf full u := by
    rw [Finset.sum_range_succ]
    omega
  have h2 : ∑ u ∈ Finset.range (w + 1), cntHalf full u
      ≤ ∑ u ∈ Finset.range n, cntHalf full u :=
    Finset.sum_le_sum_of_subset (Finset.range_subset.mpr hw)
  omega

/-- A scatter write at the end of `w`'s region appends to `w`'s slice and
leaves every other vertex's slice unchanged. -/
theorem slices_after_write (full : List (Nat × Nat)) (n : Nat) {neigh : List Nat}
    {w : Nat} (hw : w < n) {x : Nat} {c : Nat → Nat} {P : Nat → List Nat}
    (hlen : neigh.length = ∑ u ∈ Finset.range n, cntHalf full u)
    (hcw : c w < cntHalf full w) (hc_le : ∀ v < n, c v ≤ cntHalf full v)
    (hsl : ∀ v < n, ((neigh.drop (∑ u ∈ Finset.range v, cntHalf full u)).take (c v)) = P v) :
    ∀ v < n,
      (((neigh.set ((∑ u ∈ Finset.range w, cntHalf full u) + c w) x).drop
          (∑ u ∈ Finset.range v, cntHalf full u)).take
        (if v = w then c w + 1 else c v))
      = if v = w then P w ++ [x] else P v := by
  intro v hv
  by_cases hvw : v = w
  · subst hvw
    rw [if_pos rfl, if_pos rfl, slice_set_append (by rw [hlen]; exact write_lt full n hv hcw),
      hsl v hv]
  · rw [if_neg hvw, if_neg hvw, slice_set_out ?_, hsl v hv]
    rcases Nat.lt_or_ge v w with hlt | hge
    · refine Or.inr ?_
      have h1 : (∑ u ∈ Finset.range v, cntHalf full u) + c v
          ≤ ∑ u ∈ Finset.range (v + 1), cntHalf full u := by
        rw [Finset.sum_range_succ]
        have := hc_le v hv
        omega
      have h2 : ∑ u ∈ Finset.range (v + 1), cntHalf full u
          ≤ ∑ u ∈ Finset.range w, cntHalf full u :=
        Finset.sum_le_sum_of_subset (Finset.range_subset.mpr hlt)
      omega
    · refine Or.inl ?_
      have hwlt : w < v := by omega
      have h1 : (∑ u ∈ Finset.range w, cntHalf full u) + c w
          < ∑ u ∈ Finset.range (w + 1), cntHalf full u := by
        rw [Finset.sum_range_succ]
        omega
      have h2 : ∑ u ∈ Finset.range (w + 1), cntHalf full u
          ≤ ∑ u ∈ Finset.range v, cntHalf full u :=
        Finset.sum_le_sum_of_subset (Finset.range_subset.mpr hwlt)
      omega

theorem if_flip {α : Sort _} (x y : Nat) (a b : α) :
    (if x = y then a else b) = (if y = x then a else b) :=
  if_congr eq_comm rfl rfl

/-- The scatter loop of `GraphIndexed::new` succeeds and fills each
vertex's region with exactly its reference neighbor list. -/
theorem scatter_spec (n : Nat) (full : List (Nat × Nat))
    (hfull : ∀ e ∈ full, e.1 < n ∧ e.2 < n) :
    ∀ (todo done : List (Nat × Nat)) (pos neigh : List Nat),
      done ++ todo = full →
      pos.length = n →
      neigh.length = ∑ u ∈ Finset.range n, cntHalf full u →
      (∀ v < n, getE pos v = (∑ u ∈ Finset.range v, cntHalf full u) + cntHalf done v) →
      (∀ v < n, ((neigh.drop (∑ u ∈ Finset.range v, cntHalf full u)).take (cntHalf done v))
        = partners done v) →
      ∃ pn : List Nat × List Nat,
        todo.foldlM GraphIndexed.scatterStep (pos, neigh) = some pn ∧
        pn.2.length = neigh.length ∧
        (∀ v < n, ((pn.2.drop (∑ u ∈ Finset.range v, cntHalf full u)).take (cntHalf full v))
          = partners full v)
  | [], done, pos, neigh, happ, hplen, hnlen, hpos, hsl => by
    rw [List.append_nil] at happ
    subst happ
    exact ⟨(pos, neigh), rfl, rfl, hsl⟩
  | e :: rest, done, pos, neigh, happ, hplen, hnlen, hpos, hsl => by
    have he : e ∈ full := by
      rw [← happ]
      exact List.mem_append_right done (List.mem_cons_self e rest)
    have ha := (hfull e he).1
    have hb := (hfull e he).2
    have hfull_split : ∀ v, cntHalf full v = cntHalf done v + cntHalf (e :: rest) v := by
      intro v
      rw [← happ, cntHalf_append]
    have hca : cntHalf done e.1 < cntHalf full e.1 := by
      rw [hfull_split e.1, cntHalf_cons]
      rw [if_pos rfl]
      omega
    -- the intermediate count after the first half-edge write
    set c₁ : Nat → Nat := fun v => cntHalf done v + (if v = e.1 then 1 else 0) with hc₁
    have hc₁b : c₁ e.2 < cntHalf full e.2 := by
      rw [hc₁]
      simp only []
      rw [hfull_split e.2, cntHalf_cons, if_pos rfl, if_flip e.2 e.1]
      by_cases hee : e.1 = e.2
      · rw [if_pos hee]
        omega
      · rw [if_neg hee]
        omega
    have hc₁_le : ∀ v < n, c₁ v ≤ cntHalf full v := by
      intro v hv
      rw [hc₁]
      simp only []
      rw [hfull_split v, cntHalf_cons, if_flip v e.1]
      by_cases h1 : e.1 = v
      · rw [if_pos h1]
        omega
      · rw [if_neg h1]
        omega
    have hc₀_le : ∀ v < n, cntHalf done v ≤ cntHalf full v := by
      intro v hv
      rw [hfull_split v]
      omega
    -- the first half-edge write
    set p₁ : Nat := (∑ u ∈ Finset.range e.1, cntHalf full u) + cntHalf done e.1 with hp₁
    have hget1 : pos[e.1]? = some p₁ := by
      rw [List.getElem?_eq_getElem (by rw [hplen]; exact ha)]
      rw [← getE_eq_getElem (by rw [hplen]; exact ha), hpos e.1 ha]
    have hp1lt : p₁ < neigh.length := by
      rw [hnlen, hp₁]
      exact write_lt full n ha hca
    have hsetq1 : setq neigh p₁ e.2 = some (neigh.set p₁ e.2) := by
      rw [setq, if_pos hp1lt]
    set pos₁ := pos.set e.1 (p₁ + 1) with hpos₁def
    set neigh₁ := neigh.set p₁ e.2 with hneigh₁def
    have hpos₁len : pos₁.length = n := by rw [hpos₁def, List.length_set, hplen]
    have hneigh₁len : neigh₁.length = neigh.length := by rw [hneigh₁def, List.length_set]
    have hpos₁get : ∀ v < n, getE pos₁ v = (∑ u ∈ Finset.range v, cntHalf full u) + c₁ v := by
      intro v hv
      rw [hc₁]
      simp only []
      by_cases hv1 : v = e.1
      · rw [if_pos hv1, hv1, hpos₁def,
          getE_set_self pos e.1 (p₁ + 1) (by rw [hplen]; exact ha), hp₁]
        omega
      · rw [if_neg hv1, hpos₁def, getE_set_ne pos e.1 (p₁ + 1) v hv1, hpos v hv]
        omega
    have hsl₁ : ∀ v < n, ((neigh₁.drop (∑ u ∈ Finset.range v, cntHalf full u)).take (c₁ v))
        = partners done v ++ (if v = e.1 then [e.2] else []) := by
      intro v hv
      have hw := slices_after_write full n (x := e.2) ha hnlen hca hc₀_le hsl v hv
      rw [hneigh₁def, hp₁, hc₁]
      simp only []
      by_cases hv1 : v = e.1
      · simpa [hv1] using hw
      · simpa [hv1] using hw
    -- the second half-edge write
    set p₂ : Nat := (∑ u ∈ Finset.range e.2, cntHalf full u) + c₁ e.2 with hp₂
    have hget2 : pos₁[e.2]? = some p₂ := by
      rw [List.getElem?_eq_getElem (by rw [hpos₁len]; exact hb)]
      rw [← getE_eq_getElem (by rw [hpos₁len]; exact hb), hpos₁get e.2 hb]
    have hp2lt : p₂ < neigh₁.length := by
      rw [hneigh₁len, hnlen, hp₂]
      exact write_lt full n hb hc₁b
    have hsetq2 : setq neigh₁ p₂ e.1 = some (neigh₁.set p₂ e.1) := by
      rw [setq, if_pos hp2lt]
    set pos₂ := pos₁.set e.2 (p₂ + 1) with hpos₂def
    set neigh₂ := neigh₁.set p₂ e.1 with hneigh₂def
    have hpos₂len : pos₂.length = n := by rw [hpos₂def, List.length_set, hpos₁len]
    have hneigh₂len : neigh₂.length = neigh.length := by
      rw [hneigh₂def, List.length_set, hneigh₁len]
    have hcnt_done_e : ∀ v, cntHalf (done ++ [e]) v
        = c₁ v + (if v = e.2 then 1 else 0) := by
      intro v
      rw [cntHalf_append, cntHalf_cons, hc₁]
      simp only [cntHalf, List.countP_nil]
      rw [if_flip v e.1, if_flip v e.2]
      omega
    have hpos₂get : ∀ v < n,
        getE pos₂ v = (∑ u ∈ Finset.range v, cntHalf full u) + cntHalf (done ++ [e]) v := by
      intro v hv
      rw [hcnt_done_e v]
      by_cases hv2 : v = e.2
      · rw [if_pos hv2, hv2, hpos₂def,
          getE_set_self pos₁ e.2 (p₂ + 1) (by rw [hpos₁len]; exact hb), hp₂]
        omega
      · rw [if_neg hv2, hpos₂def, getE_set_ne pos₁ e.2 (p₂ + 1) v hv2, hpos₁get v hv]
        omega
    have hpartners_done_e : ∀ v, partners (done ++ [e]) v
        = (partners done v ++ (if v = e.1 then [e.2] else [])) ++
            (if v = e.2 then [e.1] else []) := by
      intro v
      rw [partners_append, partners_cons, partners_nil, List.append_nil,
        if_flip v e.1, if_flip v e.2, List.append_assoc]
    have hsl₂ : ∀ v < n,
        ((neigh₂.drop (∑ u ∈ Finset.range v, cntHalf full u)).take (cntHalf (done ++ [e]) v))
        = partners (done ++ [e]) v := by
      intro v hv
      have hw := slices_after_write full n (x := e.1) hb
        (by rw [hneigh₁len]; exact hnlen) hc₁b hc₁_le hsl₁ v hv
      rw [hneigh₂def, hp₂, hpartners_done_e v, hcnt_done_e v]
      by_cases hv2 : v = e.2
      · simpa [hv2] using hw
      · simpa [hv2] using hw
    -- one full scatter step
    have hstep : GraphIndexed.scatterStep (pos, neigh) e = some (pos₂, neigh₂) := by
      rw [GraphIndexed.scatterStep]
      simp only [hget1, hsetq1, hget2, hsetq2, Option.bind_eq_bind, Option.some_bind]
      rw [hpos₂def, hneigh₂def, hpos₁def, hneigh₁def]
      rfl
    have happ' : (done ++ [e]) ++ rest = full := by
      rw [List.append_assoc]
      simpa using happ
    obtain ⟨pn, hfold, hlen, hslices⟩ :=
      scatter_spec n full hfull rest (done ++ [e]) pos₂ neigh₂ happ'
        hpos₂len (by rw [hneigh₂len]; exact hnlen) hpos₂get hsl₂
    refine ⟨pn, ?_, by rw [hlen, hneigh₂len], hslices⟩
    rw [List.foldlM_cons, hstep]
    simpa using hfold

/-- C9: for every vertex count and edge list with in-range endpoints,
`GraphIndexed::new` (textually identical to `StaticGraph::new`) succeeds
and for every vertex `v` the CSR slice `neighbors(v)` is exactly the
reference neighbor list of `v` — so its multiset (characterized by the
`count` equation: `u` appears as many times as `(v,u)` and `(u,v)` occur
in the edge list) is the claimed one, and the per-vertex slices partition
the `2*|E|` stored entries (their lengths sum to the array length). -/
theorem C9_csr_neighbors {n : Nat} {edges : List (Nat × Nat)}
    (hE : ∀ e ∈ edges, e.1 < n ∧ e.2 < n) :
    ∃ g : GraphIndexed, GraphIndexed.new n edges = some g ∧
      g.n_vert = n ∧
      g.neigh.length = 2 * edges.length ∧
      (∀ v < n, g.neighbors v = partners edges v) ∧
      (∀ v < n, ∀ u, (g.neighbors v).count u =
        edges.countP (fun e => e == (v, u)) + edges.countP (fun e => e == (u, v))) ∧
      (∑ v ∈ Finset.range n, (g.neighbors v).length) = g.neigh.length := by
  obtain ⟨holen, hoget⟩ := offset_spec n edges
  have h2E : ∑ u ∈ Finset.range n, cntHalf edges u = 2 * edges.length := sum_cntHalf hE
  obtain ⟨pn, hfold, hplen2, hslices⟩ :=
    scatter_spec n edges hE edges [] (prefixSums (GraphIndexed.countDeg n edges))
      (List.replicate (2 * edges.length) 0)
      (by simp) holen (by simp [h2E])
      (by
        intro v hv
        rw [hoget v hv]
        simp [cntHalf])
      (by
        intro v hv
        simp [cntHalf, partners])
  have hpn2len : pn.2.length = 2 * edges.length := by
    rw [hplen2]
    simp
  have hnew : GraphIndexed.new n edges =
      some ⟨prefixSums (GraphIndexed.countDeg n edges), pn.2⟩ := by
    rw [GraphIndexed.new, hfold]
    rfl
  have hneighbors : ∀ v < n,
      GraphIndexed.neighbors ⟨prefixSums (GraphIndexed.countDeg n edges), pn.2⟩ v
        = partners edges v := by
    intro v hv
    have hslice := hslices v hv
    rw [GraphIndexed.neighbors]
    simp only []
    by_cases hvlast : v < (prefixSums (GraphIndexed.countDeg n edges)).length - 1
    · rw [if_pos hvlast]
      have hv1 : v + 1 < n := by rw [holen] at hvlast; omega
      rw [hoget v hv, hoget (v + 1) hv1, Finset.sum_range_succ]
      have hdiff : (∑ u ∈ Finset.range v, cntHalf edges u) + cntHalf edges v
          - ∑ u ∈ Finset.range v, cntHalf edges u = cntHalf edges v := by omega
      rw [hdiff]
      exact hslice
    · rw [if_neg hvlast]
      have hveq : v = n - 1 := by rw [holen] at hvlast; omega
      have hn1 : n = v + 1 := by omega
      rw [hoget v hv]
      have hdlen : (pn.2.drop (∑ u ∈ Finset.range v, cntHalf edges u)).length
          = cntHalf edges v := by
        rw [List.length_drop, hpn2len, ← h2E, hn1, Finset.sum_range_succ]
        omega
      rw [← List.take_length (pn.2.drop (∑ u ∈ Finset.range v, cntHalf edges u)), hdlen]
      exact hslice
  refine ⟨⟨prefixSums (GraphIndexed.countDeg n edges), pn.2⟩, hnew,
    holen, hpn2len, hneighbors, ?_, ?_⟩
  · intro v hv u
    rw [hneighbors v hv, partners_count]
  · have hsum : ∀ v ∈ Finset.range n,
        (GraphIndexed.neighbors ⟨prefixSums (GraphIndexed.countDeg n edges), pn.2⟩ v).length
          = cntHalf edges v := by
      intro v hv
      rw [hneighbors v (Finset.mem_range.mp hv), partners_length]
    rw [Finset.sum_congr rfl hsum]
    show ∑ v ∈ Finset.range n, cntHalf edges v = pn.2.length
    rw [h2E, hpn2len]

/-- Witness for C9: the two-vertex graph with the single edge `(0,1)`. -/
theorem C9_witness :
    (∀ e ∈ [((0 : Nat), (1 : Nat))], e.1 < 2 ∧ e.2 < 2) ∧
    ∃ g : GraphIndexed, GraphIndexed.new 2 [(0, 1)] = some g ∧
      g.n_vert = 2 ∧
      g.neigh.length = 2 * [((0 : Nat), (1 : Nat))].length ∧
      (∀ v < 2, g.neighbors v = partners [(0, 1)] v) ∧
      (∀ v < 2, ∀ u, (g.neighbors v).count u =
        [((0 : Nat), (1 : Nat))].countP (fun e => e == (v, u)) +
          [((0 : Nat), (1 : Nat))].countP (fun e => e == (u, v))) ∧
      (∑ v ∈ Finset.range 2, (g.neighbors v).length) = g.neigh.length :=
  ⟨by decide, C9_csr_neighbors (by decide)⟩

/-- C4: the spec claims that after `mergesort(array)` the array is a
permutation of its initial contents sorted in non-decreasing order, for
every length.  The code drops the leftover chunk in `merge_intervals`
(when an odd chunk remains, the `loop` breaks without copying it into the
output buffer), and on the length-6 input `[6,5,4,3,2,1]` the result is
`[2,1,3,4,5,6]`, which is not sorted: the code is wrong, the claim
states the evident intent. -/
theorem C4_mergesort_not_sorted_on_length_six :
    mergesort [6, 5, 4, 3, 2, 1] = [2, 1, 3, 4, 5, 6] ∧
    ¬ (mergesort [6, 5, 4, 3, 2, 1]).Sorted (· ≤ ·) := by decide

/-- C5: the spec claims that a union of two equal-height roots attaches
`b`'s root under `a`'s root and increments the height recorded for `a`'s
root.  On a fresh DSU of size 2, `union(0,1)` attaches root 1 under
root 0 (as claimed) but executes `self.height[right] += 1`, incrementing
the height recorded for the absorbed root 1 and leaving root 0 at
height 0: the increment lands on the wrong side, defeating the
union-by-height policy the heights exist for. -/
theorem C5_union_increments_absorbed_root_height :
    getE (DjsuIndex.union (DjsuIndex.new 2) 0 1).1.root 1 = 0 ∧
    getE (DjsuIndex.union (DjsuIndex.new 2) 0 1).1.height 0 = 0 ∧
    getE (DjsuIndex.union (DjsuIndex.new 2) 0 1).1.height 1 = 1 := by decide

/-- C2: the spec claims that after `DjsuRooted::union(major, minor)` both
`find(major)` and `find(minor)` return `find(major)` as it was before the
union.  The code copies the raw entry `root[major]`, which is stale when
`major` is not its component's previous merge representative: starting
from a fresh structure of size 3, after `union(0,1)` we have
`find(1) = 0`, yet after the further `union(major := 1, minor := 2)` both
`find(1)` and `find(2)` return 1, not 0 — contradicting the module's own
doc comment ("the newly formed connected component is rooted at the same
node that the major subcomponent had been rooted at"). -/
theorem C2_rooted_union_loses_major_root :
    (DjsuRooted.find (DjsuRooted.union (DjsuRooted.new 3) 0 1).1 1).2 = 0 ∧
    (DjsuRooted.find (DjsuRooted.union (DjsuRooted.union (DjsuRooted.new 3) 0 1).1 1 2).1 1).2 = 1 ∧
    (DjsuRooted.find (DjsuRooted.union (DjsuRooted.union (DjsuRooted.new 3) 0 1).1 1 2).1 2).2 = 1 := by
  decide

/-- C3: the spec claims `TreeIndexed::new` returns an error on any cycle
reachable from the root, including a self-loop.  A self-loop at the root
is never flagged by DFS (the neighbor equals the `parent[source]`
self-sentinel), so construction proceeds and the children scatter writes
past the end of the `children` array: on the graph with one vertex and
the edge `(0,0)`, Rust aborts with an index-out-of-bounds panic
(modelled as `none`) instead of returning `Err(())` — contradicting both
the claim and DFS's own doc comment ("if there exists a cycle reachable
from the source vertex, DFS is guaranteed to find it"). -/
theorem C3_tree_new_aborts_on_root_self_loop :
    GraphIndexed.new 1 [(0, 0)] = some { offset := [0], neigh := [0, 0] } ∧
    TreeIndexed.new { offset := [0], neigh := [0, 0] } 0 = none := ⟨rfl, rfl⟩

/-! ### Generic `getD` and `countTrue` facts -/

theorem getD_set_other {α : Type} (l : List α) (d : α) (i : Nat) (x : α) (j : Nat)
    (h : j ≠ i) : (l.set i x).getD j d = l.getD j d := by
  simp [List.getD, List.getElem?_set_ne (Ne.symm h)]

theorem getD_set_same {α : Type} (l : List α) (d : α) (i : Nat) (x : α)
    (h : i < l.length) : (l.set i x).getD i d = x := by
  simp [List.getD, List.getElem?_set_self, h]

theorem getD_rep {α : Type} (n : Nat) (d : α) (i : Nat) :
    (List.replicate n d).getD i d = d := by
  rw [List.getD_eq_getElem?_getD, List.getElem?_replicate]
  split <;> rfl

theorem getD_true_lt {l : List Bool} {x : Nat} (h : l.getD x false = true) :
    x < l.length := by
  by_contra hxl
  rw [List.getD_eq_default _ _ (by omega)] at h
  exact Bool.noConfusion h

theorem countTrue_set_true : ∀ (l : List Bool) (x : Nat), x < l.length →
    l.getD x false = false → countTrue (l.set x true) = countTrue l + 1
  | [], x, hx, _ => by simp at hx
  | b :: tl, 0, _, hb => by
    have hb' : b = false := hb
    subst hb'
    simp [countTrue, List.countP_cons]
  | b :: tl, x + 1, hx, hb => by
    have ih := countTrue_set_true tl x (by simpa using hx) hb
    simp only [List.set_cons_succ, countTrue, List.countP_cons] at ih ⊢
    omega

theorem countTrue_le (l : List Bool) : countTrue l ≤ l.length :=
  List.countP_le_length id

theorem countTrue_all {l : List Bool} (h : countTrue l = l.length) :
    ∀ x < l.length, l.getD x false = true := by
  intro x hx
  have hall := List.countP_eq_length.mp h
  rw [List.getD_eq_getElem?_getD, List.getElem?_eq_getElem hx]
  exact hall l[x] (l.getElem_mem hx)

/-! ### Unfolding the DFS recursion one level -/

theorem runF_succ (g : GraphIndexed) (fuel source : Nat) (st : DFS × List Bool) :
    DFS.runF g (fuel + 1) source st =
      (setqB st.2 source true).bind fun visited =>
        (g.neighbors source).foldlM (DFS.scanStep g fuel source)
          ({ st.1 with n_vert_reached := st.1.n_vert_reached + 1 }, visited) := rfl

theorem dmono_refl (st : DFS × List Bool) : DMono st st :=
  ⟨rfl, rfl, fun _ h => h, fun _ _ => rfl, fun h => h⟩

theorem dmono_trans {s1 s2 s3 : DFS × List Bool} (h12 : DMono s1 s2) (h23 : DMono s2 s3) :
    DMono s1 s3 := by
  obtain ⟨a1, b1, c1, d1, e1⟩ := h12
  obtain ⟨a2, b2, c2, d2, e2⟩ := h23
  exact ⟨by rw [a2, a1], by rw [b2, b1], fun x hx => c2 x (c1 x hx),
    fun x hx => by rw [d2 x (c1 x hx), d1 x hx], fun h => e2 (e1 h)⟩

/-- `GoodVert` survives any later monotone step, as the vertices it
mentions are visited. -/
theorem goodVert_dmono {g : GraphIndexed} {st st' : DFS × List Bool} {p : Nat}
    (hgv : GoodVert g st p) (hm : DMono st st') (hp : st.2.getD p false = true) :
    GoodVert g st' p := by
  obtain ⟨_, _, hvm, hpm, hfm⟩ := hm
  intro hflag u hu hune
  have hflag0 : st.1.cycle_found = false := by
    by_contra hc
    rw [hfm (by revert hc; cases st.1.cycle_found <;> simp)] at hflag
    exact Bool.noConfusion hflag
  rw [hpm p hp] at hune
  obtain ⟨h1, h2, h3⟩ := hgv hflag0 u hu hune
  exact ⟨by rw [hpm u h2]; exact h1, hvm u h2, h3⟩

/-- `Discovered` survives any later monotone step, as the whole chain is
visited. -/
theorem discovered_dmono {g : GraphIndexed} {source : Nat} {st st' : DFS × List Bool}
    {x : Nat} (hd : Discovered g source st x) (hm : DMono st st')
    (hx : st.2.getD x false = true) : Discovered g source st' x := by
  obtain ⟨_, _, hvm, hpm, _⟩ := hm
  obtain ⟨hne, hedge, k, hk, hvisk⟩ := hd
  have hpx : getE st'.1.parent x = getE st.1.parent x := hpm x hx
  have hchain : ∀ j ≤ k, (parv st'.1.parent)^[j] x = (parv st.1.parent)^[j] x := by
    intro j
    induction j with
    | zero => intro _; rfl
    | succ j ih =>
      intro hj
      rw [Function.iterate_succ_apply', Function.iterate_succ_apply', ih (by omega)]
      exact hpm _ (hvisk j (by omega))
  refine ⟨by rw [hpx]; exact hne, by rw [hpx]; exact hedge, k, ?_, ?_⟩
  · rw [hchain k (le_refl k)]
    exact hk
  · intro j hj
    rw [hchain j hj]
    exact hvm _ (hvisk j hj)

/-- One level of the DFS: scanning a neighbor list left to right keeps
the monotone facts, counts freshly visited vertices, discovers a
parent-chained subtree, and leaves the scan facts for `source`. -/
theorem scanFold_spec {g : GraphIndexed} {n : Nat}
    (hnb : ∀ p < n, ∀ u ∈ g.neighbors p, u < n)
    (fuel source : Nat) (hsrc : source < n)
    (IH : ∀ src st out, DFS.runF g fuel src st = some out → RunPre n src st →
      RunPost g n src st out) :
    ∀ (L P : List Nat) (st out : DFS × List Bool),
      L.foldlM (DFS.scanStep g fuel source) st = some out →
      P ++ L = g.neighbors source →
      st.2.length = n → st.1.parent.length = n →
      st.2.getD source false = true →
      st.2.getD (getE st.1.parent source) false = true →
      (∀ x < n, getE st.1.parent x < n) →
      (st.1.cycle_found = false → ∀ u, u ≠ getE st.1.parent source →
        P.count u ≤ 1 ∧ (u ∈ P → getE st.1.parent u = source ∧ st.2.getD u false = true)) →
      (DMono st out ∧
        (∀ x < n, getE out.1.parent x < n) ∧
        out.1.n_vert_reached + countTrue st.2 = st.1.n_vert_reached + countTrue out.2 ∧
        (∀ x, st.2.getD x false = false → out.2.getD x false = true →
          Discovered g source out x ∧ GoodVert g out x) ∧
        (out.1.cycle_found = false → ∀ u, u ≠ getE out.1.parent source →
          (P ++ L).count u ≤ 1 ∧
            (u ∈ P ++ L → getE out.1.parent u = source ∧ out.2.getD u false = true)))
  | [], P, st, out, hfold, happ, hvlen, hplen, hsvis, hpvis, hbnd, hSC => by
    have hout : st = out := by
      simpa [List.foldlM_nil] using hfold
    subst hout
    refine ⟨dmono_refl st, hbnd, by omega, ?_, ?_⟩
    · intro x hx0 hx1
      rw [hx0] at hx1
      exact absurd hx1 Bool.noConfusion
    · simpa [List.append_nil] using hSC
  | u :: rest, P, st, out, hfold, happ, hvlen, hplen, hsvis, hpvis, hbnd, hSC => by
    rw [List.foldlM_cons] at hfold
    obtain ⟨st', hscan, hrest⟩ : ∃ st', DFS.scanStep g fuel source st u = some st' ∧
        rest.foldlM (DFS.scanStep g fuel source) st' = some out := by
      cases hs : DFS.scanStep g fuel source st u with
      | none => rw [hs] at hfold; exact absurd hfold (by simp)
      | some s' => rw [hs] at hfold; exact ⟨s', rfl, by simpa using hfold⟩
    have humem : u ∈ g.neighbors source := by
      rw [← happ]
      exact List.mem_append_right P (List.mem_cons_self u rest)
    have happ' : (P ++ [u]) ++ rest = g.neighbors source := by
      rw [List.append_assoc, List.singleton_append]
      exact happ
    by_cases hvis : st.2.getD u false = false
    · -- the neighbor is fresh: recurse into it
      rw [DFS.scanStep, if_pos hvis] at hscan
      have hu_lt : u < n := hnb source hsrc u humem
      have hus : u ≠ source := by
        intro h
        rw [h, hsvis] at hvis
        exact Bool.noConfusion hvis
      have hsu : source ≠ u := Ne.symm hus
      set stA : DFS × List Bool := ({ st.1 with parent := st.1.parent.set u source }, st.2)
        with hstA
      have hApar : stA.1.parent = st.1.parent.set u source := rfl
      have hAu : getE stA.1.parent u = source := by
        rw [hApar]
        exact getE_set_self st.1.parent u source (by rw [hplen]; exact hu_lt)
      have hAother : ∀ x, x ≠ u → getE stA.1.parent x = getE st.1.parent x := by
        intro x hx
        rw [hApar]
        exact getE_set_ne st.1.parent u source x hx
      have hpre : RunPre n u stA := by
        refine ⟨hvlen, by rw [hApar, List.length_set]; exact hplen, hu_lt, hvis, ?_, ?_⟩
        · rw [hAu]
          exact Or.inl hsvis
        · intro x hx
          by_cases hxu : x = u
          · rw [hxu, hAu]; exact hsrc
          · rw [hAother x hxu]; exact hbnd x hx
      have hpost := IH u stA st' hscan hpre
      obtain ⟨hmA', hvisu', hparu', hbnd', hcnt', hnew'⟩ := hpost
      have hmA : DMono st stA := by
        refine ⟨by rw [hApar, List.length_set], rfl, fun x hx => hx, ?_, fun h => h⟩
        intro x hx
        have hxu : x ≠ u := by
          intro h
          rw [h, hvis] at hx
          exact Bool.noConfusion hx
        exact hAother x hxu
      have hm1 : DMono st st' := dmono_trans hmA hmA'
      have hps' : getE st'.1.parent source = getE st.1.parent source := by
        rw [hm1.2.2.2.1 source hsvis]
      have hflagA : stA.1.cycle_found = st.1.cycle_found := rfl
      -- the hypotheses of the recursive scan from st'
      have hsvis' : st'.2.getD source false = true := hm1.2.2.1 source hsvis
      have hpvis' : st'.2.getD (getE st'.1.parent source) false = true := by
        rw [hps']
        exact hm1.2.2.1 _ hpvis
      have hparu'src : getE st'.1.parent u = source := by
        rw [hparu', hAu]
      have hSC' : st'.1.cycle_found = false → ∀ w, w ≠ getE st'.1.parent source →
          (P ++ [u]).count w ≤ 1 ∧
            (w ∈ P ++ [u] → getE st'.1.parent w = source ∧ st'.2.getD w false = true) := by
        intro hflag' w hw
        have hflag : st.1.cycle_found = false := by
          by_contra hc
          have : st'.1.cycle_found = true :=
            hm1.2.2.2.2 (by revert hc; cases st.1.cycle_found <;> simp)
          rw [hflag'] at this
          exact Bool.noConfusion this
        rw [hps'] at hw
        obtain ⟨hcP, hmemP⟩ := hSC hflag w hw
        by_cases hwu : w = u
        · subst hwu
          have hnotP : w ∉ P := by
            intro hmem
            have := (hmemP hmem).2
            rw [this] at hvis
            exact Bool.noConfusion hvis
          constructor
          · rw [List.count_append, List.count_eq_zero.mpr hnotP, List.count_singleton]
            simp
          · intro _
            exact ⟨hparu'src, hvisu'⟩
        · constructor
          · rw [List.count_append, List.count_singleton]
            rw [if_neg (by simpa using Ne.symm hwu)]
            omega
          · intro hmem
            have hmem' : w ∈ P := by
              rcases List.mem_append.mp hmem with h | h
              · exact h
              · exact absurd (List.mem_singleton.mp h) hwu
            obtain ⟨hpw, hvw⟩ := hmemP hmem'
            refine ⟨?_, hm1.2.2.1 w hvw⟩
            rw [hm1.2.2.2.1 w hvw]
            exact hpw
      obtain ⟨hmR, hbndR, hcntR, hnewR, hSCR⟩ :=
        scanFold_spec hnb fuel source hsrc IH rest (P ++ [u]) st' out hrest happ'
          (by rw [hm1.2.1]; exact hvlen) (by rw [hm1.1]; exact hplen)
          hsvis' hpvis' hbnd' hSC'
      have hmFull : DMono st out := dmono_trans hm1 hmR
      refine ⟨hmFull, hbndR, ?_, ?_, ?_⟩
      · -- visit counting composes
        have h1 : st'.1.n_vert_reached + countTrue st.2
            = st.1.n_vert_reached + countTrue st'.2 := hcnt'
        omega
      · -- freshly visited vertices: either in the nested call or later
        intro x hx0 hx1
        by_cases hxst' : st'.2.getD x false = true
        · have hnewA := hnew' x hx0 hxst'
          have hgv : GoodVert g out x :=
            goodVert_dmono hnewA.2 hmR hxst'
          by_cases hxu : x = u
          · subst hxu
            have hdisc : Discovered g source st' x := by
              refine ⟨by rw [hparu'src]; exact Ne.symm hus, ?_, 1, ?_, ?_⟩
              · rw [hparu'src]
                exact humem
              · rw [Function.iterate_one]
                exact hparu'src
              · intro j hj
                interval_cases j
                · simpa using hxst'
                · rw [Function.iterate_one]
                  show st'.2.getD (getE st'.1.parent x) false = true
                  rw [hparu'src]
                  exact hsvis'
            exact ⟨discovered_dmono hdisc hmR hxst', hgv⟩
          · obtain ⟨hdne, hdedge, k, hk, hkvis⟩ := hnewA.1 hxu
            have hdisc : Discovered g source st' x := by
              refine ⟨hdne, hdedge, k + 1, ?_, ?_⟩
              · rw [Function.iterate_succ_apply', hk]
                exact hparu'src
              · intro j hj
                by_cases hjk : j ≤ k
                · exact hkvis j hjk
                · have hjeq : j = k + 1 := by omega
                  rw [hjeq, Function.iterate_succ_apply', hk]
                  show st'.2.getD (getE st'.1.parent u) false = true
                  rw [hparu'src]
                  exact hsvis'
            exact ⟨discovered_dmono hdisc hmR hxst', hgv⟩
        · have hx0' : st'.2.getD x false = false := by
            revert hxst'
            cases st'.2.getD x false <;> simp
          exact hnewR x hx0' hx1
      · -- the accumulated scan facts
        intro hflag w hw
        have := hSCR hflag w hw
        rwa [List.append_assoc, List.singleton_append] at this
    · -- the neighbor is already visited
      have hvisT : st.2.getD u false = true := by
        revert hvis
        cases st.2.getD u false <;> simp
      rw [DFS.scanStep, if_neg hvis] at hscan
      by_cases hpar : u ≠ getE st.1.parent source
      · -- cycle flagged; everything afterwards is vacuous
        rw [if_pos hpar] at hscan
        have hst' : st' = ({ st.1 with cycle_found := true }, st.2) := by
          exact (Option.some_inj.mp hscan).symm
        subst hst'
        have hm1 : DMono st ({ st.1 with cycle_found := true }, st.2) :=
          ⟨rfl, rfl, fun _ h => h, fun _ _ => rfl, fun _ => rfl⟩
        obtain ⟨hmR, hbndR, hcntR, hnewR, hSCR⟩ :=
          scanFold_spec hnb fuel source hsrc IH rest (P ++ [u])
            ({ st.1 with cycle_found := true }, st.2) out hrest happ'
            hvlen hplen hsvis hpvis hbnd
            (by intro hflag; exact absurd hflag (by simp))
        refine ⟨dmono_trans hm1 hmR, hbndR, hcntR, ?_, ?_⟩
        · intro x hx0 hx1
          exact hnewR x hx0 hx1
        · intro hflag w hw
          have : out.1.cycle_found = true := hmR.2.2.2.2 rfl
          rw [hflag] at this
          exact absurd this Bool.noConfusion
      · -- the scanned copy is the parent edge back up: a no-op
        rw [if_neg hpar] at hscan
        have hst' : st = st' := Option.some_inj.mp hscan
        subst hst'
        have hupar : u = getE st.1.parent source := by
          by_contra hc
          exact hpar hc
        have hSC' : st.1.cycle_found = false → ∀ w, w ≠ getE st.1.parent source →
            (P ++ [u]).count w ≤ 1 ∧
              (w ∈ P ++ [u] → getE st.1.parent w = source ∧ st.2.getD w false = true) := by
          intro hflag w hw
          obtain ⟨hcP, hmemP⟩ := hSC hflag w hw
          have hwu : w ≠ u := by
            rw [hupar]
            exact hw
          constructor
          · rw [List.count_append, List.count_singleton, if_neg (by simpa using Ne.symm hwu)]
            omega
          · intro hmem
            have hmem' : w ∈ P := by
              rcases List.mem_append.mp hmem with h | h
              · exact h
              · exact absurd (List.mem_singleton.mp h) hwu
            exact hmemP hmem'
        obtain ⟨hmR, hbndR, hcntR, hnewR, hSCR⟩ :=
          scanFold_spec hnb fuel source hsrc IH rest (P ++ [u]) st out hrest happ'
            hvlen hplen hsvis hpvis hbnd hSC'
        refine ⟨hmR, hbndR, hcntR, hnewR, ?_⟩
        intro hflag w hw
        have := hSCR hflag w hw
        rwa [List.append_assoc, List.singleton_append] at this

/-- `DFS::run` meets its postcondition: monotone state change, exact
visit counting, and parent-chain discovery of everything freshly
visited. -/
theorem runF_spec {g : GraphIndexed} {n : Nat}
    (hnb : ∀ p < n, ∀ u ∈ g.neighbors p, u < n) :
    ∀ (fuel source : Nat) (st out : DFS × List Bool),
      DFS.runF g fuel source st = some out → RunPre n source st →
      RunPost g n source st out
  | 0, source, st, out, hrun, _ => by
    rw [DFS.runF] at hrun
    exact absurd hrun (by simp)
  | fuel + 1, source, st, out, hrun, hpre => by
    obtain ⟨hvlen, hplen, hsrc, hsvis, hpar, hbnd⟩ := hpre
    have hsrclen : source < st.2.length := by rw [hvlen]; exact hsrc
    rw [runF_succ, setqB, if_pos hsrclen, Option.some_bind] at hrun
    set st₁ : DFS × List Bool :=
      ({ st.1 with n_vert_reached := st.1.n_vert_reached + 1 }, st.2.set source true)
      with hst₁
    have hpar₁ : st₁.1.parent = st.1.parent := rfl
    have hmono_set : ∀ x, st.2.getD x false = true →
        (st.2.set source true).getD x false = true := by
      intro x hx
      by_cases hxs : x = source
      · rw [hxs]
        exact getD_set_same st.2 false source true hsrclen
      · rw [getD_set_other st.2 false source true x hxs]
        exact hx
    have hsvis₁ : st₁.2.getD source false = true :=
      getD_set_same st.2 false source true hsrclen
    have hpvis₁ : st₁.2.getD (getE st₁.1.parent source) false = true := by
      rw [hpar₁]
      rcases hpar with h | h
      · exact hmono_set _ h
      · rw [h]
        exact hsvis₁
    obtain ⟨hm, hbnd', hcnt, hnew, hSCf⟩ :=
      scanFold_spec hnb fuel source hsrc (runF_spec hnb fuel)
        (g.neighbors source) [] st₁ out hrun (List.nil_append _)
        (by rw [hst₁]; simpa using hvlen) hplen hsvis₁ hpvis₁ hbnd
        (by
          intro _ u _
          refine ⟨by simp, ?_⟩
          intro hmem
          exact absurd hmem (List.not_mem_nil u))
    have hm0 : DMono st st₁ := by
      refine ⟨rfl, by rw [hst₁]; simp, hmono_set, fun _ _ => rfl, fun h => h⟩
    have hgv_source : GoodVert g out source := by
      intro hflag u hu hune
      obtain ⟨hcle, hmem⟩ := hSCf hflag u hune
      rw [List.nil_append] at hcle hmem
      obtain ⟨hp, hv⟩ := hmem hu
      refine ⟨hp, hv, ?_⟩
      have hpos : 0 < (g.neighbors source).count u := List.count_pos_iff.mpr hu
      omega
    refine ⟨dmono_trans hm0 hm, hm.2.2.1 source hsvis₁, ?_, hbnd', ?_, ?_⟩
    · rw [← hpar₁]
      exact hm.2.2.2.1 source hsvis₁
    · have h1 : countTrue st₁.2 = countTrue st.2 + 1 :=
        countTrue_set_true st.2 source hsrclen hsvis
      have h2 : st₁.1.n_vert_reached = st.1.n_vert_reached + 1 := rfl
      omega
    · intro x hx0 hx1
      by_cases hxs : x = source
      · subst hxs
        exact ⟨fun h => absurd rfl h, hgv_source⟩
      · have hx0' : st₁.2.getD x false = false := by
          show (st.2.set source true).getD x false = false
          rw [getD_set_other st.2 false source true x hxs]
          exact hx0
        obtain ⟨hd, hgv⟩ := hnew x hx0' hx1
        exact ⟨fun _ => hd, hgv⟩

/-! ### The built CSR graph, as needed for the tree construction -/

/-- `GraphIndexed::new` on in-range edges: sizes and exact neighbor
slices (the shared core behind the neighbor-multiset claim). -/
theorem graph_new_spec {n : Nat} {edges : List (Nat × Nat)}
    (hE : ∀ e ∈ edges, e.1 < n ∧ e.2 < n) :
    ∃ g : GraphIndexed, GraphIndexed.new n edges = some g ∧
      g.offset.length = n ∧
      g.neigh.length = 2 * edges.length ∧
      (∀ v < n, g.neighbors v = partners edges v) := by
  obtain ⟨holen, hoget⟩ := offset_spec n edges
  have h2E : ∑ u ∈ Finset.range n, cntHalf edges u = 2 * edges.length := sum_cntHalf hE
  obtain ⟨pn, hfold, hplen2, hslices⟩ :=
    scatter_spec n edges hE edges [] (prefixSums (GraphIndexed.countDeg n edges))
      (List.replicate (2 * edges.length) 0)
      (by simp) holen (by simp [h2E])
      (by
        intro v hv
        rw [hoget v hv]
        simp [cntHalf])
      (by
        intro v hv
        simp [cntHalf, partners])
  have hpn2len : pn.2.length = 2 * edges.length := by
    rw [hplen2]
    simp
  have hnew : GraphIndexed.new n edges =
      some ⟨prefixSums (GraphIndexed.countDeg n edges), pn.2⟩ := by
    rw [GraphIndexed.new, hfold]
    rfl
  refine ⟨⟨prefixSums (GraphIndexed.countDeg n edges), pn.2⟩, hnew, holen, hpn2len, ?_⟩
  intro v hv
  have hslice := hslices v hv
  rw [GraphIndexed.neighbors]
  simp only []
  by_cases hvlast : v < (prefixSums (GraphIndexed.countDeg n edges)).length - 1
  · rw [if_pos hvlast]
    have hv1 : v + 1 < n := by rw [holen] at hvlast; omega
    rw [hoget v hv, hoget (v + 1) hv1, Finset.sum_range_succ]
    have hdiff : (∑ u ∈ Finset.range v, cntHalf edges u) + cntHalf edges v
        - ∑ u ∈ Finset.range v, cntHalf edges u = cntHalf edges v := by omega
    rw [hdiff]
    exact hslice
  · rw [if_neg hvlast]
    have hn1 : n = v + 1 := by rw [holen] at hvlast; omega
    rw [hoget v hv]
    have hdlen : (pn.2.drop (∑ u ∈ Finset.range v, cntHalf edges u)).length
        = cntHalf edges v := by
      rw [List.length_drop, hpn2len, ← h2E, hn1, Finset.sum_range_succ]
      omega
    rw [← List.take_length (pn.2.drop (∑ u ∈ Finset.range v, cntHalf edges u)), hdlen]
    exact hslice

theorem partners_mem_lt {n : Nat} {edges : List (Nat × Nat)}
    (hE : ∀ e ∈ edges, e.1 < n ∧ e.2 < n) {v u : Nat} (hu : u ∈ partners edges v) :
    u < n := by
  have hpos : 0 < (partners edges v).count u := List.count_pos_iff.mpr hu
  rw [partners_count] at hpos
  rcases Nat.lt_or_ge 0 (edges.countP (fun e => e == (v, u))) with hp | hp
  · obtain ⟨e, he, hpe⟩ := List.countP_pos_iff.mp hp
    have : e = (v, u) := by simpa using hpe
    subst this
    exact (hE _ he).2
  · have hp2 : 0 < edges.countP (fun e => e == (u, v)) := by omega
    obtain ⟨e, he, hpe⟩ := List.countP_pos_iff.mp hp2
    have : e = (u, v) := by simpa using hpe
    subst this
    exact (hE _ he).1

theorem partners_count_symm (edges : List (Nat × Nat)) (v u : Nat) :
    (partners edges v).count u = (partners edges u).count v := by
  rw [partners_count, partners_count, Nat.add_comm]

theorem partners_mem_symm (edges : List (Nat × Nat)) (v u : Nat) :
    u ∈ partners edges v ↔ v ∈ partners edges u := by
  rw [← List.count_pos_iff, ← List.count_pos_iff, partners_count_symm]

/-- A queried pair is exactly one whose partner appears in the grouped
list. -/
theorem partners_mem_iff_batch (qs : List (Nat × Nat)) (v o : Nat) :
    o ∈ partners qs v ↔ pairInBatch qs v o := by
  rw [← List.count_pos_iff, partners_count, pairInBatch]
  constructor
  · intro hpos
    rcases Nat.lt_or_ge 0 (qs.countP (fun e => e == (v, o))) with hp | hp
    · obtain ⟨e, he, hpe⟩ := List.countP_pos_iff.mp hp
      have : e = (v, o) := by simpa using hpe
      subst this
      exact Or.inl he
    · have hp2 : 0 < qs.countP (fun e => e == (o, v)) := by omega
      obtain ⟨e, he, hpe⟩ := List.countP_pos_iff.mp hp2
      have : e = (o, v) := by simpa using hpe
      subst this
      exact Or.inr he
  · intro h
    rcases h with h | h
    · have : 0 < qs.countP (fun e => e == (v, o)) :=
        List.countP_pos_iff.mpr ⟨(v, o), h, by simp⟩
      omega
    · have : 0 < qs.countP (fun e => e == (o, v)) :=
        List.countP_pos_iff.mpr ⟨(o, v), h, by simp⟩
      omega

/-! ### The DFS of a successful tree construction -/

/-- A successful, flag-free, all-reaching DFS yields a spanning
parent structure: the source is the unique self-parent, chains reach
the source, discovery edges exist, and every non-parent neighbor copy
is an adopted child occurring once. -/
theorem dfs_new_spec {g : GraphIndexed} {n : Nat} (hgn : g.n_vert = n)
    (hnb : ∀ p < n, ∀ u ∈ g.neighbors p, u < n) {root₀ : Nat} {dfs : DFS}
    (hdfs : DFS.new g root₀ = some dfs)
    (hflag : dfs.cycle_found = false) (hreach : ¬ dfs.n_vert_reached < n) :
    root₀ < n ∧ dfs.parent.length = n ∧ getE dfs.parent root₀ = root₀ ∧
    (∀ x < n, getE dfs.parent x < n) ∧
    (∀ x < n, x ≠ root₀ →
      getE dfs.parent x ≠ x ∧ x ∈ g.neighbors (getE dfs.parent x) ∧
      ∃ k, (parv dfs.parent)^[k] x = root₀) ∧
    (∀ p < n, ∀ u ∈ g.neighbors p, u ≠ getE dfs.parent p →
      getE dfs.parent u = p ∧ (g.neighbors p).count u = 1) := by
  rw [DFS.new] at hdfs
  obtain ⟨out, hrun, hout1⟩ := Option.map_eq_some'.mp hdfs
  have hn_pos : 0 < n := by
    by_contra hn0
    have hnv0 : g.n_vert = 0 := by omega
    rw [hnv0, DFS.runF] at hrun
    exact absurd hrun (by simp)
  have hroot_lt : root₀ < n := by
    by_contra hge
    obtain ⟨fuel', hfe⟩ : ∃ fuel', g.n_vert = fuel' + 1 := ⟨n - 1, by omega⟩
    rw [hfe, runF_succ, setqB] at hrun
    rw [if_neg (by simp; omega)] at hrun
    exact absurd hrun (by simp)
  have hpre : RunPre n root₀
      (({ source := root₀, parent := List.range g.n_vert,
          cycle_found := false, n_vert_reached := 0 } : DFS),
        List.replicate g.n_vert false) := by
    refine ⟨by simp [hgn], by simp [hgn], hroot_lt, getD_rep _ _ _, Or.inr ?_, ?_⟩
    · show getE (List.range g.n_vert) _ = _
      rw [hgn]
      exact DjsuIndex.getE_range (by
        show root₀ < n
        exact hroot_lt)
    · intro x hx
      show getE (List.range g.n_vert) x < n
      rw [hgn, DjsuIndex.getE_range hx]
      exact hx
  have hpost := runF_spec hnb g.n_vert root₀ _ out hrun hpre
  obtain ⟨hm, hvsrc, hpsrc, hbnd, hcnt, hnew⟩ := hpost
  have hct0 : countTrue (List.replicate g.n_vert false) = 0 := by
    rw [countTrue, List.countP_eq_zero]
    intro a ha
    rw [List.eq_of_mem_replicate ha]
    simp
  have hctout : countTrue out.2 = out.1.n_vert_reached := by
    simp only [hct0] at hcnt
    omega
  have hlenout : out.2.length = n := by
    rw [hm.2.1]
    simp [hgn]
  have hreach' : ¬ out.1.n_vert_reached < n := by rw [← hout1] at hreach; exact hreach
  have hctn : countTrue out.2 = n := by
    have hle := countTrue_le out.2
    rw [hlenout] at hle
    omega
  have hall : ∀ x < n, out.2.getD x false = true := by
    intro x hx
    exact countTrue_all (by rw [hctn, hlenout]) x (by rw [hlenout]; exact hx)
  have hfresh : ∀ x < n,
      (x ≠ root₀ → Discovered g root₀ out x) ∧ GoodVert g out x := by
    intro x hx
    exact hnew x (getD_rep _ _ _) (hall x hx)
  have hflag' : out.1.cycle_found = false := by rw [hout1]; exact hflag
  subst hout1
  refine ⟨hroot_lt, by rw [hm.1]; simp [hgn], ?_, hbnd, ?_, ?_⟩
  · rw [hpsrc]
    show getE (List.range g.n_vert) root₀ = root₀
    rw [hgn]
    exact DjsuIndex.getE_range hroot_lt
  · intro x hx hxr
    obtain ⟨hd, _⟩ := hfresh x hx
    obtain ⟨h1, h2, k, hk, _⟩ := hd hxr
    exact ⟨h1, h2, k, hk⟩
  · intro p hp u hu hune
    obtain ⟨_, hgv⟩ := hfresh p hp
    obtain ⟨ha, _, hc⟩ := hgv hflag' u hu hune
    exact ⟨ha, hc⟩

/-! ### The children-CSR build of `TreeIndexed::new` -/

/-- The filtered-bump loop: position `i` accumulates the count of
accepted elements, everything else is untouched. -/
theorem bumpIf_fold_spec {P : Nat → Prop} [DecidablePred P] (i : Nat) :
    ∀ (L : List Nat) (off : List Nat),
      ((L.foldl (fun o u => if P u then bump o i else o) off).length = off.length) ∧
      (i < off.length →
        getE (L.foldl (fun o u => if P u then bump o i else o) off) i
          = getE off i + L.countP (fun u => decide (P u))) ∧
      (∀ j, j ≠ i →
        getE (L.foldl (fun o u => if P u then bump o i else o) off) j = getE off j)
  | [], off => by
    refine ⟨rfl, ?_, fun j _ => rfl⟩
    intro _
    show getE off i = getE off i + List.countP (fun u => decide (P u)) []
    rw [List.countP_nil]
    omega
  | u :: rest, off => by
    by_cases hPu : P u
    · have hstep : (u :: rest).foldl (fun o u => if P u then bump o i else o) off
          = rest.foldl (fun o u => if P u then bump o i else o) (bump off i) := by
        rw [List.foldl_cons, if_pos hPu]
      obtain ⟨ihlen, ihget, ihother⟩ := bumpIf_fold_spec (P := P) i rest (bump off i)
      rw [hstep]
      refine ⟨by rw [ihlen, bump_length], ?_, ?_⟩
      · intro hi
        rw [ihget (by rw [bump_length]; exact hi), getE_bump_self hi, List.countP_cons,
          if_pos (by simpa using hPu)]
        omega
      · intro j hj
        rw [ihother j hj, getE_bump_ne off hj]
    · have hstep : (u :: rest).foldl (fun o u => if P u then bump o i else o) off
          = rest.foldl (fun o u => if P u then bump o i else o) off := by
        rw [List.foldl_cons, if_neg hPu]
      obtain ⟨ihlen, ihget, ihother⟩ := bumpIf_fold_spec (P := P) i rest off
      rw [hstep]
      refine ⟨ihlen, ?_, ihother⟩
      intro hi
      rw [ihget hi, List.countP_cons, if_neg (by simpa using hPu)]
      omega

/-- The children-degree loop of `TreeIndexed::new`: position `j`
accumulates the filtered degree of vertex `j - 1`. -/
theorem childOff_fold_spec (g : GraphIndexed) (dfs : DFS) (n : Nat) :
    ∀ (k : Nat) (off : List Nat), off.length = n → k + 1 ≤ n →
      (((List.range k).foldl (fun off vert =>
          (g.neighbors vert).foldl (fun off neigh =>
            if dfs.parentOf vert ≠ some neigh then bump off (vert + 1) else off) off)
          off).length = n ∧
        ∀ j < n, getE ((List.range k).foldl (fun off vert =>
          (g.neighbors vert).foldl (fun off neigh =>
            if dfs.parentOf vert ≠ some neigh then bump off (vert + 1) else off) off)
          off) j = if 1 ≤ j ∧ j ≤ k then getE off j + fdeg g dfs (j - 1) else getE off j)
  | 0, off, hlen, _ => by
    refine ⟨hlen, ?_⟩
    intro j _
    rw [if_neg (by omega)]
    rfl
  | k + 1, off, hlen, hk1 => by
    obtain ⟨ihlen, ihget⟩ := childOff_fold_spec g dfs n k off hlen (by omega)
    rw [List.range_succ, List.foldl_append, List.foldl_cons, List.foldl_nil]
    set mid := (List.range k).foldl (fun off vert =>
      (g.neighbors vert).foldl (fun off neigh =>
        if dfs.parentOf vert ≠ some neigh then bump off (vert + 1) else off) off) off
      with hmid
    obtain ⟨blen, bget, bother⟩ :=
      bumpIf_fold_spec (P := fun neigh => dfs.parentOf k ≠ some neigh) (k + 1)
        (g.neighbors k) mid
    refine ⟨by rw [blen, ihlen], ?_⟩
    intro j hj
    by_cases hjk : j = k + 1
    · subst hjk
      rw [bget (by rw [ihlen]; exact hj), ihget _ hj, if_neg (by omega), if_pos (by omega)]
      rfl
    · rw [bother j hjk, ihget j hj]
      by_cases hcond : 1 ≤ j ∧ j ≤ k
      · rw [if_pos hcond, if_pos (by omega)]
      · rw [if_neg hcond, if_neg (by omega)]

/-- The children offset array: prefix sums of the filtered degrees. -/
theorem childOffset_spec (g : GraphIndexed) (dfs : DFS) {n : Nat} (hgn : g.n_vert = n)
    (hn : 0 < n) :
    (prefixSums ((List.range (g.n_vert - 1)).foldl (fun off vert =>
      (g.neighbors vert).foldl (fun off neigh =>
          if dfs.parentOf vert ≠ some neigh then bump off (vert + 1) else off) off)
      (List.replicate g.n_vert 0))).length = n ∧
    ∀ v < n, getE (prefixSums ((List.range (g.n_vert - 1)).foldl (fun off vert =>
      (g.neighbors vert).foldl (fun off neigh =>
          if dfs.parentOf vert ≠ some neigh then bump off (vert + 1) else off) off)
      (List.replicate g.n_vert 0))) v = ∑ u ∈ Finset.range v, fdeg g dfs u := by
  obtain ⟨cdlen, cdget⟩ :=
    childOff_fold_spec g dfs n (g.n_vert - 1) (List.replicate g.n_vert 0)
      (by simp [hgn]) (by omega)
  set cd := (List.range (g.n_vert - 1)).foldl (fun off vert =>
    (g.neighbors vert).foldl (fun off neigh =>
        if dfs.parentOf vert ≠ some neigh then bump off (vert + 1) else off) off)
    (List.replicate g.n_vert 0) with hcd
  have hrep : ∀ i, getE (List.replicate g.n_vert (0 : Nat)) i = 0 := by
    intro i
    rw [getE, List.getD_eq_getElem?_getD, List.getElem?_replicate]
    split <;> rfl
  have hcd0 : getE cd 0 = 0 := by
    rw [cdget 0 hn, if_neg (by omega), hrep]
  have hcdi : ∀ i, 0 < i → i < n → getE cd i = fdeg g dfs (i - 1) := by
    intro i h1 h2
    rw [cdget i h2, if_pos (by rw [hgn]; omega), hrep, Nat.zero_add]
  obtain ⟨hplen, hpget, _⟩ := prefix_fold_spec cd (cd.length - 2)
  have hps_eq : prefixSums cd =
      (List.range' 2 (cd.length - 2)).foldl
        (fun o i => o.set i (getE o i + getE o (i - 1))) cd := rfl
  rw [← hps_eq] at hplen hpget
  refine ⟨by rw [hplen, cdlen], ?_⟩
  intro v hv
  have hvlen : v < cd.length := by rw [cdlen]; exact hv
  have hvk : v < 2 + (cd.length - 2) := by rw [cdlen]; omega
  rw [hpget v hvlen hvk]
  by_cases hv0 : v = 0
  · rw [if_pos hv0, hv0, hcd0]
    simp
  · rw [if_neg hv0]
    have hIcc : ∀ j ∈ Finset.Icc 1 v, getE cd j = fdeg g dfs (j - 1) := by
      intro j hj
      simp only [Finset.mem_Icc] at hj
      exact hcdi j (by omega) (by omega)
    rw [Finset.sum_congr rfl hIcc, ← Nat.Ico_succ_right, Finset.sum_Ico_eq_sum_range]
    have hv1 : v + 1 - 1 = v := by omega
    rw [hv1]
    refine Finset.sum_congr rfl ?_
    intro u _
    congr 1
    omega

theorem getE_cons_zero (a : Nat) (l : List Nat) : getE (a :: l) 0 = a := rfl

theorem getE_cons_succ (a : Nat) (l : List Nat) (i : Nat) :
    getE (a :: l) (i + 1) = getE l i := rfl

/-- One vertex of the children scatter: consecutive checked writes from
the vertex's cursor, none out of bounds, cursor advanced by the filtered
count, other cursors untouched, the written window holding the filtered
list. -/
theorem childScatter_inner (g : GraphIndexed) (dfs : DFS) (v : Nat) :
    ∀ (L : List Nat) (ch pos : List Nat) (cp' : List Nat × List Nat),
      (L.foldlM (fun cp neigh =>
          if dfs.parentOf v ≠ some neigh then do
            let children ← setq cp.1 (getE cp.2 v) neigh
            pure (children, bump cp.2 v)
          else pure cp) ((ch, pos) : List Nat × List Nat)) = some cp' →
      v < pos.length →
      ((0 < L.countP (fun u => decide (dfs.parentOf v ≠ some u)) →
          getE pos v + L.countP (fun u => decide (dfs.parentOf v ≠ some u)) ≤ ch.length) ∧
        cp'.1.length = ch.length ∧
        cp'.2.length = pos.length ∧
        getE cp'.2 v = getE pos v + L.countP (fun u => decide (dfs.parentOf v ≠ some u)) ∧
        (∀ w, w ≠ v → getE cp'.2 w = getE pos w) ∧
        (∀ j, getE cp'.1 j =
          if getE pos v ≤ j ∧
              j < getE pos v + L.countP (fun u => decide (dfs.parentOf v ≠ some u))
          then getE (L.filter (fun u => decide (dfs.parentOf v ≠ some u))) (j - getE pos v)
          else getE ch j))
  | [], ch, pos, cp', hfold, hv => by
    have hcp : ((ch, pos) : List Nat × List Nat) = cp' := by simpa using hfold
    subst hcp
    refine ⟨by simp, rfl, rfl, by simp, fun _ _ => rfl, ?_⟩
    intro j
    rw [if_neg (by simp)]
  | u :: rest, ch, pos, cp', hfold, hv => by
    rw [List.foldlM_cons] at hfold
    by_cases hc : dfs.parentOf v ≠ some u
    · rw [if_pos hc] at hfold
      have hcntc : (u :: rest).countP (fun x => decide (dfs.parentOf v ≠ some x))
          = rest.countP (fun x => decide (dfs.parentOf v ≠ some x)) + 1 := by
        rw [List.countP_cons, if_pos (by simpa using hc)]
      have hfil : (u :: rest).filter (fun x => decide (dfs.parentOf v ≠ some x))
          = u :: rest.filter (fun x => decide (dfs.parentOf v ≠ some x)) := by
        rw [List.filter_cons, if_pos (by simpa using hc)]
      obtain ⟨ch₁, hsq, hfold'⟩ : ∃ ch₁, setq ch (getE pos v) u = some ch₁ ∧
          rest.foldlM (fun cp neigh =>
            if dfs.parentOf v ≠ some neigh then do
              let children ← setq cp.1 (getE cp.2 v) neigh
              pure (children, bump cp.2 v)
            else pure cp) ((ch₁, bump pos v) : List Nat × List Nat) = some cp' := by
        cases hs : setq ch (getE pos v) u with
        | none => rw [hs] at hfold; exact absurd hfold (by simp)
        | some c₁ => rw [hs] at hfold; exact ⟨c₁, rfl, by simpa using hfold⟩
      have hqlt : getE pos v < ch.length := by
        by_contra hge
        rw [setq, if_neg hge] at hsq
        exact Option.noConfusion hsq
      have hch₁ : ch₁ = ch.set (getE pos v) u := by
        rw [setq, if_pos hqlt] at hsq
        exact (Option.some_inj.mp hsq).symm
      have hblen : (bump pos v).length = pos.length := bump_length pos v
      obtain ⟨ihbound, ihclen, ihplen, ihcur, ihother, ihget⟩ :=
        childScatter_inner g dfs v rest ch₁ (bump pos v) cp' hfold'
          (by rw [hblen]; exact hv)
      have hbv : getE (bump pos v) v = getE pos v + 1 := getE_bump_self hv
      have hch₁len : ch₁.length = ch.length := by rw [hch₁, List.length_set]
      refine ⟨?_, by rw [ihclen, hch₁len], by rw [ihplen, hblen], ?_, ?_, ?_⟩
      · intro _
        rw [hcntc]
        rcases Nat.eq_zero_or_pos (rest.countP (fun x => decide (dfs.parentOf v ≠ some x)))
          with h0 | hpos
        · rw [h0]
          omega
        · have := ihbound hpos
          rw [hbv, hch₁len] at this
          omega
      · rw [ihcur, hbv, hcntc]
        omega
      · intro w hw
        rw [ihother w hw, getE_bump_ne pos hw]
      · intro j
        have := ihget j
        rw [hbv, hch₁] at this
        rw [this, hcntc, hfil]
        by_cases hj1 : getE pos v + 1 ≤ j ∧
            j < getE pos v + 1 + rest.countP (fun x => decide (dfs.parentOf v ≠ some x))
        · rw [if_pos hj1, if_pos (by omega)]
          have hsub : j - getE pos v = (j - (getE pos v + 1)) + 1 := by omega
          rw [hsub, getE_cons_succ]
        · rw [if_neg hj1]
          by_cases hjq : j = getE pos v
          · rw [if_pos (by omega), hjq, Nat.sub_self, getE_cons_zero]
            exact getE_set_self ch (getE pos v) u hqlt
          · rw [if_neg (by omega)]
            exact getE_set_ne ch (getE pos v) u j hjq
    · rw [if_neg hc] at hfold
      have hcntc : (u :: rest).countP (fun x => decide (dfs.parentOf v ≠ some x))
          = rest.countP (fun x => decide (dfs.parentOf v ≠ some x)) := by
        rw [List.countP_cons, if_neg (by simpa using hc)]
        omega
      have hfil : (u :: rest).filter (fun x => decide (dfs.parentOf v ≠ some x))
          = rest.filter (fun x => decide (dfs.parentOf v ≠ some x)) := by
        rw [List.filter_cons, if_neg (by simpa using hc)]
      obtain ⟨ihbound, ihclen, ihplen, ihcur, ihother, ihget⟩ :=
        childScatter_inner g dfs v rest ch pos cp' (by simpa using hfold) hv
      rw [hcntc, hfil]
      exact ⟨ihbound, ihclen, ihplen, ihcur, ihother, ihget⟩

/-- The full children scatter, vertices `k, k+1, …, n-1`: every
vertex's window gets its filtered neighbor list, writes stay inside the
array, and untouched cells keep their contents. -/
theorem childScatter_outer (g : GraphIndexed) (dfs : DFS) {n : Nat} :
    ∀ (m k : Nat), k + m = n →
    ∀ (ch pos : List Nat) (cp' : List Nat × List Nat),
      ((List.range' k m).foldlM (fun (cp : List Nat × List Nat) vert =>
          (g.neighbors vert).foldlM (fun cp neigh =>
            if dfs.parentOf vert ≠ some neigh then do
              let children ← setq cp.1 (getE cp.2 vert) neigh
              pure (children, bump cp.2 vert)
            else pure cp) cp) ((ch, pos) : List Nat × List Nat)) = some cp' →
      pos.length = n →
      (∀ w, k ≤ w → w < n → getE pos w = ∑ u ∈ Finset.range w, fdeg g dfs u) →
      (cp'.1.length = ch.length ∧
        (∀ v, k ≤ v → v < n → 0 < fdeg g dfs v →
          (∑ u ∈ Finset.range v, fdeg g dfs u) + fdeg g dfs v ≤ ch.length) ∧
        (∀ w, k ≤ w → w < n → ∀ j, (∑ u ∈ Finset.range w, fdeg g dfs u) ≤ j →
          j < (∑ u ∈ Finset.range w, fdeg g dfs u) + fdeg g dfs w →
          getE cp'.1 j = getE (fList g dfs w) (j - ∑ u ∈ Finset.range w, fdeg g dfs u)) ∧
        (∀ j, (∀ w, k ≤ w → w < n →
            ¬ ((∑ u ∈ Finset.range w, fdeg g dfs u) ≤ j ∧
              j < (∑ u ∈ Finset.range w, fdeg g dfs u) + fdeg g dfs w)) →
          getE cp'.1 j = getE ch j))
  | 0, k, hkm, ch, pos, cp', hfold, hplen, hpos => by
    have hcp : ((ch, pos) : List Nat × List Nat) = cp' := by simpa using hfold
    subst hcp
    refine ⟨rfl, ?_, ?_, fun j _ => rfl⟩
    · intro v hv1 hv2 _
      omega
    · intro w hw1 hw2
      omega
  | m + 1, k, hkm, ch, pos, cp', hfold, hplen, hpos => by
    have hrange : List.range' k (m + 1) = k :: List.range' (k + 1) m := rfl
    rw [hrange, List.foldlM_cons] at hfold
    have hklt : k < n := by omega
    obtain ⟨mid, hmid, hrest⟩ : ∃ mid, ((g.neighbors k).foldlM (fun cp neigh =>
        if dfs.parentOf k ≠ some neigh then do
          let children ← setq cp.1 (getE cp.2 k) neigh
          pure (children, bump cp.2 k)
        else pure cp) ((ch, pos) : List Nat × List Nat)) = some mid ∧
        ((List.range' (k + 1) m).foldlM (fun (cp : List Nat × List Nat) vert =>
          (g.neighbors vert).foldlM (fun cp neigh =>
            if dfs.parentOf vert ≠ some neigh then do
              let children ← setq cp.1 (getE cp.2 vert) neigh
              pure (children, bump cp.2 vert)
            else pure cp) cp) mid) = some cp' := by
      cases hm : ((g.neighbors k).foldlM (fun cp neigh =>
          if dfs.parentOf k ≠ some neigh then do
            let children ← setq cp.1 (getE cp.2 k) neigh
            pure (children, bump cp.2 k)
          else pure cp) ((ch, pos) : List Nat × List Nat)) with
      | none => rw [hm] at hfold; exact absurd hfold (by simp)
      | some s' => rw [hm] at hfold; exact ⟨s', rfl, by simpa using hfold⟩
    obtain ⟨ibound, iclen, iplen, icur, iother, iget⟩ :=
      childScatter_inner g dfs k (g.neighbors k) ch pos mid hmid (by rw [hplen]; exact hklt)
    have hfd : (g.neighbors k).countP (fun u => decide (dfs.parentOf k ≠ some u))
        = fdeg g dfs k := rfl
    have hfl : (g.neighbors k).filter (fun u => decide (dfs.parentOf k ≠ some u))
        = fList g dfs k := rfl
    have hposk : getE pos k = ∑ u ∈ Finset.range k, fdeg g dfs u :=
      hpos k (le_refl k) hklt
    have hmono : ∀ a b : Nat, a ≤ b →
        (∑ u ∈ Finset.range a, fdeg g dfs u) ≤ ∑ u ∈ Finset.range b, fdeg g dfs u :=
      fun a b hab => Finset.sum_le_sum_of_subset (Finset.range_subset.mpr hab)
    have hSsucc : (∑ u ∈ Finset.range (k + 1), fdeg g dfs u)
        = (∑ u ∈ Finset.range k, fdeg g dfs u) + fdeg g dfs k := Finset.sum_range_succ _ k
    have hmid_eta : mid = ((mid.1, mid.2) : List Nat × List Nat) := rfl
    rw [hmid_eta] at hrest
    obtain ⟨rclen, rbound, rslice, runtouched⟩ :=
      childScatter_outer g dfs (n := n) m (k + 1) (by omega) mid.1 mid.2 cp' hrest
        (by rw [iplen, hplen])
        (by
          intro w hw1 hw2
          rw [iother w (by omega)]
          exact hpos w (by omega) hw2)
    refine ⟨by rw [rclen, iclen], ?_, ?_, ?_⟩
    · intro v hv1 hv2 hvpos
      by_cases hvk : v = k
      · subst hvk
        have := ibound (by rw [hfd]; exact hvpos)
        rw [hfd, hposk] at this
        exact this
      · have := rbound v (by omega) hv2 hvpos
        rw [iclen] at this
        exact this
    · intro w hw1 hw2 j hj1 hj2
      by_cases hwk : w = k
      · rw [hwk] at hj1 hj2 ⊢
        have huntouched := runtouched j (by
          intro w' hw1' hw2'
          intro hcon
          have hle : (∑ u ∈ Finset.range (k + 1), fdeg g dfs u)
              ≤ ∑ u ∈ Finset.range w', fdeg g dfs u := hmono _ _ hw1'
          omega)
        rw [huntouched]
        have := iget j
        rw [hfd, hfl, hposk] at this
        rw [this, if_pos ⟨hj1, hj2⟩]
      · have := rslice w (by omega) hw2 j hj1 hj2
        exact this
    · intro j hj
      have huntouched := runtouched j (by
        intro w' hw1' hw2'
        exact hj w' (by omega) hw2')
      rw [huntouched]
      have := iget j
      rw [hfd, hposk] at this
      rw [this, if_neg (by
        intro hcon
        exact hj k (le_refl k) hklt ⟨hcon.1, hcon.2⟩)]

/-- Bounded partial sums: if every positive summand fits after its own
prefix, the whole sum fits. -/
theorem partial_sum_bound (f : Nat → Nat) (E : Nat) :
    ∀ n : Nat, (∀ v < n, 0 < f v → (∑ u ∈ Finset.range v, f u) + f v ≤ E) →
      (∑ u ∈ Finset.range n, f u) ≤ E
  | 0, _ => by simp
  | n + 1, h => by
    have ih := partial_sum_bound f E n (fun v hv => h v (by omega))
    rw [Finset.sum_range_succ]
    rcases Nat.eq_zero_or_pos (f n) with h0 | hpos
    · rw [h0]
      omega
    · exact h n (by omega) hpos

/-! ### Counting: parent edges partition the edge list -/

/-- Counting an exclusive disjunction splits. -/
theorem countP_or_disjoint {α : Type} (p q : α → Bool)
    (l : List α) (hpq : ∀ a ∈ l, ¬ (p a = true ∧ q a = true)) :
    l.countP (fun a => p a || q a) = l.countP p + l.countP q := by
  induction l with
  | nil => simp
  | cons a rest ih =>
    have hrest := ih (fun a ha => hpq a (List.mem_cons_of_mem _ ha))
    have ha := hpq a (List.mem_cons_self a rest)
    rw [List.countP_cons, List.countP_cons, List.countP_cons, hrest]
    cases hp : p a <;> cases hq : q a <;> simp [hp, hq] at ha ⊢ <;> omega

/-- Pairwise-exclusive predicates indexed by a finite set partition a
list's length together with the unmatched remainder. -/
theorem sum_countP_partition (S : Finset Nat) (p : Nat → (Nat × Nat) → Bool) :
    ∀ l : List (Nat × Nat),
      (∀ e ∈ l, ∀ v ∈ S, ∀ w ∈ S, p v e = true → p w e = true → v = w) →
      (∑ v ∈ S, l.countP (p v)) +
        l.countP (fun e => decide (∀ v ∈ S, p v e = false)) = l.length
  | [], _ => by simp
  | e :: rest, hexcl => by
    have hrest := sum_countP_partition S p rest
      (fun e' he' => hexcl e' (List.mem_cons_of_mem _ he'))
    have hsplit : ∀ v ∈ S, (e :: rest).countP (p v)
        = rest.countP (p v) + (if p v e = true then 1 else 0) := by
      intro v _
      rw [List.countP_cons]
    rw [Finset.sum_congr rfl hsplit, Finset.sum_add_distrib, List.countP_cons,
      List.length_cons]
    have hone : (∑ v ∈ S, if p v e = true then 1 else 0) +
        (if (decide (∀ v ∈ S, p v e = false)) = true then 1 else 0) = 1 := by
      by_cases hex : ∃ v ∈ S, p v e = true
      · obtain ⟨v₀, hv₀, hp₀⟩ := hex
        have hsum : (∑ v ∈ S, if p v e = true then 1 else 0) = 1 := by
          rw [Finset.sum_eq_single_of_mem v₀ hv₀]
          · rw [if_pos hp₀]
          · intro b hb hbne
            rw [if_neg]
            intro hpb
            exact hbne (hexcl e (List.mem_cons_self e rest) b hb v₀ hv₀ hpb hp₀)
        rw [hsum, if_neg]
        simp only [decide_eq_true_eq]
        intro hall
        rw [hall v₀ hv₀] at hp₀
        exact Bool.noConfusion hp₀
      · push_neg at hex
        have hall : ∀ v ∈ S, p v e = false := by
          intro v hv
          cases hpv : p v e
          · rfl
          · exact absurd hpv (hex v hv)
        have hsum : (∑ v ∈ S, if p v e = true then 1 else 0) = 0 := by
          refine Finset.sum_eq_zero ?_
          intro v hv
          rw [if_neg]
          rw [hall v hv]
          exact Bool.noConfusion
        rw [hsum, if_pos (by simpa using hall)]
    omega

/-- Under a rooted parent map, mutual parenthood is impossible. -/
theorem no_two_cycle {par : List Nat} {n r x : Nat}
    (hr : parv par r = r)
    (hreach : ∀ v < n, ∃ k, (parv par)^[k] v = r)
    (_hb : ∀ v < n, parv par v < n)
    (hx : x < n) (hpx : parv par x ≠ x) :
    parv par (parv par x) ≠ x := by
  intro h2
  set y := parv par x with hy
  have hyx : y ≠ x := hpx
  have hyr : y ≠ r := by
    intro hyr
    rw [hyr] at h2
    rw [hr] at h2
    exact hyx (hyr.trans h2)
  have hiter : ∀ m, (parv par)^[m] x = x ∨ (parv par)^[m] x = y := by
    intro m
    induction m with
    | zero => exact Or.inl rfl
    | succ m ih =>
      rw [Function.iterate_succ_apply']
      rcases ih with h | h
      · rw [h, ← hy]
        exact Or.inr rfl
      · rw [h, hy] at *
        exact Or.inl h2
  obtain ⟨k, hk⟩ := hreach x hx
  rcases hiter k with h | h
  · rw [hk] at h
    exact hpx (by rw [hy, ← h]; exact hr)
  · rw [hk] at h
    exact hyr h.symm

/-- Splitting a successful `TreeIndexed::new` into its stages. -/
theorem tree_new_decompose {g : GraphIndexed} {root₀ : Nat} {t : TreeIndexed}
    (ht : TreeIndexed.new g root₀ = some (Except.ok t)) :
    ∃ (dfs : DFS) (cp : List Nat × List Nat),
      DFS.new g root₀ = some dfs ∧
      dfs.cycle_found = false ∧ ¬ dfs.n_vert_reached < g.n_vert ∧
      ((List.range g.n_vert).foldlM (fun (cp : List Nat × List Nat) vert =>
          (g.neighbors vert).foldlM (fun cp neigh =>
            if dfs.parentOf vert ≠ some neigh then do
              let children ← setq cp.1 (getE cp.2 vert) neigh
              pure (children, bump cp.2 vert)
            else pure cp) cp)
        ((List.replicate g.n_edges 0,
          prefixSums ((List.range (g.n_vert - 1)).foldl (fun off vert =>
            (g.neighbors vert).foldl (fun off neigh =>
                if dfs.parentOf vert ≠ some neigh then bump off (vert + 1) else off) off)
            (List.replicate g.n_vert 0))) : List Nat × List Nat)) = some cp ∧
      t = { root := root₀,
            offset := prefixSums ((List.range (g.n_vert - 1)).foldl (fun off vert =>
              (g.neighbors vert).foldl (fun off neigh =>
                  if dfs.parentOf vert ≠ some neigh then bump off (vert + 1) else off) off)
              (List.replicate g.n_vert 0)),
            children := cp.1, parent := dfs.parent } := by
  cases hdfs : DFS.new g root₀ with
  | none =>
    rw [TreeIndexed.new, hdfs] at ht
    exact absurd ht (by simp)
  | some dfs =>
    rw [TreeIndexed.new, hdfs] at ht
    have hnc := not_or.mp (show ¬ (dfs.cycle_found = true ∨ dfs.n_vert_reached < g.n_vert) by
      intro hcond
      rw [Option.bind_eq_bind, Option.some_bind] at ht
      simp only [] at ht
      rw [if_pos hcond] at ht
      exact absurd ht (by simp [pure]))
    have hflag : dfs.cycle_found = false := by
      have h1 := hnc.1
      revert h1
      cases dfs.cycle_found <;> simp
    have hreach : ¬ dfs.n_vert_reached < g.n_vert := hnc.2
    rw [Option.bind_eq_bind, Option.some_bind] at ht
    simp only [] at ht
    rw [if_neg (not_or.mpr hnc)] at ht
    rw [Option.bind_eq_bind] at ht
    obtain ⟨cp, hfold, hcp⟩ := Option.bind_eq_some.mp ht
    have hteq' := Except.ok.inj (Option.some_inj.mp hcp)
    exact ⟨dfs, cp, rfl, hflag, hreach, hfold, hteq'.symm⟩

theorem fList_length (g : GraphIndexed) (dfs : DFS) (v : Nat) :
    (fList g dfs v).length = fdeg g dfs v :=
  (List.countP_eq_length_filter _ _).symm

/-- A successful `TreeIndexed::new` on a built graph yields a genuine
tree: the `TreeGood` shape invariant holds, with the requested root. -/
theorem tree_new_good {n : Nat} {edges : List (Nat × Nat)} {root₀ : Nat}
    {g : GraphIndexed} {t : TreeIndexed}
    (hE : ∀ e ∈ edges, e.1 < n ∧ e.2 < n)
    (hg : GraphIndexed.new n edges = some g)
    (ht : TreeIndexed.new g root₀ = some (Except.ok t)) :
    TreeGood t ∧ t.root = root₀ ∧ t.n_vert = n ∧ t.parent.length = n := by
  obtain ⟨g', hg', holen, hneighlen, hnbrs⟩ := graph_new_spec hE
  have hgg : g' = g := by
    rw [hg'] at hg
    exact Option.some_inj.mp hg
  rw [hgg] at holen hneighlen hnbrs
  have hgn : g.n_vert = n := holen
  have hnb : ∀ p < n, ∀ u ∈ g.neighbors p, u < n := by
    intro p hp u hu
    rw [hnbrs p hp] at hu
    exact partners_mem_lt hE hu
  obtain ⟨dfs, cp, hdfs, hflag, hreach0, hfold, hteq⟩ := tree_new_decompose ht
  obtain ⟨hroot_lt, hplen, hproot, hbnd, hFF, hGV⟩ :=
    dfs_new_spec hgn hnb hdfs hflag (by rwa [hgn] at hreach0)
  have hn : 0 < n := by omega
  obtain ⟨hOlen, hOget⟩ := childOffset_spec g dfs hgn hn
  have hE' : g.n_edges = edges.length := by
    show g.neigh.length / 2 = edges.length
    rw [hneighlen]
    omega
  have hrange01 : List.range g.n_vert = List.range' 0 n := by
    rw [hgn, List.range_eq_range']
  rw [hrange01] at hfold
  have hreplen : (List.replicate g.n_edges (0 : Nat)).length = g.n_edges := by simp
  obtain ⟨hclen, hbound, hslice, huntouched⟩ :=
    childScatter_outer g dfs (n := n) n 0 (by omega) (List.replicate g.n_edges 0) _ cp
      hfold hOlen (fun w _ hw => hOget w hw)
  have hsumle : (∑ u ∈ Finset.range n, fdeg g dfs u) ≤ edges.length := by
    rw [← hE']
    refine partial_sum_bound (fdeg g dfs) g.n_edges n ?_
    intro v hv hp
    have := hbound v (by omega) hv hp
    rwa [hreplen] at this
  have hreachall : ∀ v < n, ∃ k, (parv dfs.parent)^[k] v = root₀ := by
    intro v hv
    by_cases hvr : v = root₀
    · exact ⟨0, by simpa using hvr⟩
    · exact (hFF v hv hvr).2.2
  have hno2 : ∀ x < n, x ≠ root₀ → parv dfs.parent (parv dfs.parent x) ≠ x := by
    intro x hx hxr
    exact no_two_cycle (n := n) hproot hreachall hbnd hx (hFF x hx hxr).1
  have hocc1 : ∀ x < n, x ≠ root₀ →
      (g.neighbors (getE dfs.parent x)).count x = 1 ∧
      (g.neighbors x).count (getE dfs.parent x) = 1 := by
    intro x hx hxr
    obtain ⟨hne, hmem, _⟩ := hFF x hx hxr
    have hp_lt := hbnd x hx
    have hxne : x ≠ getE dfs.parent (getE dfs.parent x) :=
      fun h => hno2 x hx hxr h.symm
    obtain ⟨_, hcnt1⟩ := hGV (getE dfs.parent x) hp_lt x hmem hxne
    have hsymm : (g.neighbors x).count (getE dfs.parent x)
        = (g.neighbors (getE dfs.parent x)).count x := by
      rw [hnbrs x hx, hnbrs _ hp_lt, partners_count_symm]
    exact ⟨hcnt1, by rw [hsymm]; exact hcnt1⟩
  have hpov : ∀ v < n, v ≠ root₀ → dfs.parentOf v = some (getE dfs.parent v) := by
    intro v hv hvr
    rw [DFS.parentOf, if_neg (hFF v hv hvr).1]
  have hpor : dfs.parentOf root₀ = none := by
    rw [DFS.parentOf, if_pos hproot]
  have hfdeg_nr : ∀ v < n, v ≠ root₀ → fdeg g dfs v + 1 = (g.neighbors v).length := by
    intro v hv hvr
    have hL := List.length_eq_countP_add_countP
      (fun u => decide (dfs.parentOf v ≠ some u)) (g.neighbors v)
    have hsec : (g.neighbors v).countP
        (fun a => decide ¬((fun u => decide (dfs.parentOf v ≠ some u)) a = true))
        = (g.neighbors v).count (getE dfs.parent v) := by
      rw [List.count_eq_countP]
      refine List.countP_congr ?_
      intro a _
      rw [hpov v hv hvr]
      by_cases h : a = getE dfs.parent v
      · simp [h]
      · simp [h, Ne.symm h]
    rw [hsec, (hocc1 v hv hvr).2] at hL
    have : fdeg g dfs v = (g.neighbors v).countP
        (fun u => decide (dfs.parentOf v ≠ some u)) := rfl
    omega
  have hfdeg_r : fdeg g dfs root₀ = (g.neighbors root₀).length := by
    show (g.neighbors root₀).countP (fun u => decide (dfs.parentOf root₀ ≠ some u)) = _
    rw [hpor]
    simp
  have hsumdeg : ∑ v ∈ Finset.range n, (g.neighbors v).length = 2 * edges.length := by
    rw [Finset.sum_congr rfl (fun v hv => by
      rw [hnbrs v (Finset.mem_range.mp hv), partners_length])]
    exact sum_cntHalf hE
  have hrinS : root₀ ∈ Finset.range n := Finset.mem_range.mpr hroot_lt
  have hcardS : ((Finset.range n).erase root₀).card = n - 1 := by
    rw [Finset.card_erase_of_mem hrinS, Finset.card_range]
  have hsum_split : (∑ v ∈ Finset.range n, fdeg g dfs v) + (n - 1) = 2 * edges.length := by
    have hera : (∑ v ∈ (Finset.range n).erase root₀, fdeg g dfs v) + fdeg g dfs root₀
        = ∑ v ∈ Finset.range n, fdeg g dfs v :=
      Finset.sum_erase_add (Finset.range n) (fdeg g dfs) hrinS
    have herad : (∑ v ∈ (Finset.range n).erase root₀, (g.neighbors v).length)
        + (g.neighbors root₀).length = ∑ v ∈ Finset.range n, (g.neighbors v).length :=
      Finset.sum_erase_add (Finset.range n) _ hrinS
    have hplus1 : ∑ v ∈ (Finset.range n).erase root₀, (fdeg g dfs v + 1)
        = (∑ v ∈ (Finset.range n).erase root₀, fdeg g dfs v)
          + ((Finset.range n).erase root₀).card := by
      rw [Finset.sum_add_distrib, Finset.sum_const, smul_eq_mul, mul_one]
    have hdegs : ∑ v ∈ (Finset.range n).erase root₀, (fdeg g dfs v + 1)
        = ∑ v ∈ (Finset.range n).erase root₀, (g.neighbors v).length := by
      refine Finset.sum_congr rfl ?_
      intro v hv
      obtain ⟨hvne, hvr⟩ := Finset.mem_erase.mp hv
      exact hfdeg_nr v (Finset.mem_range.mp hvr) hvne
    rw [hcardS] at hplus1
    omega
  -- the parent-pair partition of the edge list
  have hexcl : ∀ e ∈ edges, ∀ v ∈ (Finset.range n).erase root₀,
      ∀ w ∈ (Finset.range n).erase root₀,
      ((e == (v, getE dfs.parent v)) || (e == (getE dfs.parent v, v))) = true →
      ((e == (w, getE dfs.parent w)) || (e == (getE dfs.parent w, w))) = true →
      v = w := by
    intro e _ v hv w hw hpv hpw
    obtain ⟨hvne, hvr⟩ := Finset.mem_erase.mp hv
    obtain ⟨hwne, hwr⟩ := Finset.mem_erase.mp hw
    have hvlt := Finset.mem_range.mp hvr
    have hwlt := Finset.mem_range.mp hwr
    rcases Bool.or_eq_true_iff.mp hpv with h1 | h1
    · rcases Bool.or_eq_true_iff.mp hpw with h2 | h2
      · have hc := (beq_iff_eq.mp h1).symm.trans (beq_iff_eq.mp h2)
        exact congrArg Prod.fst hc
      · have hc := (beq_iff_eq.mp h1).symm.trans (beq_iff_eq.mp h2)
        injection hc with hc1 hc2
        exfalso
        apply hno2 v hvlt hvne
        show getE dfs.parent (getE dfs.parent v) = v
        rw [hc2]
        exact hc1.symm
    · rcases Bool.or_eq_true_iff.mp hpw with h2 | h2
      · have hc := (beq_iff_eq.mp h1).symm.trans (beq_iff_eq.mp h2)
        injection hc with hc1 hc2
        exfalso
        apply hno2 v hvlt hvne
        show getE dfs.parent (getE dfs.parent v) = v
        rw [hc1]
        exact hc2.symm
      · have hc := (beq_iff_eq.mp h1).symm.trans (beq_iff_eq.mp h2)
        exact congrArg Prod.snd hc
  have hpcount : ∀ v ∈ (Finset.range n).erase root₀,
      edges.countP (fun e =>
        (e == (v, getE dfs.parent v)) || (e == (getE dfs.parent v, v))) = 1 := by
    intro v hv
    obtain ⟨hvne, hvr⟩ := Finset.mem_erase.mp hv
    have hvlt := Finset.mem_range.mp hvr
    have hdisj : ∀ e ∈ edges, ¬ ((e == (v, getE dfs.parent v)) = true ∧
        (e == (getE dfs.parent v, v)) = true) := by
      rintro e _ ⟨h1, h2⟩
      have hc := (beq_iff_eq.mp h1).symm.trans (beq_iff_eq.mp h2)
      injection hc with hc1 hc2
      exact (hFF v hvlt hvne).1 hc1.symm
    rw [countP_or_disjoint _ _ edges hdisj]
    have hpc := partners_count edges v (getE dfs.parent v)
    rw [← hnbrs v hvlt] at hpc
    rw [← hpc]
    exact (hocc1 v hvlt hvne).2
  have hpart := sum_countP_partition ((Finset.range n).erase root₀)
    (fun v e => (e == (v, getE dfs.parent v)) || (e == (getE dfs.parent v, v)))
    edges hexcl
  have hsumS : (∑ v ∈ (Finset.range n).erase root₀, edges.countP (fun e =>
      (e == (v, getE dfs.parent v)) || (e == (getE dfs.parent v, v)))) = n - 1 := by
    rw [Finset.sum_congr rfl hpcount, Finset.sum_const, smul_eq_mul, mul_one, hcardS]
  simp only [] at hpart
  rw [hsumS] at hpart
  have hkey : edges.length = n - 1 ∧
      edges.countP (fun e => decide (∀ v ∈ (Finset.range n).erase root₀,
        ((e == (v, getE dfs.parent v)) || (e == (getE dfs.parent v, v))) = false)) = 0 ∧
      (∑ u ∈ Finset.range n, fdeg g dfs u) = edges.length := by
    refine ⟨by omega, by omega, by omega⟩
  have hnoself : edges.countP (fun e => e == (root₀, root₀)) = 0 := by
    rw [List.countP_eq_zero]
    intro e he hbe
    have he_eq : e = (root₀, root₀) := beq_iff_eq.mp hbe
    have hnm := List.countP_eq_zero.mp hkey.2.1 e he
    rw [decide_eq_true_eq] at hnm
    push_neg at hnm
    obtain ⟨v, hvS, hpv⟩ := hnm
    obtain ⟨hvne, hvr⟩ := Finset.mem_erase.mp hvS
    have hpv' : ((e == (v, getE dfs.parent v)) || (e == (getE dfs.parent v, v))) = true := by
      cases hb : ((e == (v, getE dfs.parent v)) || (e == (getE dfs.parent v, v)))
      · exact absurd hb hpv
      · rfl
    rcases Bool.or_eq_true_iff.mp hpv' with h1 | h1
    · have hc := (beq_iff_eq.mp h1).symm.trans he_eq
      injection hc with hc1 hc2
      exact hvne hc1
    · have hc := (beq_iff_eq.mp h1).symm.trans he_eq
      injection hc with hc1 hc2
      exact hvne hc2
  have hcntrootself : (g.neighbors root₀).count root₀ = 0 := by
    rw [hnbrs root₀ hroot_lt, partners_count, hnoself]
  -- the tree components
  have hto : t.offset = prefixSums ((List.range (g.n_vert - 1)).foldl (fun off vert =>
      (g.neighbors vert).foldl (fun off neigh =>
          if dfs.parentOf vert ≠ some neigh then bump off (vert + 1) else off) off)
      (List.replicate g.n_vert 0)) := by rw [hteq]
  have htc : t.children = cp.1 := by rw [hteq]
  have htp : t.parent = dfs.parent := by rw [hteq]
  have htr : t.root = root₀ := by rw [hteq]
  have hnv : t.n_vert = n := by
    show t.offset.length = n
    rw [hto]
    exact hOlen
  have hplen_t : t.parent.length = n := by rw [htp]; exact hplen
  have hSbound : ∀ v < n, (∑ u ∈ Finset.range v, fdeg g dfs u) + fdeg g dfs v
      ≤ edges.length := by
    intro v hv
    have h1 : (∑ u ∈ Finset.range v, fdeg g dfs u) + fdeg g dfs v
        = ∑ u ∈ Finset.range (v + 1), fdeg g dfs u := (Finset.sum_range_succ _ v).symm
    have h2 : (∑ u ∈ Finset.range (v + 1), fdeg g dfs u)
        ≤ ∑ u ∈ Finset.range n, fdeg g dfs u :=
      Finset.sum_le_sum_of_subset (Finset.range_subset.mpr (by omega))
    rw [hkey.2.2] at h2
    omega
  have hclen' : cp.1.length = edges.length := by rw [hclen, hreplen, hE']
  -- each vertex's children slice is its filtered neighbor list
  have hchld : ∀ v < n, t.childrenOf v = fList g dfs v := by
    intro v hv
    have hflen : (fList g dfs v).length = fdeg g dfs v := fList_length g dfs v
    have hwindow : (cp.1.drop (∑ u ∈ Finset.range v, fdeg g dfs u)).take (fdeg g dfs v)
        = fList g dfs v := by
      apply List.ext_getElem?
      intro i
      rw [List.getElem?_take]
      by_cases hik : i < fdeg g dfs v
      · rw [if_pos hik, List.getElem?_drop]
        have hjlt : (∑ u ∈ Finset.range v, fdeg g dfs u) + i < cp.1.length := by
          rw [hclen']
          have := hSbound v hv
          omega
        rw [List.getElem?_eq_getElem hjlt]
        have hval : cp.1[(∑ u ∈ Finset.range v, fdeg g dfs u) + i] = getE (fList g dfs v) i := by
          rw [← getE_eq_getElem hjlt]
          have := hslice v (by omega) hv ((∑ u ∈ Finset.range v, fdeg g dfs u) + i)
            (by omega) (by omega)
          rw [this]
          congr 1
          omega
        rw [hval, getE_eq_getElem (by rw [hflen]; exact hik),
          List.getElem?_eq_getElem (by rw [hflen]; exact hik)]
      · rw [if_neg hik, List.getElem?_eq_none (by rw [hflen]; omega)]
    rw [TreeIndexed.childrenOf, hto, htc, hOlen]
    by_cases hvlast : v < n - 1
    · rw [if_pos hvlast, hOget v hv, hOget (v + 1) (by omega), Finset.sum_range_succ]
      have hdiff : (∑ u ∈ Finset.range v, fdeg g dfs u) + fdeg g dfs v
          - ∑ u ∈ Finset.range v, fdeg g dfs u = fdeg g dfs v := by omega
      rw [hdiff]
      exact hwindow
    · rw [if_neg hvlast, hOget v hv]
      have hveq : n = v + 1 := by omega
      have hdlen : (cp.1.drop (∑ u ∈ Finset.range v, fdeg g dfs u)).length
          = fdeg g dfs v := by
        rw [List.length_drop, hclen']
        have hsn : (∑ u ∈ Finset.range v, fdeg g dfs u) + fdeg g dfs v = edges.length := by
          rw [← hkey.2.2, hveq, Finset.sum_range_succ]
        omega
      rw [← List.take_length (cp.1.drop (∑ u ∈ Finset.range v, fdeg g dfs u)), hdlen]
      exact hwindow
  -- the children lists hold exactly the tree children, once each
  have hchcnt : ∀ v < n, ∀ u, (t.childrenOf v).count u =
      if u < n ∧ u ≠ root₀ ∧ parv dfs.parent u = v then 1 else 0 := by
    intro v hv u
    show (t.childrenOf v).count u = if u < n ∧ u ≠ root₀ ∧ getE dfs.parent u = v then 1 else 0
    rw [hchld v hv]
    by_cases hvr : v = root₀
    · subst hvr
      have hfr : fList g dfs v = g.neighbors v := by
        refine List.filter_eq_self.mpr ?_
        intro a _
        rw [hpor]
        simp
      rw [hfr]
      by_cases hur : u = v
      · subst hur
        rw [if_neg (by rintro ⟨_, h2, _⟩; exact h2 rfl)]
        exact hcntrootself
      · by_cases hcond : u < n ∧ getE dfs.parent u = v
        · rw [if_pos ⟨hcond.1, hur, hcond.2⟩]
          have hmem : u ∈ g.neighbors v := by
            have := (hFF u hcond.1 hur).2.1
            rwa [hcond.2] at this
          have hune : u ≠ getE dfs.parent v := by
            rw [hproot]
            exact hur
          exact (hGV v hroot_lt u hmem hune).2
        · rw [if_neg (by rintro ⟨h1, _, h3⟩; exact hcond ⟨h1, h3⟩)]
          rw [List.count_eq_zero]
          intro hmem
          have hult : u < n := hnb v hroot_lt u hmem
          have hune : u ≠ getE dfs.parent v := by
            rw [hproot]
            exact hur
          have := (hGV v hroot_lt u hmem hune).1
          exact hcond ⟨hult, this⟩
    · by_cases hupv : u = getE dfs.parent v
      · rw [if_neg (by
          rintro ⟨_, _, h3⟩
          refine hno2 v hv hvr ?_
          show getE dfs.parent (getE dfs.parent v) = v
          rw [← hupv]
          exact h3)]
        rw [List.count_eq_zero]
        intro hmem
        have := (List.mem_filter.mp hmem).2
        rw [hpov v hv hvr] at this
        rw [decide_eq_true_eq] at this
        exact this (by rw [hupv])
      · have hpredu : (fun a => decide (dfs.parentOf v ≠ some a)) u = true := by
          rw [hpov v hv hvr]
          rw [decide_eq_true_eq]
          intro h
          exact hupv (Option.some_inj.mp h).symm
        have hcf : (fList g dfs v).count u = (g.neighbors v).count u :=
          List.count_filter hpredu
        rw [hcf]
        by_cases hcond : u < n ∧ u ≠ root₀ ∧ getE dfs.parent u = v
        · rw [if_pos hcond]
          have hmem : u ∈ g.neighbors v := by
            have := (hFF u hcond.1 hcond.2.1).2.1
            rwa [hcond.2.2] at this
          exact (hGV v hv u hmem hupv).2
        · rw [if_neg hcond]
          rw [List.count_eq_zero]
          intro hmem
          have hult : u < n := hnb v hv u hmem
          have hpu := (hGV v hv u hmem hupv).1
          have hur : u ≠ root₀ := by
            intro hur
            rw [hur, hproot] at hpu
            exact hvr hpu.symm
          exact hcond ⟨hult, hur, hpu⟩
  refine ⟨⟨?_, ?_, ?_, ?_, ?_, ?_, ?_, ?_⟩, htr, hnv, hplen_t⟩
  · rw [hnv]
    exact hn
  · rw [hnv, htr]
    exact hroot_lt
  · rw [hnv]
    exact hplen_t
  · rw [htp, htr]
    exact hproot
  · intro v hv
    rw [hnv] at hv
    rw [hnv, htp]
    exact hbnd v hv
  · intro v hv hvr
    rw [hnv] at hv
    rw [htr] at hvr
    rw [htp]
    exact (hFF v hv hvr).1
  · intro v hv
    rw [hnv] at hv
    rw [htp, htr]
    exact hreachall v hv
  · intro v hv u
    rw [hnv] at hv
    rw [hnv, htr, htp]
    exact hchcnt v hv u

/-! ### Ancestor chains in a good tree -/

namespace TreeIndexed

theorem anc_refl (t : TreeIndexed) (x : Nat) : t.Anc x x := ⟨0, rfl⟩

theorem anc_trans {t : TreeIndexed} {a b c : Nat} (h1 : t.Anc a b) (h2 : t.Anc b c) :
    t.Anc a c := by
  obtain ⟨i, hi⟩ := h1
  obtain ⟨j, hj⟩ := h2
  exact ⟨i + j, by rw [Function.iterate_add_apply, hj, hi]⟩

theorem anc_parent {t : TreeIndexed} {c v : Nat} (h : parv t.parent c = v) : t.Anc v c :=
  ⟨1, by rw [Function.iterate_one, h]⟩

end TreeIndexed

theorem TreeGood.parent_bound {t : TreeIndexed} (hg : TreeGood t) :
    ∀ j < t.parent.length, parv t.parent j < t.parent.length := by
  rw [hg.plen]
  exact hg.pbound

theorem TreeGood.anc_lt {t : TreeIndexed} (hg : TreeGood t) {a x : Nat}
    (hx : x < t.n_vert) (h : t.Anc a x) : a < t.n_vert := by
  obtain ⟨k, hk⟩ := h
  rw [← hk, ← hg.plen]
  exact iterate_lt hg.parent_bound (by rw [hg.plen]; exact hx) k

theorem TreeGood.anc_of_root {t : TreeIndexed} (hg : TreeGood t) {b : Nat}
    (h : t.Anc b t.root) : b = t.root := by
  obtain ⟨k, hk⟩ := h
  rw [isFix_iterate hg.proot k] at hk
  exact hk.symm

theorem TreeGood.anc_antisymm {t : TreeIndexed} (hg : TreeGood t) {a b : Nat}
    (hb : b < t.n_vert) (h1 : t.Anc a b) (h2 : t.Anc b a) : a = b := by
  obtain ⟨i, hi⟩ := h1
  obtain ⟨j, hj⟩ := h2
  rcases Nat.eq_zero_or_pos i with hi0 | hipos
  · rw [hi0] at hi
    exact hi.symm ▸ rfl
  · have ha_lt : a < t.n_vert := hg.anc_lt hb ⟨i, hi⟩
    have hcyc : (parv t.parent)^[i + j] a = a := by
      rw [Function.iterate_add_apply, hj, hi]
    obtain ⟨m, hm⟩ := hg.preach a ha_lt
    have hperiod : ∀ q, (parv t.parent)^[(i + j) * q] a = a := by
      intro q
      induction q with
      | zero => rfl
      | succ q ih =>
        have harith : (i + j) * (q + 1) = (i + j) * q + (i + j) := by ring
        rw [harith, Function.iterate_add_apply, hcyc, ih]
    have hbig : m ≤ (i + j) * (m + 1) := by nlinarith
    have haroot : a = t.root := by
      have h1' : (parv t.parent)^[(i + j) * (m + 1)] a = a := hperiod (m + 1)
      have h2' : (parv t.parent)^[(i + j) * (m + 1)] a = t.root := by
        have := Function.iterate_add_apply (parv t.parent) ((i + j) * (m + 1) - m) m a
        rw [Nat.sub_add_cancel hbig] at this
        rw [this, hm, isFix_iterate hg.proot]
      rw [← h1', h2']
    rw [haroot] at hj ⊢
    rw [isFix_iterate hg.proot j] at hj
    exact hj

theorem TreeGood.anc_comparable {t : TreeIndexed} {a b x : Nat}
    (h1 : t.Anc a x) (h2 : t.Anc b x) : t.Anc a b ∨ t.Anc b a := by
  obtain ⟨i, hi⟩ := h1
  obtain ⟨j, hj⟩ := h2
  rcases le_total i j with hle | hle
  · refine Or.inr ⟨j - i, ?_⟩
    have := Function.iterate_add_apply (parv t.parent) (j - i) i x
    rw [Nat.sub_add_cancel hle] at this
    rw [← hi, ← this, hj]
  · refine Or.inl ⟨i - j, ?_⟩
    have := Function.iterate_add_apply (parv t.parent) (i - j) j x
    rw [Nat.sub_add_cancel hle] at this
    rw [← hj, ← this, hi]

theorem TreeGood.anc_step {t : TreeIndexed} {b x : Nat} (h : t.Anc b x) :
    b = x ∨ t.Anc b (parv t.parent x) := by
  obtain ⟨k, hk⟩ := h
  cases k with
  | zero => exact Or.inl hk.symm
  | succ k => exact Or.inr ⟨k, by rw [← Function.iterate_succ_apply]; exact hk⟩

theorem TreeGood.child_of_anc {t : TreeIndexed} (hg : TreeGood t) {v u : Nat}
    (hu : u < t.n_vert) (hvu : t.Anc v u) (hne : u ≠ v) :
    ∃ c, IsChild t c v ∧ t.Anc c u := by
  classical
  have hex : ∃ k, (parv t.parent)^[k] u = v := hvu
  obtain ⟨K, hK, hKmin⟩ : ∃ K, (parv t.parent)^[K] u = v ∧
      ∀ j < K, (parv t.parent)^[j] u ≠ v :=
    ⟨Nat.find hex, Nat.find_spec hex, fun j hj => Nat.find_min hex hj⟩
  have hK0 : K ≠ 0 := by
    intro h0
    rw [h0] at hK
    exact hne hK
  obtain ⟨K', rfl⟩ := Nat.exists_eq_succ_of_ne_zero hK0
  set c := (parv t.parent)^[K'] u with hcdef
  have hpc : parv t.parent c = v := by
    rw [hcdef]
    have hsucc := Function.iterate_succ_apply' (parv t.parent) K' u
    rw [← hsucc]
    exact hK
  have hc_lt : c < t.n_vert := hg.anc_lt hu ⟨K', rfl⟩
  have hcv : c ≠ v := hKmin K' (by omega)
  have hcr : c ≠ t.root := by
    intro hcr
    rw [hcr] at hpc
    rw [hg.proot] at hpc
    exact hcv (hcr.trans hpc)
  exact ⟨c, ⟨hc_lt, hcr, hpc⟩, ⟨K', rfl⟩⟩

theorem TreeGood.child_ne_parent {t : TreeIndexed} (hg : TreeGood t) {c v : Nat}
    (hc : IsChild t c v) : c ≠ v := by
  intro hcv
  have := hc.2.2
  rw [hcv] at this
  exact hg.pne v (hcv ▸ hc.1) (hcv ▸ hc.2.1) this

theorem TreeGood.subtree_disjoint {t : TreeIndexed} (hg : TreeGood t) {v c c' u : Nat}
    (hc : IsChild t c v) (hc' : IsChild t c' v) (hne : c ≠ c')
    (h1 : t.Anc c u) (h2 : t.Anc c' u) : False := by
  have hvc : t.Anc v c := TreeIndexed.anc_parent hc.2.2
  have hvc' : t.Anc v c' := TreeIndexed.anc_parent hc'.2.2
  have hv_lt : v < t.n_vert := by
    have := hg.pbound c hc.1
    rwa [hc.2.2] at this
  rcases TreeGood.anc_comparable h1 h2 with hcc | hcc
  · rcases TreeGood.anc_step hcc with heq | hanc
    · exact hne heq
    · rw [hc'.2.2] at hanc
      exact hg.child_ne_parent hc (hg.anc_antisymm hv_lt hanc hvc)
  · rcases TreeGood.anc_step hcc with heq | hanc
    · exact hne heq.symm
    · rw [hc.2.2] at hanc
      exact hg.child_ne_parent hc' (hg.anc_antisymm hv_lt hanc hvc')

theorem TreeGood.children_mem {t : TreeIndexed} (hg : TreeGood t) {v : Nat}
    (hv : v < t.n_vert) {u : Nat} :
    u ∈ t.childrenOf v ↔ IsChild t u v := by
  rw [← List.count_pos_iff, hg.childCount v hv u]
  constructor
  · intro hpos
    by_cases hcond : u < t.n_vert ∧ u ≠ t.root ∧ parv t.parent u = v
    · exact hcond
    · rw [if_neg hcond] at hpos
      omega
  · intro hcond
    rw [if_pos (show u < t.n_vert ∧ u ≠ t.root ∧ parv t.parent u = v from hcond)]
    omega

theorem TreeGood.children_nodup {t : TreeIndexed} (hg : TreeGood t) {v : Nat}
    (hv : v < t.n_vert) : (t.childrenOf v).Nodup := by
  rw [List.nodup_iff_count_le_one]
  intro u
  rw [hg.childCount v hv u]
  split <;> omega

theorem TreeGood.minchain_lt {t : TreeIndexed} (hg : TreeGood t) {v m : Nat}
    (hv : v < t.n_vert) (hm : (parv t.parent)^[m] v = t.root)
    (hmin : ∀ j < m, (parv t.parent)^[j] v ≠ t.root) : m < t.n_vert := by
  have hfix_unique : ∀ x < t.n_vert, IsFix t.parent x → x = t.root := by
    intro x hx hfx
    by_cases hxr : x = t.root
    · exact hxr
    · exact absurd hfx (hg.pne x hx hxr)
  obtain ⟨k, hk, hkfix⟩ := first_fix_lt_length hg.parent_bound
    (by rw [hg.plen]; exact hv)
    ⟨t.root, ⟨m, hm⟩, hg.proot⟩
  have hk_lt : (parv t.parent)^[k] v < t.n_vert := by
    rw [← hg.plen]
    exact iterate_lt hg.parent_bound (by rw [hg.plen]; exact hv) k
  have hkroot : (parv t.parent)^[k] v = t.root := hfix_unique _ hk_lt hkfix
  have hmk : m ≤ k := by
    by_contra hlt
    exact hmin k (by omega) hkroot
  rw [hg.plen] at hk
  omega

/-! ### The postorder traversal of a good tree -/

theorem nodup_flatMap_disjoint {f : Nat → List Nat} :
    ∀ cs : List Nat, (∀ c ∈ cs, (f c).Nodup) →
      (∀ c ∈ cs, ∀ c' ∈ cs, c ≠ c' → ∀ u, u ∈ f c → u ∉ f c') →
      cs.Nodup → (cs.flatMap f).Nodup
  | [], _, _, _ => by simp
  | c :: cs, hnd, hdisj, hcs => by
    rw [List.flatMap_cons, List.nodup_append]
    obtain ⟨hc_notin, hcs'⟩ := List.nodup_cons.mp hcs
    refine ⟨hnd c (List.mem_cons_self c cs), ?_, ?_⟩
    · exact nodup_flatMap_disjoint cs
        (fun c' hc' => hnd c' (List.mem_cons_of_mem c hc'))
        (fun c' hc' c'' hc'' hne u hu =>
          hdisj c' (List.mem_cons_of_mem c hc') c'' (List.mem_cons_of_mem c hc'') hne u hu)
        hcs'
    · intro u hu hucs
      obtain ⟨c', hc', hu'⟩ := List.mem_flatMap.mp hucs
      have hne : c ≠ c' := fun h => hc_notin (h ▸ hc')
      exact hdisj c (List.mem_cons_self c cs) c' (List.mem_cons_of_mem c hc') hne u hu hu'

/-- The fuel-based postorder, given enough fuel for the subtree: no
duplicates, and the visited vertices are exactly the subtree below
`v`. -/
theorem postorderF_spec {t : TreeIndexed} (hg : TreeGood t) :
    ∀ (fuel m v : Nat), v < t.n_vert →
      (parv t.parent)^[m] v = t.root →
      (∀ j < m, (parv t.parent)^[j] v ≠ t.root) →
      t.n_vert ≤ fuel + m →
      (TreeIndexed.postorderF t fuel v).Nodup ∧
      ∀ u, u ∈ TreeIndexed.postorderF t fuel v ↔ (u < t.n_vert ∧ t.Anc v u)
  | 0, m, v, hv, hm, hmin, hfuel => by
    have := hg.minchain_lt hv hm hmin
    omega
  | fuel + 1, m, v, hv, hm, hmin, hfuel => by
    rw [TreeIndexed.postorderF]
    have hCH : ∀ c ∈ t.childrenOf v,
        (TreeIndexed.postorderF t fuel c).Nodup ∧
        ∀ u, u ∈ TreeIndexed.postorderF t fuel c ↔ (u < t.n_vert ∧ t.Anc c u) := by
      intro c hcmem
      have hc := (hg.children_mem hv).mp hcmem
      refine postorderF_spec hg fuel (m + 1) c hc.1 ?_ ?_ (by omega)
      · rw [Function.iterate_succ_apply, hc.2.2]
        exact hm
      · intro j hj
        cases j with
        | zero => exact hc.2.1
        | succ j =>
          rw [Function.iterate_succ_apply, hc.2.2]
          exact hmin j (by omega)
    have hdisj : ∀ c ∈ t.childrenOf v, ∀ c' ∈ t.childrenOf v, c ≠ c' →
        ∀ u, u ∈ TreeIndexed.postorderF t fuel c →
          u ∉ TreeIndexed.postorderF t fuel c' := by
      intro c hc c' hc' hne u hu hu'
      have h1 := ((hCH c hc).2 u).mp hu
      have h2 := ((hCH c' hc').2 u).mp hu'
      exact hg.subtree_disjoint ((hg.children_mem hv).mp hc)
        ((hg.children_mem hv).mp hc') hne h1.2 h2.2
    have hflat_nodup : ((t.childrenOf v).flatMap (TreeIndexed.postorderF t fuel)).Nodup :=
      nodup_flatMap_disjoint (t.childrenOf v) (fun c hc => (hCH c hc).1) hdisj
        (hg.children_nodup hv)
    have hflat_mem : ∀ u, u ∈ (t.childrenOf v).flatMap (TreeIndexed.postorderF t fuel) ↔
        ∃ c, IsChild t c v ∧ u < t.n_vert ∧ t.Anc c u := by
      intro u
      rw [List.mem_flatMap]
      constructor
      · rintro ⟨c, hc, hu⟩
        exact ⟨c, (hg.children_mem hv).mp hc, ((hCH c hc).2 u).mp hu⟩
      · rintro ⟨c, hc, hu⟩
        have hcmem := (hg.children_mem hv).mpr hc
        exact ⟨c, hcmem, ((hCH c hcmem).2 u).mpr hu⟩
    constructor
    · rw [List.nodup_append]
      refine ⟨hflat_nodup, List.nodup_singleton v, ?_⟩
      intro u hu husing
      rw [List.mem_singleton] at husing
      subst husing
      obtain ⟨c, hc, _, hanc⟩ := (hflat_mem u).mp hu
      have hvc : t.Anc u c := TreeIndexed.anc_parent hc.2.2
      have hv_lt : u < t.n_vert := by
        have := hg.pbound c hc.1
        rwa [hc.2.2] at this
      exact hg.child_ne_parent hc (hg.anc_antisymm hv_lt hanc hvc)
    · intro u
      rw [List.mem_append, List.mem_singleton, hflat_mem u]
      constructor
      · rintro (⟨c, hc, hu, hanc⟩ | rfl)
        · exact ⟨hu, TreeIndexed.anc_trans (TreeIndexed.anc_parent hc.2.2) hanc⟩
        · exact ⟨hv, TreeIndexed.anc_refl t u⟩
      · rintro ⟨hu, hanc⟩
        by_cases huv : u = v
        · exact Or.inr huv
        · obtain ⟨c, hc, hcanc⟩ := hg.child_of_anc hu hanc huv
          exact Or.inl ⟨c, hc, hu, hcanc⟩

/-- The full postorder: every vertex exactly once. -/
theorem postorder_spec {t : TreeIndexed} (hg : TreeGood t) :
    t.postorder.Nodup ∧ ∀ u, u ∈ t.postorder ↔ u < t.n_vert := by
  obtain ⟨hnd, hmem⟩ := postorderF_spec hg t.n_vert 0 t.root hg.root_lt rfl
    (by intro j hj; omega) (by omega)
  refine ⟨hnd, ?_⟩
  intro u
  rw [TreeIndexed.postorder]
  rw [hmem u]
  constructor
  · exact fun h => h.1
  · intro hu
    exact ⟨hu, hg.preach u hu⟩

/-! ### The canonical pair key and the query grouping -/

theorem order_comm (x y : Nat) : LcaOffline.order x y = LcaOffline.order y x := by
  by_cases h1 : x < y
  · rw [LcaOffline.order, LcaOffline.order, if_pos h1, if_neg (by omega)]
  · by_cases h2 : y < x
    · rw [LcaOffline.order, LcaOffline.order, if_neg h1, if_pos h2]
    · have hxy : x = y := by omega
      subst hxy
      rfl

theorem order_eq_pair {x y a b : Nat} (h : LcaOffline.order x y = LcaOffline.order a b) :
    (x = a ∧ y = b) ∨ (x = b ∧ y = a) := by
  rw [LcaOffline.order, LcaOffline.order] at h
  split_ifs at h <;> simp only [Prod.mk.injEq] at h <;> omega

/-- The query-grouping fold: each vertex gets exactly its reference
partner list. -/
theorem pairsFold_spec (n : Nat) :
    ∀ (todo done : List (Nat × Nat)) (acc : List (List Nat)),
      (∀ q ∈ todo, q.1 < n ∧ q.2 < n) →
      acc.length = n →
      (∀ v < n, acc.getD v [] = partners done v) →
      ((todo.foldl (fun (pairs : List (List Nat)) q =>
          let pairs := pairs.set q.1 (pairs.getD q.1 [] ++ [q.2])
          pairs.set q.2 (pairs.getD q.2 [] ++ [q.1])) acc).length = n ∧
        ∀ v < n, (todo.foldl (fun (pairs : List (List Nat)) q =>
          let pairs := pairs.set q.1 (pairs.getD q.1 [] ++ [q.2])
          pairs.set q.2 (pairs.getD q.2 [] ++ [q.1])) acc).getD v []
          = partners (done ++ todo) v)
  | [], done, acc, _, hlen, hget => by
    refine ⟨hlen, ?_⟩
    intro v hv
    rw [List.append_nil, List.foldl_nil]
    exact hget v hv
  | q :: rest, done, acc, hq, hlen, hget => by
    have hq1 : q.1 < n := (hq q (List.mem_cons_self q rest)).1
    have hq2 : q.2 < n := (hq q (List.mem_cons_self q rest)).2
    set mid := acc.set q.1 (acc.getD q.1 [] ++ [q.2]) with hmid
    set acc' := mid.set q.2 (mid.getD q.2 [] ++ [q.1]) with hacc'
    have hmidlen : mid.length = n := by rw [hmid, List.length_set, hlen]
    have hacc'len : acc'.length = n := by rw [hacc', List.length_set, hmidlen]
    have hmidget : ∀ v < n, mid.getD v [] =
        acc.getD v [] ++ (if q.1 = v then [q.2] else []) := by
      intro v hv
      by_cases hv1 : v = q.1
      · rw [hv1, hmid, getD_set_same acc [] q.1 _ (by rw [hlen]; exact hq1),
          if_pos rfl]
      · rw [hmid, getD_set_other acc [] q.1 _ v hv1, if_neg (fun h => hv1 h.symm),
          List.append_nil]
    have hacc'get : ∀ v < n, acc'.getD v [] =
        (acc.getD v [] ++ (if q.1 = v then [q.2] else [])) ++
          (if q.2 = v then [q.1] else []) := by
      intro v hv
      by_cases hv2 : v = q.2
      · rw [hv2, hacc', getD_set_same mid [] q.2 _ (by rw [hmidlen]; exact hq2),
          if_pos rfl, hmidget q.2 hq2]
      · rw [hacc', getD_set_other mid [] q.2 _ v hv2,
          if_neg (show ¬ (q.2 = v) from fun h => hv2 h.symm),
          List.append_nil, hmidget v hv]
    have hget' : ∀ v < n, acc'.getD v [] = partners (done ++ [q]) v := by
      intro v hv
      rw [hacc'get v hv, partners_append, partners_cons, partners_nil, List.append_nil,
        hget v hv, List.append_assoc]
    have happ : (done ++ [q]) ++ rest = done ++ (q :: rest) := by
      rw [List.append_assoc, List.singleton_append]
    obtain ⟨hrlen, hrget⟩ := pairsFold_spec n rest (done ++ [q]) acc'
      (fun q' hq' => hq q' (List.mem_cons_of_mem q hq')) hacc'len hget'
    rw [List.foldl_cons]
    refine ⟨hrlen, ?_⟩
    intro v hv
    have := hrget v hv
    rw [happ] at this
    exact this

/-- `LcaOffline::new` is the main fold over the postorder, with
`tarStep` as its body and `pairsOf` as the grouped queries. -/
theorem lca_new_eq (t : TreeIndexed) (qs : List (Nat × Nat)) :
    LcaOffline.new t qs = { result := (t.postorder.foldl
      (LcaOffline.tarStep t (LcaOffline.pairsOf t qs))
      (List.replicate t.n_vert false, DjsuRooted.new t.n_vert, [])).2.2 } := rfl

theorem pairsOf_spec {t : TreeIndexed} {qs : List (Nat × Nat)}
    (hq : ∀ q ∈ qs, q.1 < t.n_vert ∧ q.2 < t.n_vert) :
    (LcaOffline.pairsOf t qs).length = t.n_vert ∧
    ∀ v < t.n_vert, (LcaOffline.pairsOf t qs).getD v [] = partners qs v := by
  have h := pairsFold_spec t.n_vert qs [] (List.replicate t.n_vert [])
    hq (by simp) (fun v _ => by rw [getD_rep, partners_nil])
  exact h

theorem lookup_cons_self {β : Type} (k : Nat × Nat) (b : β) (l : List ((Nat × Nat) × β)) :
    ((k, b) :: l).lookup k = some b := by
  simp [List.lookup]

theorem lookup_cons_ne {β : Type} {k k' : Nat × Nat} (h : k ≠ k') (b : β)
    (l : List ((Nat × Nat) × β)) : ((k', b) :: l).lookup k = l.lookup k := by
  have hb : (k == k') = false := beq_eq_false_iff_ne.mpr h
  simp [List.lookup, hb]

/-- Marking one vertex: membership in the new visited set. -/
theorem getD_set_true_iff {vis : List Bool} {v : Nat} (hv : v < vis.length) (u : Nat) :
    (vis.set v true).getD u false = true ↔ (u = v ∨ vis.getD u false = true) := by
  by_cases huv : u = v
  · subst huv
    rw [getD_set_same vis false u true hv]
    simp
  · rw [getD_set_other vis false v true u huv]
    simp [huv]

/-! ### Pending-ancestor facts for the Tarjan pass -/

theorem anchorAt_unique {t : TreeIndexed} {vis : List Bool} {x a a' : Nat}
    (h : AnchorAt t vis x a) (h' : AnchorAt t vis x a') : a = a' := by
  obtain ⟨m, hm, hnv, hall⟩ := h
  obtain ⟨m', hm', hnv', hall'⟩ := h'
  rcases lt_trichotomy m m' with hlt | heq | hlt
  · have := hall' m hlt
    rw [hm, hnv] at this
    exact absurd this Bool.noConfusion
  · rw [← hm, heq, hm']
  · have := hall m' hlt
    rw [hm', hnv'] at this
    exact absurd this Bool.noConfusion

theorem anchorAt_exists {t : TreeIndexed} (hg : TreeGood t) {vis : List Bool} {x : Nat}
    (hx : x < t.n_vert) (hroot : vis.getD t.root false = false) :
    ∃ a, AnchorAt t vis x a := by
  classical
  obtain ⟨k, hk⟩ := hg.preach x hx
  have hex : ∃ m, vis.getD ((parv t.parent)^[m] x) false = false := ⟨k, by rw [hk]; exact hroot⟩
  refine ⟨(parv t.parent)^[Nat.find hex] x, Nat.find hex, rfl, Nat.find_spec hex, ?_⟩
  intro j hj
  have := Nat.find_min hex hj
  revert this
  cases vis.getD ((parv t.parent)^[j] x) false <;> simp

theorem anchorAt_self {t : TreeIndexed} {vis : List Bool} {x : Nat}
    (hx : vis.getD x false = false) : AnchorAt t vis x x :=
  ⟨0, rfl, hx, fun j hj => absurd hj (by omega)⟩

theorem anchorAt_unvisited {t : TreeIndexed} {vis : List Bool} {x a : Nat}
    (h : AnchorAt t vis x a) (hx : vis.getD x false = false) : a = x := by
  obtain ⟨m, hm, _, hall⟩ := h
  cases m with
  | zero => exact hm.symm
  | succ m =>
    have := hall 0 (by omega)
    rw [Function.iterate_zero, id] at this
    rw [this] at hx
    exact absurd hx Bool.noConfusion

/-- A fully-visited chain stays in one DSU class when every visited
vertex is merged with its parent. -/
theorem rootOf_chain {t : TreeIndexed} {d : DjsuIndex} {vis : List Bool}
    (hB6 : ∀ y, vis.getD y false = true → y ≠ t.root →
      d.rootOf y = d.rootOf (parv t.parent y))
    (hrootun : vis.getD t.root false = false) :
    ∀ (m x : Nat), (∀ j < m, vis.getD ((parv t.parent)^[j] x) false = true) →
      d.rootOf x = d.rootOf ((parv t.parent)^[m] x) := by
  intro m
  induction m with
  | zero => intro x _; rfl
  | succ m ih =>
    intro x hall
    have hxvis : vis.getD x false = true := by
      have := hall 0 (by omega)
      simpa using this
    have hxr : x ≠ t.root := by
      intro h
      rw [h, hrootun] at hxvis
      exact Bool.noConfusion hxvis
    have hstep := hB6 x hxvis hxr
    have hrest := ih (parv t.parent x) (by
      intro j hj
      have := hall (j + 1) (by omega)
      rwa [Function.iterate_succ_apply] at this)
    rw [hstep, hrest, ← Function.iterate_succ_apply]

/-- Everything below a visited vertex is visited (children-closure
descends). -/
theorem closure_descend {t : TreeIndexed} (hg : TreeGood t) {vis : List Bool}
    (hclo : ∀ u, vis.getD u false = true → u < t.n_vert ∧
      ∀ c, IsChild t c u → vis.getD c false = true)
    (hrootun : vis.getD t.root false = false) :
    ∀ (k b x : Nat), x < t.n_vert → (parv t.parent)^[k] x = b →
      vis.getD b false = true → vis.getD x false = true := by
  intro k
  induction k with
  | zero =>
    intro b x _ hk hb
    rw [← hk] at hb
    exact hb
  | succ k ih =>
    intro b x hx hk hb
    have hxr : x ≠ t.root := by
      intro hxr
      rw [hxr] at hk
      rw [isFix_iterate hg.proot (k + 1)] at hk
      rw [← hk] at hb
      rw [hb] at hrootun
      exact Bool.noConfusion hrootun
    have hy_lt : parv t.parent x < t.n_vert := hg.pbound x hx
    have hyvis : vis.getD (parv t.parent x) false = true := by
      refine ih b (parv t.parent x) hy_lt ?_ hb
      rw [← Function.iterate_succ_apply]
      exact hk
    exact (hclo _ hyvis).2 x ⟨hx, hxr, rfl⟩

/-- The pending ancestor answered at `v`'s turn is the true lowest
common ancestor of `v` and the partner. -/
theorem anchor_isLca {t : TreeIndexed} (hg : TreeGood t) {vis : List Bool} {v : Nat}
    (hv : v < t.n_vert)
    (hclo : ∀ u, vis.getD u false = true → u < t.n_vert ∧
      ∀ c, IsChild t c u → vis.getD c false = true)
    (hrootun : vis.getD t.root false = false)
    (hvun : vis.getD v false = false)
    (hsub : ∀ u < t.n_vert, u ≠ v → t.Anc v u → vis.getD u false = true)
    (hH : ∀ a < t.n_vert, vis.getD a false = false →
      (∃ c, IsChild t c a ∧ vis.getD c false = true) → t.Anc a v)
    {o a : Nat} (ho : o < t.n_vert) (hoin : o = v ∨ vis.getD o false = true)
    (ha : AnchorAt t vis o a) :
    t.IsLca v o a ∧ a < t.n_vert := by
  obtain ⟨m, hm, hanv, hall⟩ := ha
  have ha_lt : a < t.n_vert := hg.anc_lt ho ⟨m, hm⟩
  have hanc_o : t.Anc a o := ⟨m, hm⟩
  have hanc_v : t.Anc a v := by
    rcases hoin with rfl | hovis
    · have hav : a = o := anchorAt_unvisited ⟨m, hm, hanv, hall⟩ hvun
      rw [hav]
      exact TreeIndexed.anc_refl t o
    · by_cases hvo : t.Anc v o
      · obtain ⟨p, hp⟩ := hvo
        have hmp : m ≤ p := by
          by_contra hlt
          have := hall p (by omega)
          rw [hp] at this
          rw [this] at hvun
          exact Bool.noConfusion hvun
        have hva : t.Anc v a := by
          refine ⟨p - m, ?_⟩
          have hadd := Function.iterate_add_apply (parv t.parent) (p - m) m o
          rw [Nat.sub_add_cancel hmp] at hadd
          rw [← hm, ← hadd, hp]
        by_cases hav : a = v
        · rw [hav]
          exact TreeIndexed.anc_refl t v
        · have := hsub a ha_lt hav hva
          rw [this] at hanv
          exact absurd hanv Bool.noConfusion
      · have hm0 : m ≠ 0 := by
          intro h0
          rw [h0] at hm
          rw [Function.iterate_zero, id] at hm
          rw [← hm] at hanv
          rw [hovis] at hanv
          exact Bool.noConfusion hanv
        have hcvis : vis.getD ((parv t.parent)^[m - 1] o) false = true :=
          hall (m - 1) (by omega)
        have hpc : parv t.parent ((parv t.parent)^[m - 1] o) = a := by
          have hsucc := Function.iterate_succ_apply' (parv t.parent) (m - 1) o
          rw [Nat.succ_eq_add_one, show m - 1 + 1 = m by omega] at hsucc
          rw [← hsucc, hm]
        have hcr : (parv t.parent)^[m - 1] o ≠ t.root := by
          intro h
          rw [h, hrootun] at hcvis
          exact Bool.noConfusion hcvis
        have hc_lt : (parv t.parent)^[m - 1] o < t.n_vert :=
          hg.anc_lt ho ⟨m - 1, rfl⟩
        exact hH a ha_lt hanv ⟨(parv t.parent)^[m - 1] o, ⟨hc_lt, hcr, hpc⟩, hcvis⟩
  refine ⟨⟨hanc_v, hanc_o, ?_⟩, ha_lt⟩
  intro b hbv hbo
  rcases TreeGood.anc_comparable hbo hanc_o with hba | hab
  · exact hba
  · obtain ⟨q, hq⟩ := hbo
    by_cases hqm : q < m
    · have hbvis : vis.getD b false = true := by
        have := hall q hqm
        rwa [hq] at this
      obtain ⟨k, hk⟩ := hbv
      have := closure_descend hg hclo hrootun k b v hv hk hbvis
      rw [this] at hvun
      exact absurd hvun Bool.noConfusion
    · refine ⟨q - m, ?_⟩
      have hadd := Function.iterate_add_apply (parv t.parent) (q - m) m o
      rw [Nat.sub_add_cancel (by omega)] at hadd
      rw [← hm, ← hadd, hq]

/-! ### The partner scan of one Tarjan step -/

/-- The inner fold of `tarStep`: it only path-compresses the DSU (the
designated-root array and all representatives are unchanged) and conses
one answer per already-visited partner, valued at that partner's current
designated root. -/
theorem tarInner_spec {st : List Bool × DjsuRooted × List ((Nat × Nat) × Nat)}
    {v : Nat} {vis : List Bool} (n : Nat)
    (hvisiff : ∀ u, vis.getD u false = true ↔ (u = v ∨ st.1.getD u false = true)) :
    ∀ (todo done : List Nat) (st2 : DjsuRooted × List ((Nat × Nat) × Nat)),
      (∀ o ∈ todo, o < n) →
      st2.1.root = st.2.1.root →
      st2.1.djsu.WF →
      st2.1.djsu.root.length = n →
      (∀ j < n, st2.1.djsu.rootOf j = st.2.1.djsu.rootOf j) →
      (∀ o ∈ done, (o = v ∨ st.1.getD o false = true) →
        st2.2.lookup (LcaOffline.order v o)
          = some (getE st.2.1.root (st.2.1.djsu.rootOf o))) →
      (∀ key : Nat × Nat, st2.2.lookup key = st.2.2.lookup key ∨
        ∃ o, o ∈ done ∧ (o = v ∨ st.1.getD o false = true) ∧
          key = LcaOffline.order v o ∧
          st2.2.lookup key = some (getE st.2.1.root (st.2.1.djsu.rootOf o))) →
      (LcaOffline.tarInnerFold vis v todo st2).1.root = st.2.1.root ∧
      (LcaOffline.tarInnerFold vis v todo st2).1.djsu.WF ∧
      (LcaOffline.tarInnerFold vis v todo st2).1.djsu.root.length = n ∧
      (∀ j < n, (LcaOffline.tarInnerFold vis v todo st2).1.djsu.rootOf j
        = st.2.1.djsu.rootOf j) ∧
      (∀ o ∈ done ++ todo, (o = v ∨ st.1.getD o false = true) →
        (LcaOffline.tarInnerFold vis v todo st2).2.lookup (LcaOffline.order v o)
          = some (getE st.2.1.root (st.2.1.djsu.rootOf o))) ∧
      (∀ key : Nat × Nat,
        (LcaOffline.tarInnerFold vis v todo st2).2.lookup key = st.2.2.lookup key ∨
        ∃ o, o ∈ done ++ todo ∧ (o = v ∨ st.1.getD o false = true) ∧
          key = LcaOffline.order v o ∧
          (LcaOffline.tarInnerFold vis v todo st2).2.lookup key
            = some (getE st.2.1.root (st.2.1.djsu.rootOf o)))
  | [], done, st2, _, hroot, hwf, hlen, hro, hC2, hC1 => by
    rw [List.append_nil]
    exact ⟨hroot, hwf, hlen, hro, hC2, hC1⟩
  | other :: rest, done, st2, hto, hroot, hwf, hlen, hro, hC2, hC1 => by
    have hother_lt : other < n := hto other (List.mem_cons_self other rest)
    have hstep : LcaOffline.tarInnerFold vis v (other :: rest) st2
        = LcaOffline.tarInnerFold vis v rest
          (if vis.getD other false then
            ((st2.1.find other).1, (LcaOffline.order v other, (st2.1.find other).2) :: st2.2)
          else st2) := rfl
    by_cases hvis : vis.getD other false = true
    · -- visited partner: answer it
      obtain ⟨hf2, hflen, _, _, hfwf, hfro, _⟩ :=
        DjsuIndex.find_spec hwf (by rw [hlen]; exact hother_lt)
      have hval : (st2.1.find other).2 = getE st.2.1.root (st.2.1.djsu.rootOf other) := by
        show getE st2.1.root (st2.1.djsu.find other).2
          = getE st.2.1.root (st.2.1.djsu.rootOf other)
        rw [hf2, hroot, hro other hother_lt]
      set st2' : DjsuRooted × List ((Nat × Nat) × Nat) :=
        ((st2.1.find other).1, (LcaOffline.order v other, (st2.1.find other).2) :: st2.2)
        with hst2'
      have hcond : other = v ∨ st.1.getD other false = true := (hvisiff other).mp hvis
      have hroot' : st2'.1.root = st.2.1.root := hroot
      have hwf' : st2'.1.djsu.WF := hfwf
      have hlen' : st2'.1.djsu.root.length = n := by
        show (st2.1.djsu.find other).1.root.length = n
        rw [hflen, hlen]
      have hro' : ∀ j < n, st2'.1.djsu.rootOf j = st.2.1.djsu.rootOf j := by
        intro j hj
        have := hfro j (by rw [hlen]; exact hj)
        rw [show st2'.1.djsu = (st2.1.djsu.find other).1 from rfl, this]
        exact hro j hj
      have hC2' : ∀ o ∈ done ++ [other], (o = v ∨ st.1.getD o false = true) →
          st2'.2.lookup (LcaOffline.order v o)
            = some (getE st.2.1.root (st.2.1.djsu.rootOf o)) := by
        intro o ho hocond
        by_cases hkey : LcaOffline.order v o = LcaOffline.order v other
        · have hoeq : o = other := by
            rcases order_eq_pair hkey with ⟨_, h2⟩ | ⟨h1, h2⟩
            · exact h2
            · rw [h2, ← h1]
          rw [hst2', hkey, lookup_cons_self, hval, hoeq]
        · rw [hst2', lookup_cons_ne hkey]
          rcases List.mem_append.mp ho with hod | hoo
          · exact hC2 o hod hocond
          · rw [List.mem_singleton] at hoo
            exact absurd (by rw [hoo]) hkey
      have hC1' : ∀ key : Nat × Nat, st2'.2.lookup key = st.2.2.lookup key ∨
          ∃ o, o ∈ done ++ [other] ∧ (o = v ∨ st.1.getD o false = true) ∧
            key = LcaOffline.order v o ∧
            st2'.2.lookup key = some (getE st.2.1.root (st.2.1.djsu.rootOf o)) := by
        intro key
        by_cases hkey : key = LcaOffline.order v other
        · refine Or.inr ⟨other, List.mem_append_right done (List.mem_singleton_self other),
            hcond, hkey, ?_⟩
          rw [hst2', hkey, lookup_cons_self, hval]
        · rw [hst2', lookup_cons_ne hkey]
          rcases hC1 key with h | ⟨o, hod, hoc, hk, hl⟩
          · exact Or.inl h
          · exact Or.inr ⟨o, List.mem_append_left _ hod, hoc, hk, hl⟩
      have hrec := tarInner_spec n hvisiff rest (done ++ [other]) st2'
        (fun o ho => hto o (List.mem_cons_of_mem other ho))
        hroot' hwf' hlen' hro' hC2' hC1'
      rw [hstep, if_pos hvis]
      rw [List.append_assoc done [other] rest, List.singleton_append] at hrec
      exact hrec
    · -- unvisited partner: no change
      have hvisF : vis.getD other false = false := by
        revert hvis
        cases vis.getD other false <;> simp
      have hcondF : ¬ (other = v ∨ st.1.getD other false = true) := by
        intro hc
        rw [(hvisiff other).mpr hc] at hvisF
        exact Bool.noConfusion hvisF
      have hC2' : ∀ o ∈ done ++ [other], (o = v ∨ st.1.getD o false = true) →
          st2.2.lookup (LcaOffline.order v o)
            = some (getE st.2.1.root (st.2.1.djsu.rootOf o)) := by
        intro o ho hocond
        rcases List.mem_append.mp ho with hod | hoo
        · exact hC2 o hod hocond
        · rw [List.mem_singleton] at hoo
          rw [hoo] at hocond
          exact absurd hocond hcondF
      have hC1' : ∀ key : Nat × Nat, st2.2.lookup key = st.2.2.lookup key ∨
          ∃ o, o ∈ done ++ [other] ∧ (o = v ∨ st.1.getD o false = true) ∧
            key = LcaOffline.order v o ∧
            st2.2.lookup key = some (getE st.2.1.root (st.2.1.djsu.rootOf o)) := by
        intro key
        rcases hC1 key with h | ⟨o, hod, hoc, hk, hl⟩
        · exact Or.inl h
        · exact Or.inr ⟨o, List.mem_append_left _ hod, hoc, hk, hl⟩
      have hrec := tarInner_spec n hvisiff rest (done ++ [other]) st2
        (fun o ho => hto o (List.mem_cons_of_mem other ho))
        hroot hwf hlen hro hC2' hC1'
      rw [hstep, if_neg (by rw [hvisF]; exact Bool.noConfusion)]
      rw [List.append_assoc done [other] rest, List.singleton_append] at hrec
      exact hrec

/-! ### One full Tarjan step preserves the invariant -/

/-- Processing one postorder vertex `v` whose whole proper subtree is
already visited: the step marks exactly `v` and re-establishes the
Tarjan invariant. -/
theorem tarStep_spec {t : TreeIndexed} (hg : TreeGood t) {qs : List (Nat × Nat)}
    (hq : ∀ q ∈ qs, q.1 < t.n_vert ∧ q.2 < t.n_vert)
    {pairs : List (List Nat)}
    {st : List Bool × DjsuRooted × List ((Nat × Nat) × Nat)}
    (hB : TarBase t qs st) {v : Nat} (hpv : pairs.getD v [] = partners qs v)
    (hv : v < t.n_vert)
    (hvun : st.1.getD v false = false)
    (hrootun : st.1.getD t.root false = false)
    (hsub : ∀ u < t.n_vert, u ≠ v → t.Anc v u → st.1.getD u false = true)
    (hH : ∀ a < t.n_vert, st.1.getD a false = false →
      (∃ c, IsChild t c a ∧ st.1.getD c false = true) → t.Anc a v) :
    (LcaOffline.tarStep t pairs st v).1 = st.1.set v true ∧
    TarBase t qs (LcaOffline.tarStep t pairs st v) := by
  obtain ⟨hB1, hB2, hB3, hB4, hB5, hB6, hB7, hB8, hB9⟩ := hB
  have hunf : LcaOffline.tarStep t pairs st v =
      (if v ≠ t.root then
        (st.1.set v true,
          ((LcaOffline.tarInnerFold (st.1.set v true) v (pairs.getD v [])
              (st.2.1, st.2.2)).1.union ((t.parentOf v).getD 0) v).1,
          (LcaOffline.tarInnerFold (st.1.set v true) v (pairs.getD v [])
            (st.2.1, st.2.2)).2)
      else
        (st.1.set v true,
          (LcaOffline.tarInnerFold (st.1.set v true) v (pairs.getD v [])
            (st.2.1, st.2.2)).1,
          (LcaOffline.tarInnerFold (st.1.set v true) v (pairs.getD v [])
            (st.2.1, st.2.2)).2)) := rfl
  have hvisiff : ∀ u, (st.1.set v true).getD u false = true ↔
      (u = v ∨ st.1.getD u false = true) :=
    getD_set_true_iff (by rw [hB1]; exact hv)
  obtain ⟨hIroot, hIwf, hIlen, hIro, hIC2, hIC1⟩ :=
    tarInner_spec t.n_vert hvisiff (pairs.getD v []) [] (st.2.1, st.2.2)
      (fun o ho => partners_mem_lt hq (by rw [hpv] at ho; exact ho))
      rfl hB2 hB3 (fun j _ => rfl)
      (fun o ho => absurd ho (List.not_mem_nil o))
      (fun _ => Or.inl rfl)
  have hK2 : ∀ o ∈ partners qs v, (o = v ∨ st.1.getD o false = true) →
      (LcaOffline.tarInnerFold (st.1.set v true) v (pairs.getD v [])
        (st.2.1, st.2.2)).2.lookup (LcaOffline.order v o)
        = some (getE st.2.1.root (st.2.1.djsu.rootOf o)) := by
    intro o ho hc
    exact hIC2 o (show o ∈ [] ++ pairs.getD v [] by rw [List.nil_append, hpv]; exact ho) hc
  have hK1 : ∀ key : Nat × Nat,
      (LcaOffline.tarInnerFold (st.1.set v true) v (pairs.getD v [])
        (st.2.1, st.2.2)).2.lookup key = st.2.2.lookup key ∨
      ∃ o, o ∈ partners qs v ∧ (o = v ∨ st.1.getD o false = true) ∧
        key = LcaOffline.order v o ∧
        (LcaOffline.tarInnerFold (st.1.set v true) v (pairs.getD v [])
          (st.2.1, st.2.2)).2.lookup key
          = some (getE st.2.1.root (st.2.1.djsu.rootOf o)) := by
    intro key
    rcases hIC1 key with h | ⟨o, ho, hc, hk, hl⟩
    · exact Or.inl h
    · rw [List.nil_append, hpv] at ho
      exact Or.inr ⟨o, ho, hc, hk, hl⟩
  have hvals : ∀ o < t.n_vert, (o = v ∨ st.1.getD o false = true) →
      t.IsLca v o (getE st.2.1.root (st.2.1.djsu.rootOf o)) ∧
      getE st.2.1.root (st.2.1.djsu.rootOf o) < t.n_vert := by
    intro o ho hoc
    obtain ⟨a, ha⟩ := anchorAt_exists hg ho hrootun
    have hval := hB7 o ho a ha
    have hres := anchor_isLca hg hv hB5 hrootun hvun hsub hH ho hoc ha
    rw [hval]
    exact hres
  have hB9' : ∀ x < t.n_vert, ∀ y < t.n_vert,
      ((pairInBatch qs x y ∧ (st.1.set v true).getD x false = true ∧
          (st.1.set v true).getD y false = true) →
        ∃ w, (LcaOffline.tarInnerFold (st.1.set v true) v (pairs.getD v [])
          (st.2.1, st.2.2)).2.lookup (LcaOffline.order x y) = some w ∧ t.IsLca x y w) ∧
      (¬ (pairInBatch qs x y ∧ (st.1.set v true).getD x false = true ∧
          (st.1.set v true).getD y false = true) →
        (LcaOffline.tarInnerFold (st.1.set v true) v (pairs.getD v [])
          (st.2.1, st.2.2)).2.lookup (LcaOffline.order x y) = none) := by
    intro x hx y hy
    constructor
    · rintro ⟨hpb, hvx, hvy⟩
      rcases (hvisiff x).mp hvx with hxv | hxold
      · subst hxv
        have hycond := (hvisiff y).mp hvy
        have hymem : y ∈ partners qs x := (partners_mem_iff_batch qs x y).mpr hpb
        exact ⟨getE st.2.1.root (st.2.1.djsu.rootOf y), hK2 y hymem hycond,
          (hvals y hy hycond).1⟩
      · rcases (hvisiff y).mp hvy with hyv | hyold
        · subst hyv
          have hpb' : pairInBatch qs y x := by
            rcases hpb with h | h
            · exact Or.inr h
            · exact Or.inl h
          have hxmem : x ∈ partners qs y := (partners_mem_iff_batch qs y x).mpr hpb'
          have hlca := (hvals x hx (Or.inr hxold)).1
          refine ⟨getE st.2.1.root (st.2.1.djsu.rootOf x), ?_, ?_⟩
          · rw [order_comm x y]
            exact hK2 x hxmem (Or.inr hxold)
          · exact ⟨hlca.2.1, hlca.1, fun b hb1 hb2 => hlca.2.2 b hb2 hb1⟩
        · obtain ⟨w, hw, hlca⟩ := (hB9 x hx y hy).1 ⟨hpb, hxold, hyold⟩
          refine ⟨w, ?_, hlca⟩
          rcases hK1 (LcaOffline.order x y) with h | ⟨o, _, _, hk, _⟩
          · rw [h]
            exact hw
          · exfalso
            rcases order_eq_pair hk with ⟨h1, _⟩ | ⟨_, h2⟩
            · rw [h1] at hxold
              rw [hvun] at hxold
              exact Bool.noConfusion hxold
            · rw [h2] at hyold
              rw [hvun] at hyold
              exact Bool.noConfusion hyold
    · intro hneg
      by_cases hpb : pairInBatch qs x y
      · have hvf : (st.1.set v true).getD x false = false ∨
            (st.1.set v true).getD y false = false := by
          by_contra hc
          rw [not_or] at hc
          obtain ⟨h1, h2⟩ := hc
          have h1' : (st.1.set v true).getD x false = true := by
            revert h1
            cases (st.1.set v true).getD x false <;> simp
          have h2' : (st.1.set v true).getD y false = true := by
            revert h2
            cases (st.1.set v true).getD y false <;> simp
          exact hneg ⟨hpb, h1', h2'⟩
        rcases hvf with hun | hun
        · have hnx : ¬ (x = v ∨ st.1.getD x false = true) := fun hc => by
            rw [(hvisiff x).mpr hc] at hun
            exact Bool.noConfusion hun
          have hxold : st.1.getD x false = false := by
            cases hc : st.1.getD x false
            · rfl
            · exact absurd (Or.inr hc) hnx
          have holdnone := (hB9 x hx y hy).2 (fun hc => by
            rw [hc.2.1] at hxold
            exact Bool.noConfusion hxold)
          rcases hK1 (LcaOffline.order x y) with h | ⟨o, _, hc, hk, _⟩
          · rw [h]
            exact holdnone
          · exfalso
            rcases order_eq_pair hk with ⟨h1, _⟩ | ⟨h1, _⟩
            · exact hnx (Or.inl h1)
            · rcases hc with hov | host
              · exact hnx (Or.inl (h1.trans hov))
              · rw [h1] at hnx
                exact hnx (Or.inr host)
        · have hny : ¬ (y = v ∨ st.1.getD y false = true) := fun hc => by
            rw [(hvisiff y).mpr hc] at hun
            exact Bool.noConfusion hun
          have hyold : st.1.getD y false = false := by
            cases hc : st.1.getD y false
            · rfl
            · exact absurd (Or.inr hc) hny
          have holdnone := (hB9 x hx y hy).2 (fun hc => by
            rw [hc.2.2] at hyold
            exact Bool.noConfusion hyold)
          rcases hK1 (LcaOffline.order x y) with h | ⟨o, _, hc, hk, _⟩
          · rw [h]
            exact holdnone
          · exfalso
            rcases order_eq_pair hk with ⟨_, h2⟩ | ⟨_, h2⟩
            · rcases hc with hov | host
              · exact hny (Or.inl (h2.trans hov))
              · rw [h2] at hny
                exact hny (Or.inr host)
            · exact hny (Or.inl h2)
      · have holdnone := (hB9 x hx y hy).2 (fun hc => hpb hc.1)
        rcases hK1 (LcaOffline.order x y) with h | ⟨o, homem, _, hk, _⟩
        · rw [h]
          exact holdnone
        · exfalso
          have hpbo : pairInBatch qs v o := (partners_mem_iff_batch qs v o).mp homem
          apply hpb
          rcases order_eq_pair hk with ⟨h1, h2⟩ | ⟨h1, h2⟩
          · rw [h1, h2]
            exact hpbo
          · rw [h1, h2]
            rcases hpbo with h | h
            · exact Or.inr h
            · exact Or.inl h
  have hB1' : (st.1.set v true).length = t.n_vert := by
    rw [List.length_set]
    exact hB1
  have hB5' : ∀ u, (st.1.set v true).getD u false = true → u < t.n_vert ∧
      ∀ c, IsChild t c u → (st.1.set v true).getD c false = true := by
    intro u hu
    rcases (hvisiff u).mp hu with huv | huold
    · subst huv
      refine ⟨hv, ?_⟩
      intro c hc
      have hcnu : c ≠ u := hg.child_ne_parent hc
      have hanc : t.Anc u c := TreeIndexed.anc_parent hc.2.2
      exact (hvisiff c).mpr (Or.inr (hsub c hc.1 hcnu hanc))
    · obtain ⟨hu_lt, hch⟩ := hB5 u huold
      exact ⟨hu_lt, fun c hc => (hvisiff c).mpr (Or.inr (hch c hc))⟩
  rw [hunf]
  by_cases hvr : v ≠ t.root
  · -- non-root vertex: a union with the parent follows the scan
    rw [if_pos hvr]
    have hpTv : (t.parentOf v).getD 0 = parv t.parent v := by
      rw [TreeIndexed.parentOf, if_neg hvr]
      rfl
    rw [hpTv]
    have hp_lt : parv t.parent v < t.n_vert := hg.pbound v hv
    have hp_ne_v : parv t.parent v ≠ v := hg.pne v hv hvr
    have hpun : st.1.getD (parv t.parent v) false = false := by
      cases hc : st.1.getD (parv t.parent v) false
      · rfl
      · have := (hB5 (parv t.parent v) hc).2 v ⟨hv, hvr, rfl⟩
        rw [this] at hvun
        exact Bool.noConfusion hvun
    have hdesv : getE st.2.1.root (st.2.1.djsu.rootOf v) = v :=
      hB7 v hv v (anchorAt_self hvun)
    have hdesp : getE st.2.1.root (st.2.1.djsu.rootOf (parv t.parent v))
        = parv t.parent v := hB7 (parv t.parent v) hp_lt (parv t.parent v)
      (anchorAt_self hpun)
    set I := LcaOffline.tarInnerFold (st.1.set v true) v (pairs.getD v [])
      (st.2.1, st.2.2) with hIdef
    have hrops : I.1.djsu.rootOf (parv t.parent v)
        = st.2.1.djsu.rootOf (parv t.parent v) := hIro (parv t.parent v) hp_lt
    have hrovs : I.1.djsu.rootOf v = st.2.1.djsu.rootOf v := hIro v hv
    have hne : I.1.djsu.rootOf (parv t.parent v) ≠ I.1.djsu.rootOf v := by
      rw [hrops, hrovs]
      intro h
      rw [h, hdesv] at hdesp
      exact hp_ne_v hdesp.symm
    set W := if getE I.1.djsu.height (I.1.djsu.rootOf (parv t.parent v))
        < getE I.1.djsu.height (I.1.djsu.rootOf v)
      then I.1.djsu.rootOf v else I.1.djsu.rootOf (parv t.parent v) with hW
    set L := if getE I.1.djsu.height (I.1.djsu.rootOf (parv t.parent v))
        < getE I.1.djsu.height (I.1.djsu.rootOf v)
      then I.1.djsu.rootOf (parv t.parent v) else I.1.djsu.rootOf v with hL
    obtain ⟨hU2, hUlen, _, _, hUwf, hUro, _, _, _, _⟩ :=
      DjsuIndex.union_spec_merge hIwf (by rw [hIlen]; exact hp_lt)
        (by rw [hIlen]; exact hv) hne hW hL
    have hWL : (W = I.1.djsu.rootOf v ∧ L = I.1.djsu.rootOf (parv t.parent v)) ∨
        (W = I.1.djsu.rootOf (parv t.parent v) ∧ L = I.1.djsu.rootOf v) := by
      by_cases hc : getE I.1.djsu.height (I.1.djsu.rootOf (parv t.parent v))
          < getE I.1.djsu.height (I.1.djsu.rootOf v)
      · exact Or.inl ⟨by rw [hW, if_pos hc], by rw [hL, if_pos hc]⟩
      · exact Or.inr ⟨by rw [hW, if_neg hc], by rw [hL, if_neg hc]⟩
    have hW_lt : W < t.n_vert := by
      rcases hWL with ⟨hW1, _⟩ | ⟨hW1, _⟩
      · rw [hW1, hrovs]
        have := DjsuIndex.rootOf_lt hB2 (i := v) (by rw [hB3]; exact hv)
        rw [hB3] at this
        exact this
      · rw [hW1, hrops]
        have := DjsuIndex.rootOf_lt hB2 (i := parv t.parent v) (by rw [hB3]; exact hp_lt)
        rw [hB3] at this
        exact this
    have hR' : I.1.root.set (I.1.djsu.union (parv t.parent v) v).2
        (getE I.1.root (parv t.parent v)) = st.2.1.root.set W (parv t.parent v) := by
      rw [hU2, hIroot, hB8 (parv t.parent v) hp_lt hpun]
    have hgetW : getE (st.2.1.root.set W (parv t.parent v)) W = parv t.parent v :=
      getE_set_self _ _ _ (by rw [hB4]; exact hW_lt)
    have hgetO : ∀ z, z ≠ W →
        getE (st.2.1.root.set W (parv t.parent v)) z = getE st.2.1.root z :=
      fun z hz => getE_set_ne _ _ _ _ hz
    have hB6' : ∀ y, (st.1.set v true).getD y false = true → y ≠ t.root →
        (I.1.djsu.union (parv t.parent v) v).1.rootOf y
          = (I.1.djsu.union (parv t.parent v) v).1.rootOf (parv t.parent y) := by
      intro y hyv hyr
      rcases (hvisiff y).mp hyv with hyv' | hyold
      · subst hyv'
        rw [hUro y (by rw [hIlen]; exact hv),
          hUro (parv t.parent y) (by rw [hIlen]; exact hp_lt)]
        rcases hWL with ⟨hW1, hL1⟩ | ⟨hW1, hL1⟩
        · rw [hL1, if_neg (fun h => hne h.symm), if_pos rfl]
          exact hW1.symm
        · rw [hL1, if_pos rfl, if_neg (fun h => hne h)]
          exact hW1
      · have hy_lt : y < t.n_vert := (hB5 y hyold).1
        have hpy_lt : parv t.parent y < t.n_vert := hg.pbound y hy_lt
        rw [hUro y (by rw [hIlen]; exact hy_lt),
          hUro (parv t.parent y) (by rw [hIlen]; exact hpy_lt),
          hIro y hy_lt, hIro (parv t.parent y) hpy_lt, hB6 y hyold hyr]
    have hrootun' : (st.1.set v true).getD t.root false = false := by
      cases hc : (st.1.set v true).getD t.root false
      · rfl
      · rcases (hvisiff t.root).mp hc with h | h
        · exact absurd h.symm hvr
        · rw [h] at hrootun
          exact Bool.noConfusion hrootun
    have hB7' : ∀ x < t.n_vert, ∀ a, AnchorAt t (st.1.set v true) x a →
        getE (st.2.1.root.set W (parv t.parent v))
          ((I.1.djsu.union (parv t.parent v) v).1.rootOf x) = a := by
      intro x hx a ha
      obtain ⟨m, hm, hau, hall⟩ := ha
      have hanotv : ¬ (a = v ∨ st.1.getD a false = true) := fun hc => by
        rw [(hvisiff a).mpr hc] at hau
        exact Bool.noConfusion hau
      have ha_ne_v : a ≠ v := fun h => hanotv (Or.inl h)
      have haold : st.1.getD a false = false := by
        cases hc : st.1.getD a false
        · rfl
        · exact absurd (Or.inr hc) hanotv
      have ha_lt : a < t.n_vert := hg.anc_lt hx ⟨m, hm⟩
      have hchain := rootOf_chain hB6' hrootun' m x hall
      rw [hm] at hchain
      rw [hchain, hUro a (by rw [hIlen]; exact ha_lt), hIro a ha_lt]
      have hdesa : getE st.2.1.root (st.2.1.djsu.rootOf a) = a :=
        hB7 a ha_lt a (anchorAt_self haold)
      by_cases hcase : st.2.1.djsu.rootOf a = L
      · rw [if_pos hcase, hgetW]
        rcases hWL with ⟨_, hL1⟩ | ⟨_, hL1⟩
        · have heq : st.2.1.djsu.rootOf a
              = st.2.1.djsu.rootOf (parv t.parent v) := by
            rw [hcase, hL1, hrops]
          rw [heq, hdesp] at hdesa
          exact hdesa
        · have heq : st.2.1.djsu.rootOf a = st.2.1.djsu.rootOf v := by
            rw [hcase, hL1, hrovs]
          rw [heq, hdesv] at hdesa
          exact absurd hdesa.symm ha_ne_v
      · rw [if_neg hcase]
        by_cases hcw : st.2.1.djsu.rootOf a = W
        · rw [hcw, hgetW]
          rcases hWL with ⟨hW1, _⟩ | ⟨hW1, _⟩
          · have heq : st.2.1.djsu.rootOf a = st.2.1.djsu.rootOf v := by
              rw [hcw, hW1, hrovs]
            rw [heq, hdesv] at hdesa
            exact absurd hdesa.symm ha_ne_v
          · have heq : st.2.1.djsu.rootOf a
                = st.2.1.djsu.rootOf (parv t.parent v) := by
              rw [hcw, hW1, hrops]
            rw [heq, hdesp] at hdesa
            exact hdesa
        · rw [hgetO _ hcw]
          exact hdesa
    have hB8' : ∀ w < t.n_vert, (st.1.set v true).getD w false = false →
        getE (st.2.1.root.set W (parv t.parent v)) w = w := by
      intro w hw hwv
      have hnw : ¬ (w = v ∨ st.1.getD w false = true) := fun hc => by
        rw [(hvisiff w).mpr hc] at hwv
        exact Bool.noConfusion hwv
      have hw_ne_v : w ≠ v := fun h => hnw (Or.inl h)
      have hwold : st.1.getD w false = false := by
        cases hc : st.1.getD w false
        · rfl
        · exact absurd (Or.inr hc) hnw
      by_cases hcw : w = W
      · rw [hcw, hgetW]
        have h1 : getE st.2.1.root w = w := hB8 w hw hwold
        rcases hWL with ⟨hW1, _⟩ | ⟨hW1, _⟩
        · have h2 : getE st.2.1.root w = v := by
            rw [hcw, hW1, hrovs]
            exact hdesv
          rw [h1] at h2
          exact absurd h2 hw_ne_v
        · have h2 : getE st.2.1.root w = parv t.parent v := by
            rw [hcw, hW1, hrops]
            exact hdesp
          rw [h1] at h2
          rw [← hcw]
          exact h2.symm
      · rw [hgetO w hcw]
        exact hB8 w hw hwold
    refine ⟨rfl, hB1', hUwf, ?_, ?_, hB5', hB6', ?_, ?_, hB9'⟩
    · show (I.1.djsu.union (parv t.parent v) v).1.root.length = t.n_vert
      rw [hUlen, hIlen]
    · show (I.1.root.set (I.1.djsu.union (parv t.parent v) v).2
        (getE I.1.root (parv t.parent v))).length = t.n_vert
      rw [hR', List.length_set, hB4]
    · show ∀ x < t.n_vert, ∀ a, AnchorAt t (st.1.set v true) x a →
        getE (I.1.root.set (I.1.djsu.union (parv t.parent v) v).2
          (getE I.1.root (parv t.parent v)))
          ((I.1.djsu.union (parv t.parent v) v).1.rootOf x) = a
      rw [hR']
      exact hB7'
    · show ∀ w < t.n_vert, (st.1.set v true).getD w false = false →
        getE (I.1.root.set (I.1.djsu.union (parv t.parent v) v).2
          (getE I.1.root (parv t.parent v))) w = w
      rw [hR']
      exact hB8'
  · -- the root: no union, and by now every vertex is visited
    rw [if_neg hvr]
    have hvroot : v = t.root := by
      by_contra hc
      exact hvr hc
    have hallvis : ∀ u < t.n_vert, (st.1.set v true).getD u false = true := by
      intro u hu
      by_cases huv : u = v
      · exact (hvisiff u).mpr (Or.inl huv)
      · refine (hvisiff u).mpr (Or.inr (hsub u hu huv ?_))
        obtain ⟨k, hk⟩ := hg.preach u hu
        exact ⟨k, by rw [hk]; exact hvroot.symm⟩
    set I := LcaOffline.tarInnerFold (st.1.set v true) v (pairs.getD v [])
      (st.2.1, st.2.2) with hIdef
    refine ⟨rfl, hB1', hIwf, hIlen, ?_, hB5', ?_, ?_, ?_, hB9'⟩
    · show I.1.root.length = t.n_vert
      rw [hIroot, hB4]
    · intro y hyv hyr
      rcases (hvisiff y).mp hyv with h | hyold
      · exact absurd (h.trans hvroot) hyr
      · have hy_lt : y < t.n_vert := (hB5 y hyold).1
        have hpy_lt : parv t.parent y < t.n_vert := hg.pbound y hy_lt
        show I.1.djsu.rootOf y = I.1.djsu.rootOf (parv t.parent y)
        rw [hIro y hy_lt, hIro (parv t.parent y) hpy_lt]
        exact hB6 y hyold hyr
    · intro x hx a ha
      obtain ⟨m, hm, hau, _⟩ := ha
      have ha_lt : a < t.n_vert := hg.anc_lt hx ⟨m, hm⟩
      rw [hallvis a ha_lt] at hau
      exact absurd hau Bool.noConfusion
    · intro w hw hwv
      rw [hallvis w hw] at hwv
      exact absurd hwv Bool.noConfusion

/-- The Tarjan invariant holds at the initial state of the pass. -/
theorem tarBase_init (t : TreeIndexed) (qs : List (Nat × Nat)) :
    TarBase t qs (List.replicate t.n_vert false, DjsuRooted.new t.n_vert, []) := by
  obtain ⟨hwf, hlen, _⟩ := DjsuIndex.new_wf t.n_vert
  refine ⟨by simp, hwf, hlen, ?_, ?_, ?_, ?_, ?_, ?_⟩
  · show (List.range t.n_vert).length = t.n_vert
    exact List.length_range t.n_vert
  · intro u hu
    rw [getD_rep] at hu
    exact absurd hu Bool.noConfusion
  · intro y hy _
    rw [getD_rep] at hy
    exact absurd hy Bool.noConfusion
  · intro x hx a ha
    have hax : a = x := anchorAt_unvisited ha (getD_rep _ _ _)
    have hfix : IsFix (DjsuIndex.new t.n_vert).root x := by
      show parv (List.range t.n_vert) x = x
      exact DjsuIndex.getE_range hx
    have hrox : (DjsuIndex.new t.n_vert).rootOf x = x :=
      DjsuIndex.rootOf_of_isFix hwf (by rw [hlen]; exact hx) hfix
    show getE (List.range t.n_vert) ((DjsuIndex.new t.n_vert).rootOf x) = a
    rw [hrox, DjsuIndex.getE_range hx, hax]
  · intro w hw _
    exact DjsuIndex.getE_range hw
  · intro x hx y hy
    constructor
    · rintro ⟨_, hvx, _⟩
      rw [getD_rep] at hvx
      exact absurd hvx Bool.noConfusion
    · intro _
      rfl

/-! ### The whole postorder pass -/

/-- Folding `tarStep` over the postorder block of `v` (whose subtree is
still untouched): the invariant is preserved and exactly `v`'s subtree
gets marked visited. -/
theorem tarjan_block {t : TreeIndexed} (hg : TreeGood t) {qs : List (Nat × Nat)}
    (hq : ∀ q ∈ qs, q.1 < t.n_vert ∧ q.2 < t.n_vert)
    {pairs : List (List Nat)} (hpall : ∀ w < t.n_vert, pairs.getD w [] = partners qs w) :
    ∀ (fuel m v : Nat) (st : List Bool × DjsuRooted × List ((Nat × Nat) × Nat)),
      v < t.n_vert →
      (parv t.parent)^[m] v = t.root →
      (∀ j < m, (parv t.parent)^[j] v ≠ t.root) →
      t.n_vert ≤ fuel + m →
      TarBase t qs st →
      (∀ u < t.n_vert, t.Anc v u → st.1.getD u false = false) →
      (∀ a < t.n_vert, st.1.getD a false = false →
        (∃ c, IsChild t c a ∧ st.1.getD c false = true) → t.Anc a v) →
      st.1.getD t.root false = false →
      TarBase t qs
        ((TreeIndexed.postorderF t fuel v).foldl (LcaOffline.tarStep t pairs) st) ∧
      (∀ u, ((TreeIndexed.postorderF t fuel v).foldl
          (LcaOffline.tarStep t pairs) st).1.getD u false = true ↔
        (st.1.getD u false = true ∨ (u < t.n_vert ∧ t.Anc v u)))
  | 0, m, v, st, hv, hm, hmin, hfuel, _, _, _, _ => by
    have := hg.minchain_lt hv hm hmin
    omega
  | fuel + 1, m, v, st, hv, hm, hmin, hfuel, hB, hsubun, hH, hrootun => by
    rw [TreeIndexed.postorderF, List.foldl_append]
    have hinner : ∀ (cs done : List Nat) stc, done ++ cs = t.childrenOf v →
        TarBase t qs stc →
        (∀ u, stc.1.getD u false = true ↔
          (st.1.getD u false = true ∨ (u < t.n_vert ∧ ∃ c ∈ done, t.Anc c u))) →
        TarBase t qs ((cs.flatMap (TreeIndexed.postorderF t fuel)).foldl
          (LcaOffline.tarStep t pairs) stc) ∧
        (∀ u, ((cs.flatMap (TreeIndexed.postorderF t fuel)).foldl
            (LcaOffline.tarStep t pairs) stc).1.getD u false = true ↔
          (st.1.getD u false = true ∨
            (u < t.n_vert ∧ ∃ c ∈ done ++ cs, t.Anc c u))) := by
      intro cs
      induction cs with
      | nil =>
        intro done stc _ hBc hchar
        rw [List.flatMap_nil, List.foldl_nil]
        refine ⟨hBc, ?_⟩
        intro u
        rw [List.append_nil]
        exact hchar u
      | cons c cs ih =>
        intro done stc hsplit hBc hchar
        have hcmem : c ∈ t.childrenOf v := by
          rw [← hsplit]
          exact List.mem_append_right done (List.mem_cons_self c cs)
        have hc : IsChild t c v := (hg.children_mem hv).mp hcmem
        have hcnodup : (t.childrenOf v).Nodup := hg.children_nodup hv
        have hcnotdone : c ∉ done := by
          intro hcd
          have : ¬ (t.childrenOf v).Nodup := by
            rw [← hsplit]
            intro hnd
            obtain ⟨hnd1, hnd2⟩ := List.nodup_append.mp hnd
            exact hnd2.2 hcd (List.mem_cons_self c cs)
          exact this hcnodup
        have hstc_mono : ∀ u, st.1.getD u false = true → stc.1.getD u false = true :=
          fun u hu => (hchar u).mpr (Or.inl hu)
        have hancvc : t.Anc v c := TreeIndexed.anc_parent hc.2.2
        -- the child's block hypotheses
        have hsubun_c : ∀ u < t.n_vert, t.Anc c u → stc.1.getD u false = false := by
          intro u hu hanc
          cases hcase : stc.1.getD u false
          · rfl
          · exfalso
            rcases (hchar u).mp hcase with hold | ⟨_, c', hc'done, hanc'⟩
            · have := hsubun u hu (TreeIndexed.anc_trans hancvc hanc)
              rw [hold] at this
              exact Bool.noConfusion this
            · have hc' : IsChild t c' v := (hg.children_mem hv).mp (by
                rw [← hsplit]
                exact List.mem_append_left (c :: cs) hc'done)
              have hne : c' ≠ c := fun h => hcnotdone (h ▸ hc'done)
              exact hg.subtree_disjoint hc' hc hne hanc' hanc
        have hH_c : ∀ a < t.n_vert, stc.1.getD a false = false →
            (∃ ch, IsChild t ch a ∧ stc.1.getD ch false = true) → t.Anc a c := by
          intro a ha haun ⟨ch, hch, hchvis⟩
          have haun_st : st.1.getD a false = false := by
            cases hcase : st.1.getD a false
            · rfl
            · rw [hstc_mono a hcase] at haun
              exact Bool.noConfusion haun
          rcases (hchar ch).mp hchvis with hold | ⟨_, c', hc'done, hanc'⟩
          · exact TreeIndexed.anc_trans (hH a ha haun_st ⟨ch, hch, hold⟩) hancvc
          · have hc' : IsChild t c' v := (hg.children_mem hv).mp (by
              rw [← hsplit]
              exact List.mem_append_left (c :: cs) hc'done)
            by_cases hchc' : ch = c'
            · -- the visited child is the sibling root itself: a = v
              have hav : a = v := by
                rw [← hch.2.2, hchc', hc'.2.2]
              rw [hav]
              exact hancvc
            · -- otherwise its parent is inside the sibling subtree: visited
              exfalso
              rcases TreeGood.anc_step hanc' with heq | hanc''
              · exact hchc' heq.symm
              · rw [hch.2.2] at hanc''
                have := (hchar a).mpr (Or.inr ⟨ha, c', hc'done, hanc''⟩)
                rw [this] at haun
                exact Bool.noConfusion haun
        have hrootun_c : stc.1.getD t.root false = false := by
          cases hcase : stc.1.getD t.root false
          · rfl
          · exfalso
            rcases (hchar t.root).mp hcase with hold | ⟨_, c', hc'done, hanc'⟩
            · rw [hold] at hrootun
              exact Bool.noConfusion hrootun
            · have hc' : IsChild t c' v := (hg.children_mem hv).mp (by
                rw [← hsplit]
                exact List.mem_append_left (c :: cs) hc'done)
              exact hc'.2.1 (hg.anc_of_root hanc')
        obtain ⟨hBc', hchar'⟩ := tarjan_block hg hq hpall fuel (m + 1) c stc hc.1
          (by rw [Function.iterate_succ_apply, hc.2.2]; exact hm)
          (by
            intro j hj
            cases j with
            | zero => exact hc.2.1
            | succ j =>
              rw [Function.iterate_succ_apply, hc.2.2]
              exact hmin j (by omega))
          (by omega) hBc hsubun_c hH_c hrootun_c
        rw [List.flatMap_cons, List.foldl_append]
        have hchar2 : ∀ u, ((TreeIndexed.postorderF t fuel c).foldl
            (LcaOffline.tarStep t pairs) stc).1.getD u false = true ↔
            (st.1.getD u false = true ∨
              (u < t.n_vert ∧ ∃ c' ∈ done ++ [c], t.Anc c' u)) := by
          intro u
          rw [hchar' u]
          constructor
          · rintro (h | ⟨hu, hanc⟩)
            · rcases (hchar u).mp h with hold | ⟨hu, c', hc'done, hanc'⟩
              · exact Or.inl hold
              · exact Or.inr ⟨hu, c', List.mem_append_left [c] hc'done, hanc'⟩
            · exact Or.inr ⟨hu, c,
                List.mem_append_right done (List.mem_singleton_self c), hanc⟩
          · rintro (hold | ⟨hu, c', hc'mem, hanc'⟩)
            · exact Or.inl ((hchar u).mpr (Or.inl hold))
            · rcases List.mem_append.mp hc'mem with hc'done | hc'c
              · exact Or.inl ((hchar u).mpr (Or.inr ⟨hu, c', hc'done, hanc'⟩))
              · rw [List.mem_singleton] at hc'c
                exact Or.inr ⟨hu, hc'c ▸ hanc'⟩
        have hres := ih (done ++ [c]) _
          (by rw [← hsplit, List.append_assoc, List.singleton_append]) hBc' hchar2
        rw [List.append_assoc, List.singleton_append] at hres
        exact hres
    obtain ⟨hBf, hcharf⟩ := hinner (t.childrenOf v) [] st rfl hB (by
      intro u
      constructor
      · exact fun h => Or.inl h
      · rintro (h | ⟨_, c, hc, _⟩)
        · exact h
        · exact absurd hc (List.not_mem_nil c)
      )
    rw [List.nil_append] at hcharf
    set stf := ((t.childrenOf v).flatMap (TreeIndexed.postorderF t fuel)).foldl
      (LcaOffline.tarStep t pairs) st with hstf
    -- now the step at `v` itself
    have hvun_f : stf.1.getD v false = false := by
      cases hcase : stf.1.getD v false
      · rfl
      · exfalso
        rcases (hcharf v).mp hcase with hold | ⟨_, c, hcmem, hanc⟩
        · have := hsubun v hv (TreeIndexed.anc_refl t v)
          rw [hold] at this
          exact Bool.noConfusion this
        · have hc : IsChild t c v := (hg.children_mem hv).mp hcmem
          have hvc : t.Anc v c := TreeIndexed.anc_parent hc.2.2
          exact hg.child_ne_parent hc (hg.anc_antisymm hv hanc hvc)
    have hrootun_f : stf.1.getD t.root false = false := by
      cases hcase : stf.1.getD t.root false
      · rfl
      · exfalso
        rcases (hcharf t.root).mp hcase with hold | ⟨_, c, hcmem, hanc⟩
        · rw [hold] at hrootun
          exact Bool.noConfusion hrootun
        · have hc : IsChild t c v := (hg.children_mem hv).mp hcmem
          exact hc.2.1 (hg.anc_of_root hanc)
    have hsub_f : ∀ u < t.n_vert, u ≠ v → t.Anc v u → stf.1.getD u false = true := by
      intro u hu hne hanc
      obtain ⟨c, hc, hcanc⟩ := hg.child_of_anc hu hanc hne
      exact (hcharf u).mpr (Or.inr ⟨hu, c, (hg.children_mem hv).mpr hc, hcanc⟩)
    have hH_f : ∀ a < t.n_vert, stf.1.getD a false = false →
        (∃ c, IsChild t c a ∧ stf.1.getD c false = true) → t.Anc a v := by
      intro a ha haun ⟨ch, hch, hchvis⟩
      have haun_st : st.1.getD a false = false := by
        cases hcase : st.1.getD a false
        · rfl
        · rw [(hcharf a).mpr (Or.inl hcase)] at haun
          exact Bool.noConfusion haun
      rcases (hcharf ch).mp hchvis with hold | ⟨_, c', hc'mem, hanc'⟩
      · exact hH a ha haun_st ⟨ch, hch, hold⟩
      · have hc' : IsChild t c' v := (hg.children_mem hv).mp hc'mem
        by_cases hchc' : ch = c'
        · have hav : a = v := by
            rw [← hch.2.2, hchc', hc'.2.2]
          rw [hav]
          exact TreeIndexed.anc_refl t v
        · exfalso
          rcases TreeGood.anc_step hanc' with heq | hanc''
          · exact hchc' heq.symm
          · rw [hch.2.2] at hanc''
            have := (hcharf a).mpr (Or.inr ⟨ha, c', hc'mem, hanc''⟩)
            rw [this] at haun
            exact Bool.noConfusion haun
    obtain ⟨hset, hBout⟩ :=
      tarStep_spec hg hq hBf (hpall v hv) hv hvun_f hrootun_f hsub_f hH_f
    rw [List.foldl_cons, List.foldl_nil]
    refine ⟨hBout, ?_⟩
    intro u
    rw [hset, getD_set_true_iff (by rw [hBf.1]; exact hv) u, hcharf u]
    constructor
    · rintro (rfl | hold | ⟨hu, c, hcmem, hanc⟩)
      · exact Or.inr ⟨hv, TreeIndexed.anc_refl t u⟩
      · exact Or.inl hold
      · exact Or.inr ⟨hu, TreeIndexed.anc_trans
          (TreeIndexed.anc_parent ((hg.children_mem hv).mp hcmem).2.2) hanc⟩
    · rintro (hold | ⟨hu, hanc⟩)
      · exact Or.inr (Or.inl hold)
      · by_cases huv : u = v
        · exact Or.inl huv
        · obtain ⟨c, hc, hcanc⟩ := hg.child_of_anc hu hanc huv
          exact Or.inr (Or.inr ⟨hu, c, (hg.children_mem hv).mpr hc, hcanc⟩)

/-! ### The offline-LCA contract -/

/-- C1: for every tree built by `TreeIndexed::new` on a graph built by
`GraphIndexed::new`, and every batch of query pairs with in-range
endpoints, `LcaOffline::new` followed by `ancestor(v, u)` returns
`Ok(w)` with `w` the lowest common ancestor of `v` and `u` whenever the
unordered pair `{v, u}` (including a self-pair) is in the batch, returns
the recoverable `Err(())` whenever it is not, and `ancestor(v, u)` and
`ancestor(u, v)` always give the same result. -/
theorem C1_lca_offline_correct {n : Nat} {edges qs : List (Nat × Nat)} {root₀ : Nat}
    {g : GraphIndexed} {t : TreeIndexed}
    (hE : ∀ e ∈ edges, e.1 < n ∧ e.2 < n)
    (hgnew : GraphIndexed.new n edges = some g)
    (htnew : TreeIndexed.new g root₀ = some (Except.ok t))
    (hq : ∀ q ∈ qs, q.1 < t.n_vert ∧ q.2 < t.n_vert)
    {v u : Nat} (hv : v < t.n_vert) (hu : u < t.n_vert) :
    (pairInBatch qs v u →
      ∃ w, (LcaOffline.new t qs).ancestor v u = Except.ok w ∧ t.IsLca v u w) ∧
    (¬ pairInBatch qs v u →
      (LcaOffline.new t qs).ancestor v u = Except.error ()) ∧
    (LcaOffline.new t qs).ancestor v u = (LcaOffline.new t qs).ancestor u v := by
  obtain ⟨hgood, _, _, _⟩ := tree_new_good hE hgnew htnew
  obtain ⟨_, hpget⟩ := pairsOf_spec hq
  obtain ⟨hBf, hcharf⟩ := tarjan_block hgood hq hpget t.n_vert 0 t.root
    (List.replicate t.n_vert false, DjsuRooted.new t.n_vert, [])
    hgood.root_lt rfl (fun j hj => absurd hj (Nat.not_lt_zero j)) (by omega)
    (tarBase_init t qs)
    (fun w _ _ => getD_rep t.n_vert false w)
    (by
      intro a _ _ hex
      obtain ⟨c, _, hcvis⟩ := hex
      rw [getD_rep] at hcvis
      exact absurd hcvis Bool.noConfusion)
    (getD_rep t.n_vert false t.root)
  have hvisall : ∀ x < t.n_vert, ((TreeIndexed.postorderF t t.n_vert t.root).foldl
      (LcaOffline.tarStep t (LcaOffline.pairsOf t qs))
      (List.replicate t.n_vert false, DjsuRooted.new t.n_vert, [])).1.getD x false
        = true := by
    intro x hx
    exact (hcharf x).mpr (Or.inr ⟨hx, hgood.preach x hx⟩)
  have hB9 := hBf.2.2.2.2.2.2.2.2
  refine ⟨?_, ?_, ?_⟩
  · intro hpb
    obtain ⟨w, hw, hlca⟩ := (hB9 v hv u hu).1 ⟨hpb, hvisall v hv, hvisall u hu⟩
    refine ⟨w, ?_, hlca⟩
    have hlook : (LcaOffline.new t qs).result.lookup (LcaOffline.order v u) = some w := hw
    rw [LcaOffline.ancestor, hlook]
  · intro hnpb
    have hnone := (hB9 v hv u hu).2 (fun hc => hnpb hc.1)
    have hlook : (LcaOffline.new t qs).result.lookup (LcaOffline.order v u) = none := hnone
    rw [LcaOffline.ancestor, hlook]
  · rw [LcaOffline.ancestor, LcaOffline.ancestor, order_comm v u]

/-- Witness for C1 on the module's doctest instance: the tree over
`GraphIndexed::new(4, &[(0,1), (2,1), (1,3)])` rooted at 3, queried with
`[(0, 2), (1, 3)]`: `ancestor(2, 0)` answers with the true LCA, the
unqueried pair `(2, 3)` reports the recoverable error, and the argument
order does not matter. -/
theorem C1_witness :
    ((∃ w, (LcaOffline.new tW [(0, 2), (1, 3)]).ancestor 2 0 = Except.ok w ∧
      tW.IsLca 2 0 w) ∧
    (LcaOffline.new tW [(0, 2), (1, 3)]).ancestor 2 3 = Except.error ()) ∧
    (LcaOffline.new tW [(0, 2), (1, 3)]).ancestor 2 0
      = (LcaOffline.new tW [(0, 2), (1, 3)]).ancestor 0 2 := by
  have hE : ∀ e ∈ [((0 : Nat), (1 : Nat)), (2, 1), (1, 3)], e.1 < 4 ∧ e.2 < 4 := by decide
  have hgnew : GraphIndexed.new 4 [(0, 1), (2, 1), (1, 3)] = some gW := by decide
  have htnew : TreeIndexed.new gW 3 = some (Except.ok tW) := rfl
  have hq : ∀ q ∈ [((0 : Nat), (2 : Nat)), (1, 3)],
      q.1 < tW.n_vert ∧ q.2 < tW.n_vert := by decide
  have h20 := C1_lca_offline_correct hE hgnew htnew hq
    (show (2 : Nat) < tW.n_vert by decide) (show (0 : Nat) < tW.n_vert by decide)
  have h23 := C1_lca_offline_correct hE hgnew htnew hq
    (show (2 : Nat) < tW.n_vert by decide) (show (3 : Nat) < tW.n_vert by decide)
  exact ⟨⟨h20.1 (Or.inr (by decide)),
    h23.2.1 (by
      intro hc
      rcases hc with h | h <;> exact absurd h (by decide))⟩, h20.2.2⟩

end Ralgo
